import Mathlib

/-! Filesystem analysis engine (agent/internal/remote/tools/filesystem_analysis.go).

A shallow embedding of the Go code and proofs about it.  The patch identifiers of the Homebrew
provider (agent/internal/patching/homebrew.go) are embedded at the end of the definitions.

Conventions of the embedding

* Go `int` and `int64` values are `Int`; the operations modelled here only compare and add
  sizes and counters.  Byte totals are taken to stay below 2^63, as they do on any real
  volume, so that sums do not wrap around.
* A Go slice is a `List`; a function that mutates a slice through a pointer returns the new list.
* A Go string is a `String`, read as its list of runes (the string is valid UTF-8).
  `strings.ToLower` applies `unicode.ToLower` to every rune; package `unicode` is embedded with
  the table of lower-case forms that `unicode.ToLower` reads.
* A `time.Time` is an `Int` count of nanoseconds; `a.After(b)` is `a > b`.
* A Go map with string keys is an association list with distinct keys (`mapGet`, `mapSet`).
  The order in which `range` visits a map is unspecified in Go; it is a parameter `mapRange`
  whose only contract is that it rearranges the entries (`MapRangeSpec`).
* `sort.Slice` belongs to the Go standard library and is not stable.  It is a parameter
  `sortSlice` of every function that calls it; theorems assume only its documented contract
  (`SortSliceSpec`).  `insertionSortFunc` is the insertion sort that the library runs on short
  slices and is used as a concrete instance.
-/

namespace FsAnalysis

/-! ## The standard library sort -/

/-- Requirements of package `sort` on a less function: irreflexive and a transitive ordering
(both `less` and its negation are transitive). -/
def LessOK {α : Type} (less : α → α → Bool) : Prop :=
  (∀ a, less a a = false) ∧
  (∀ a b c, less a b = true → less b c = true → less a c = true) ∧
  (∀ a b c, less a b = false → less b c = false → less a c = false)

/-- Contract of `sort.Slice`: the result is a rearrangement of the input, and for a proper less
function no later element is less than an earlier one.  Nothing is promised about the relative
order of elements that compare equal. -/
def SortSliceSpec (sortSlice : {α : Type} → (α → α → Bool) → List α → List α) : Prop :=
  ∀ {α : Type} (less : α → α → Bool) (l : List α),
    (sortSlice less l).Perm l ∧
    (LessOK less → (sortSlice less l).Pairwise (fun a b => less b a = false))

/-- Inner loop of the library insertion sort: `x` moves left past every element it is less than.
The already sorted prefix is given nearest element first. -/
def sinkLeft {α : Type} (less : α → α → Bool) (x : α) : List α → List α
  | [] => [x]
  | y :: rest => if less x y then y :: sinkLeft less x rest else x :: y :: rest

/-- The insertion sort `insertionSortLessFunc` of package `sort`, which `sort.Slice` runs on
slices of at most 12 elements. -/
def insertionSortFunc {α : Type} (less : α → α → Bool) (l : List α) : List α :=
  (l.foldl (fun revPrefix x => sinkLeft less x revPrefix) []).reverse

/-! ## Top-K collectors -/

/-- Entry of the largest-files list (fields as used by `AnalyzeFilesystem`). -/
structure FilesystemLargestFile where
  Path : String
  SizeBytes : Int
  ModifiedAt : String
  Owner : String
deriving DecidableEq, Repr

/-- Entry of the largest-directories list (fields as used by `AnalyzeFilesystem`). -/
structure FilesystemLargestDirectory where
  Path : String
  SizeBytes : Int
  FileCount : Int
deriving DecidableEq, Repr

/-- `addTopLargestFile(top, file, limit)`; returns the new contents of `*top`. -/
def addTopLargestFile (sortSlice : {α : Type} → (α → α → Bool) → List α → List α)
    (top : List FilesystemLargestFile) (file : FilesystemLargestFile) (limit : Int) :
    List FilesystemLargestFile :=
  if limit ≤ 0 then top
  else if (top.length : Int) < limit then
    sortSlice (fun a b => decide (a.SizeBytes > b.SizeBytes)) (top ++ [file])
  else
    let minIdx := top.length - 1
    match top[minIdx]? with
    | none => top -- not reached: here len(top) ≥ limit ≥ 1
    | some last =>
      if file.SizeBytes ≤ last.SizeBytes then top
      else sortSlice (fun a b => decide (a.SizeBytes > b.SizeBytes)) (top.set minIdx file)

/-- `addTopLargestDir(top, dir, limit)`; returns the new contents of `*top`. -/
def addTopLargestDir (sortSlice : {α : Type} → (α → α → Bool) → List α → List α)
    (top : List FilesystemLargestDirectory) (dir : FilesystemLargestDirectory) (limit : Int) :
    List FilesystemLargestDirectory :=
  if limit ≤ 0 then top
  else if (top.length : Int) < limit then
    sortSlice (fun a b => decide (a.SizeBytes > b.SizeBytes)) (top ++ [dir])
  else
    let minIdx := top.length - 1
    match top[minIdx]? with
    | none => top -- not reached: here len(top) ≥ limit ≥ 1
    | some last =>
      if dir.SizeBytes ≤ last.SizeBytes then top
      else sortSlice (fun a b => decide (a.SizeBytes > b.SizeBytes)) (top.set minIdx dir)

/-- The files inserted one by one into an initially empty list. -/
def insertFiles (sortSlice : {α : Type} → (α → α → Bool) → List α → List α)
    (limit : Int) (files : List FilesystemLargestFile) : List FilesystemLargestFile :=
  files.foldl (fun top f => addTopLargestFile sortSlice top f limit) []

/-- The directories inserted one by one into an initially empty list. -/
def insertDirs (sortSlice : {α : Type} → (α → α → Bool) → List α → List α)
    (limit : Int) (dirs : List FilesystemLargestDirectory) : List FilesystemLargestDirectory :=
  dirs.foldl (fun top d => addTopLargestDir sortSlice top d limit) []

/-- The `k` largest of a list of sizes, largest first (all of them when there are fewer). -/
def largestSizes (k : Nat) (sizes : List Int) : List Int :=
  (sizes.insertionSort (fun a b => a ≥ b)).take k

/-- Common shape of `addTopLargestFile` and `addTopLargestDir`, used to prove facts about both
at once (see `addTopLargestFile_eq` and `addTopLargestDir_eq`). -/
def topInsert {α : Type} (size : α → Int)
    (sortSlice : {α : Type} → (α → α → Bool) → List α → List α)
    (top : List α) (x : α) (limit : Int) : List α :=
  if limit ≤ 0 then top
  else if (top.length : Int) < limit then
    sortSlice (fun a b => decide (size a > size b)) (top ++ [x])
  else
    match top[top.length - 1]? with
    | none => top
    | some last =>
      if size x ≤ size last then top
      else sortSlice (fun a b => decide (size a > size b)) (top.set (top.length - 1) x)

/-- Invariant of a top-K list after the sizes `seen` were offered: it is sorted largest first,
holds at most `limit` entries, and what it dropped (`rest`) is no larger than anything kept;
something was dropped only when the list is full. -/
def TopInv {α : Type} (size : α → Int) (limit : Int) (top : List α) (seen : List Int) : Prop :=
  (top.map size).Sorted (fun a b => a ≥ b) ∧ (top.length : Int) ≤ limit ∧
  ∃ rest : List Int, seen.Perm (top.map size ++ rest) ∧
    (∀ r ∈ rest, ∀ t ∈ top.map size, r ≤ t) ∧ (rest ≠ [] → (top.length : Int) = limit)

/-! ## Package `unicode` -/

/-- Constant `unicode.MaxRune`. -/
def maxRune : Int := 0x10FFFF

/-- Constant `unicode.UpperLower`: the delta that marks a run of alternating upper-case and
lower-case letters. -/
def upperLower : Int := maxRune + 1

/-- An entry of the table `unicode.CaseRanges`: the runes `Lo` to `Hi`, and of the three deltas
of the entry the one that leads to lower case (`Delta[LowerCase]`). -/
structure CaseRange where
  Lo : Nat
  Hi : Nat
  Delta : Int
deriving DecidableEq, Repr

/-- The lower-case mappings of the table `unicode.CaseRanges` of the library (Unicode 15.0.0,
the version of package `unicode` since Go 1.21): the runes that have a lower-case form other
than themselves, as runs in ascending order with the delta that leads to the lower-case form.
A run of pairs that alternate an upper-case letter and its lower-case form has the delta
`upperLower`, as in the library.  The entries of the library for runes that `unicode.ToLower`
leaves alone are left out. -/
def caseRanges : List CaseRange :=
  [CaseRange.mk 0x0041 0x005A 32, CaseRange.mk 0x00C0 0x00D6 32, CaseRange.mk 0x00D8 0x00DE 32,
   CaseRange.mk 0x0100 0x012F upperLower, CaseRange.mk 0x0130 0x0130 (-199),
   CaseRange.mk 0x0132 0x0137 upperLower, CaseRange.mk 0x0139 0x0148 upperLower,
   CaseRange.mk 0x014A 0x0177 upperLower, CaseRange.mk 0x0178 0x0178 (-121),
   CaseRange.mk 0x0179 0x017E upperLower, CaseRange.mk 0x0181 0x0181 210,
   CaseRange.mk 0x0182 0x0185 upperLower, CaseRange.mk 0x0186 0x0186 206,
   CaseRange.mk 0x0187 0x0188 upperLower, CaseRange.mk 0x0189 0x018A 205,
   CaseRange.mk 0x018B 0x018C upperLower, CaseRange.mk 0x018E 0x018E 79,
   CaseRange.mk 0x018F 0x018F 202, CaseRange.mk 0x0190 0x0190 203,
   CaseRange.mk 0x0191 0x0192 upperLower, CaseRange.mk 0x0193 0x0193 205,
   CaseRange.mk 0x0194 0x0194 207, CaseRange.mk 0x0196 0x0196 211, CaseRange.mk 0x0197 0x0197 209,
   CaseRange.mk 0x0198 0x0199 upperLower, CaseRange.mk 0x019C 0x019C 211,
   CaseRange.mk 0x019D 0x019D 213, CaseRange.mk 0x019F 0x019F 214,
   CaseRange.mk 0x01A0 0x01A5 upperLower, CaseRange.mk 0x01A6 0x01A6 218,
   CaseRange.mk 0x01A7 0x01A8 upperLower, CaseRange.mk 0x01A9 0x01A9 218,
   CaseRange.mk 0x01AC 0x01AD upperLower, CaseRange.mk 0x01AE 0x01AE 218,
   CaseRange.mk 0x01AF 0x01B0 upperLower, CaseRange.mk 0x01B1 0x01B2 217,
   CaseRange.mk 0x01B3 0x01B6 upperLower, CaseRange.mk 0x01B7 0x01B7 219,
   CaseRange.mk 0x01B8 0x01B9 upperLower, CaseRange.mk 0x01BC 0x01BD upperLower,
   CaseRange.mk 0x01C4 0x01C4 2, CaseRange.mk 0x01C5 0x01C5 1, CaseRange.mk 0x01C7 0x01C7 2,
   CaseRange.mk 0x01C8 0x01C8 1, CaseRange.mk 0x01CA 0x01CA 2, CaseRange.mk 0x01CB 0x01CB 1,
   CaseRange.mk 0x01CD 0x01DC upperLower, CaseRange.mk 0x01DE 0x01EF upperLower,
   CaseRange.mk 0x01F1 0x01F1 2, CaseRange.mk 0x01F2 0x01F2 1,
   CaseRange.mk 0x01F4 0x01F5 upperLower, CaseRange.mk 0x01F6 0x01F6 (-97),
   CaseRange.mk 0x01F7 0x01F7 (-56), CaseRange.mk 0x01F8 0x021F upperLower,
   CaseRange.mk 0x0220 0x0220 (-130), CaseRange.mk 0x0222 0x0233 upperLower,
   CaseRange.mk 0x023A 0x023A 10795, CaseRange.mk 0x023B 0x023C upperLower,
   CaseRange.mk 0x023D 0x023D (-163), CaseRange.mk 0x023E 0x023E 10792,
   CaseRange.mk 0x0241 0x0242 upperLower, CaseRange.mk 0x0243 0x0243 (-195),
   CaseRange.mk 0x0244 0x0244 69, CaseRange.mk 0x0245 0x0245 71,
   CaseRange.mk 0x0246 0x024F upperLower, CaseRange.mk 0x0370 0x0373 upperLower,
   CaseRange.mk 0x0376 0x0377 upperLower, CaseRange.mk 0x037F 0x037F 116,
   CaseRange.mk 0x0386 0x0386 38, CaseRange.mk 0x0388 0x038A 37, CaseRange.mk 0x038C 0x038C 64,
   CaseRange.mk 0x038E 0x038F 63, CaseRange.mk 0x0391 0x03A1 32, CaseRange.mk 0x03A3 0x03AB 32,
   CaseRange.mk 0x03CF 0x03CF 8, CaseRange.mk 0x03D8 0x03EF upperLower,
   CaseRange.mk 0x03F4 0x03F4 (-60), CaseRange.mk 0x03F7 0x03F8 upperLower,
   CaseRange.mk 0x03F9 0x03F9 (-7), CaseRange.mk 0x03FA 0x03FB upperLower,
   CaseRange.mk 0x03FD 0x03FF (-130), CaseRange.mk 0x0400 0x040F 80,
   CaseRange.mk 0x0410 0x042F 32, CaseRange.mk 0x0460 0x0481 upperLower,
   CaseRange.mk 0x048A 0x04BF upperLower, CaseRange.mk 0x04C0 0x04C0 15,
   CaseRange.mk 0x04C1 0x04CE upperLower, CaseRange.mk 0x04D0 0x052F upperLower,
   CaseRange.mk 0x0531 0x0556 48, CaseRange.mk 0x10A0 0x10C5 7264,
   CaseRange.mk 0x10C7 0x10C7 7264, CaseRange.mk 0x10CD 0x10CD 7264,
   CaseRange.mk 0x13A0 0x13EF 38864, CaseRange.mk 0x13F0 0x13F5 8,
   CaseRange.mk 0x1C90 0x1CBA (-3008), CaseRange.mk 0x1CBD 0x1CBF (-3008),
   CaseRange.mk 0x1E00 0x1E95 upperLower, CaseRange.mk 0x1E9E 0x1E9E (-7615),
   CaseRange.mk 0x1EA0 0x1EFF upperLower, CaseRange.mk 0x1F08 0x1F0F (-8),
   CaseRange.mk 0x1F18 0x1F1D (-8), CaseRange.mk 0x1F28 0x1F2F (-8),
   CaseRange.mk 0x1F38 0x1F3F (-8), CaseRange.mk 0x1F48 0x1F4D (-8),
   CaseRange.mk 0x1F59 0x1F59 (-8), CaseRange.mk 0x1F5B 0x1F5B (-8),
   CaseRange.mk 0x1F5D 0x1F5D (-8), CaseRange.mk 0x1F5F 0x1F5F (-8),
   CaseRange.mk 0x1F68 0x1F6F (-8), CaseRange.mk 0x1F88 0x1F8F (-8),
   CaseRange.mk 0x1F98 0x1F9F (-8), CaseRange.mk 0x1FA8 0x1FAF (-8),
   CaseRange.mk 0x1FB8 0x1FB9 (-8), CaseRange.mk 0x1FBA 0x1FBB (-74),
   CaseRange.mk 0x1FBC 0x1FBC (-9), CaseRange.mk 0x1FC8 0x1FCB (-86),
   CaseRange.mk 0x1FCC 0x1FCC (-9), CaseRange.mk 0x1FD8 0x1FD9 (-8),
   CaseRange.mk 0x1FDA 0x1FDB (-100), CaseRange.mk 0x1FE8 0x1FE9 (-8),
   CaseRange.mk 0x1FEA 0x1FEB (-112), CaseRange.mk 0x1FEC 0x1FEC (-7),
   CaseRange.mk 0x1FF8 0x1FF9 (-128), CaseRange.mk 0x1FFA 0x1FFB (-126),
   CaseRange.mk 0x1FFC 0x1FFC (-9), CaseRange.mk 0x2126 0x2126 (-7517),
   CaseRange.mk 0x212A 0x212A (-8383), CaseRange.mk 0x212B 0x212B (-8262),
   CaseRange.mk 0x2132 0x2132 28, CaseRange.mk 0x2160 0x216F 16,
   CaseRange.mk 0x2183 0x2184 upperLower, CaseRange.mk 0x24B6 0x24CF 26,
   CaseRange.mk 0x2C00 0x2C2F 48, CaseRange.mk 0x2C60 0x2C61 upperLower,
   CaseRange.mk 0x2C62 0x2C62 (-10743), CaseRange.mk 0x2C63 0x2C63 (-3814),
   CaseRange.mk 0x2C64 0x2C64 (-10727), CaseRange.mk 0x2C67 0x2C6C upperLower,
   CaseRange.mk 0x2C6D 0x2C6D (-10780), CaseRange.mk 0x2C6E 0x2C6E (-10749),
   CaseRange.mk 0x2C6F 0x2C6F (-10783), CaseRange.mk 0x2C70 0x2C70 (-10782),
   CaseRange.mk 0x2C72 0x2C73 upperLower, CaseRange.mk 0x2C75 0x2C76 upperLower,
   CaseRange.mk 0x2C7E 0x2C7F (-10815), CaseRange.mk 0x2C80 0x2CE3 upperLower,
   CaseRange.mk 0x2CEB 0x2CEE upperLower, CaseRange.mk 0x2CF2 0x2CF3 upperLower,
   CaseRange.mk 0xA640 0xA66D upperLower, CaseRange.mk 0xA680 0xA69B upperLower,
   CaseRange.mk 0xA722 0xA72F upperLower, CaseRange.mk 0xA732 0xA76F upperLower,
   CaseRange.mk 0xA779 0xA77C upperLower, CaseRange.mk 0xA77D 0xA77D (-35332),
   CaseRange.mk 0xA77E 0xA787 upperLower, CaseRange.mk 0xA78B 0xA78C upperLower,
   CaseRange.mk 0xA78D 0xA78D (-42280), CaseRange.mk 0xA790 0xA793 upperLower,
   CaseRange.mk 0xA796 0xA7A9 upperLower, CaseRange.mk 0xA7AA 0xA7AA (-42308),
   CaseRange.mk 0xA7AB 0xA7AB (-42319), CaseRange.mk 0xA7AC 0xA7AC (-42315),
   CaseRange.mk 0xA7AD 0xA7AD (-42305), CaseRange.mk 0xA7AE 0xA7AE (-42308),
   CaseRange.mk 0xA7B0 0xA7B0 (-42258), CaseRange.mk 0xA7B1 0xA7B1 (-42282),
   CaseRange.mk 0xA7B2 0xA7B2 (-42261), CaseRange.mk 0xA7B3 0xA7B3 928,
   CaseRange.mk 0xA7B4 0xA7C3 upperLower, CaseRange.mk 0xA7C4 0xA7C4 (-48),
   CaseRange.mk 0xA7C5 0xA7C5 (-42307), CaseRange.mk 0xA7C6 0xA7C6 (-35384),
   CaseRange.mk 0xA7C7 0xA7CA upperLower, CaseRange.mk 0xA7D0 0xA7D1 upperLower,
   CaseRange.mk 0xA7D6 0xA7D9 upperLower, CaseRange.mk 0xA7F5 0xA7F6 upperLower,
   CaseRange.mk 0xFF21 0xFF3A 32, CaseRange.mk 0x10400 0x10427 40,
   CaseRange.mk 0x104B0 0x104D3 40, CaseRange.mk 0x10570 0x1057A 39,
   CaseRange.mk 0x1057C 0x1058A 39, CaseRange.mk 0x1058C 0x10592 39,
   CaseRange.mk 0x10594 0x10595 39, CaseRange.mk 0x10C80 0x10CB2 64,
   CaseRange.mk 0x118A0 0x118BF 32, CaseRange.mk 0x16E40 0x16E5F 32,
   CaseRange.mk 0x1E900 0x1E921 34]

/-- The library function `to(LowerCase, r, caseRange)` of package `unicode`: the entry that
holds `r` decides.  For a run marked `upperLower` the result is the rune at the odd offset,
`Lo + ((r - Lo) &^ 1 | 1)`; otherwise it is `r + delta`; a rune in no entry is returned as it
is.  The library finds the entry by binary search; the entries are disjoint and ascending, so
the scan from the left finds the same one. -/
def unicodeTo (r : Nat) : List CaseRange → Nat
  | [] => r
  | cr :: rest =>
    if cr.Lo ≤ r ∧ r ≤ cr.Hi then
      if cr.Delta > maxRune then cr.Lo + ((r - cr.Lo) / 2 * 2 + 1)
      else ((r : Int) + cr.Delta).toNat
    else unicodeTo r rest

/-- `unicode.ToLower(r)`: an ASCII rune is answered at once (`A` to `Z` move by 32), any other
rune through the table. -/
def unicodeToLower (c : Char) : Char :=
  if c.toNat ≤ 0x7F then
    if 65 ≤ c.toNat ∧ c.toNat ≤ 90 then Char.ofNat (c.toNat + 32) else c
  else Char.ofNat (unicodeTo c.toNat caseRanges)

/-- `unicode.IsSpace`. -/
def unicodeIsSpace (c : Char) : Bool :=
  let n := c.toNat
  (9 ≤ n && n ≤ 13) || n = 32 || n = 0x85 || n = 0xA0 || n = 0x1680 ||
  (0x2000 ≤ n && n ≤ 0x200A) || n = 0x2028 || n = 0x2029 || n = 0x202F || n = 0x205F ||
  n = 0x3000

/-- The rune the entry `cr` gives for a rune `r` that it holds. -/
def applyRange (cr : CaseRange) (r : Nat) : Nat :=
  if cr.Delta > maxRune then cr.Lo + ((r - cr.Lo) / 2 * 2 + 1)
  else ((r : Int) + cr.Delta).toNat

/-- The entries are in ascending order from `bound` on and do not overlap. -/
def ascendingFrom (bound : Nat) : List CaseRange → Bool
  | [] => true
  | cr :: rest => decide (bound ≤ cr.Lo) && decide (cr.Lo ≤ cr.Hi) && ascendingFrom (cr.Hi + 1) rest

/-- No rune from `a` to `b` is white space or a backslash, and all of them are Unicode scalar
values. -/
def plainInterval (a b : Nat) : Bool :=
  decide (b < 9) || (decide (13 < a) && decide (b < 32)) ||
  (decide (32 < a) && decide (b < 92)) || (decide (92 < a) && decide (b < 0x85)) ||
  (decide (0x85 < a) && decide (b < 0xA0)) || (decide (0xA0 < a) && decide (b < 0x1680)) ||
  (decide (0x1680 < a) && decide (b < 0x2000)) || (decide (0x200A < a) && decide (b < 0x2028)) ||
  (decide (0x2029 < a) && decide (b < 0x202F)) || (decide (0x202F < a) && decide (b < 0x205F)) ||
  (decide (0x205F < a) && decide (b < 0x3000)) || (decide (0x3000 < a) && decide (b < 0xD800)) ||
  (decide (0xDFFF < a) && decide (b < 0x110000))

/-- What the proofs need of an entry `cr` of the table `t`: its runes and their lower-case
forms are no white space, no backslash and are scalar values; a lower-case form is in no entry
of the table (for an alternating run: the run ends on a lower-case letter); and the lower-case
form of a rune that is not ASCII is not ASCII, the letters `i` and `k` apart. -/
def entryGood (t : List CaseRange) (cr : CaseRange) : Bool :=
  plainInterval cr.Lo cr.Hi &&
  if cr.Delta > maxRune then decide ((cr.Hi - cr.Lo) % 2 = 1)
  else
    decide (0 ≤ (cr.Lo : Int) + cr.Delta) &&
    plainInterval ((cr.Lo : Int) + cr.Delta).toNat ((cr.Hi : Int) + cr.Delta).toNat &&
    t.all (fun x => decide (((cr.Hi : Int) + cr.Delta).toNat < x.Lo) ||
      decide (x.Hi < ((cr.Lo : Int) + cr.Delta).toNat)) &&
    (decide (cr.Hi ≤ 127) || decide (127 < ((cr.Lo : Int) + cr.Delta).toNat) ||
      (decide (cr.Lo = cr.Hi) && (decide (((cr.Lo : Int) + cr.Delta).toNat = 105) ||
        decide (((cr.Lo : Int) + cr.Delta).toNat = 107))))

/-! ## Package `strings` -/

/-- `strings.ToLower(s)`: `unicode.ToLower` applied to every rune of `s`. -/
def stringsToLower (s : String) : String := ⟨s.data.map unicodeToLower⟩

/-- Worker of `stringsReplaceAll`: scans left to right; `skip` counts the characters of a
match that are still to be dropped. -/
def replaceAllChars (old new : List Char) : Nat → List Char → List Char
  | _, [] => []
  | skip + 1, _ :: cs => replaceAllChars old new skip cs
  | 0, c :: cs =>
    if old.isPrefixOf (c :: cs) then new ++ replaceAllChars old new (old.length - 1) cs
    else c :: replaceAllChars old new 0 cs

/-- `strings.ReplaceAll(s, old, new)` for a non-empty `old` (every call in this file passes a
non-empty constant): non-overlapping occurrences are replaced from the left. -/
def stringsReplaceAll (s old new : String) : String :=
  ⟨replaceAllChars old.data new.data 0 s.data⟩

/-- Worker of `stringsContains`. -/
def containsChars (sub : List Char) : List Char → Bool
  | [] => sub.isEmpty
  | c :: cs => sub.isPrefixOf (c :: cs) || containsChars sub cs

/-- `strings.Contains(s, substr)`. -/
def stringsContains (s substr : String) : Bool := containsChars substr.data s.data

/-- `strings.HasSuffix(s, suffix)`. -/
def stringsHasSuffix (s suffix : String) : Bool := suffix.data.isSuffixOf s.data

/-- `strings.TrimSpace(s)`. -/
def stringsTrimSpace (s : String) : String :=
  ⟨((s.data.dropWhile unicodeIsSpace).reverse.dropWhile unicodeIsSpace).reverse⟩

/-! ## Path checks -/

/-- Constant `unrotatedLogMinBytes`. -/
def unrotatedLogMinBytes : Int := 100 * 1024 * 1024

/-- `normalizePathForChecks(path)`. -/
def normalizePathForChecks (path : String) : String :=
  stringsToLower (stringsReplaceAll path "\\" "/")

/-- `isOldDownload(path, modifiedAt, threshold)`. -/
def isOldDownload (path : String) (modifiedAt threshold : Int) : Bool :=
  if modifiedAt > threshold then false
  else
    let n := normalizePathForChecks path
    stringsContains n "/downloads/" || stringsHasSuffix n "/downloads"

/-- `isUnrotatedLog(path, sizeBytes)`. -/
def isUnrotatedLog (path : String) (sizeBytes : Int) : Bool :=
  if sizeBytes < unrotatedLogMinBytes then false
  else
    let n := normalizePathForChecks path
    stringsHasSuffix n ".log"

/-- One hour as a `time.Duration` (nanoseconds). -/
def timeHour : Int := 3600 * 1000000000

/-- The threshold `oldDownloadsThreshold := now.Add(-30 * 24 * time.Hour)` computed once by
`AnalyzeFilesystem`. -/
def oldDownloadsThreshold (now : Int) : Int := now + (-30 * 24 * timeHour)

/-! ## Go maps -/

/-- Map lookup `m[k]` with its presence flag. -/
def mapGet {V : Type} (m : List (String × V)) (k : String) : Option V := m.lookup k

/-- Map assignment `m[k] = v`. -/
def mapSet {V : Type} (m : List (String × V)) (k : String) (v : V) : List (String × V) :=
  match m.lookup k with
  | none => m ++ [(k, v)]
  | some _ => m.map (fun e => if e.1 = k then (k, v) else e)

/-- Contract of `range` over a map: every entry is visited once, in some order. -/
def MapRangeSpec (mapRange : {V : Type} → List (String × V) → List (String × V)) : Prop :=
  ∀ {V : Type} (m : List (String × V)), (mapRange m).Perm m

/-! ## Duplicate candidates -/

/-- Struct `duplicateGroup`. -/
structure duplicateGroup where
  Key : String
  SizeBytes : Int
  Paths : List String
deriving DecidableEq, Repr

/-- Entry of the duplicate-candidates list (fields as built by `buildDuplicateCandidateList`). -/
structure FilesystemDuplicateCandidate where
  Key : String
  SizeBytes : Int
  Count : Int
  Paths : List String
deriving DecidableEq, Repr

/-- `filepath.Base(path)` of the standard library, with `/` as the separator. -/
def filepathBase (path : String) : String :=
  if path = "" then "."
  else
    let stripped := path.data.reverse.dropWhile (fun c => c = '/')
    if stripped = [] then "/"
    else ⟨(stripped.takeWhile (fun c => c ≠ '/')).reverse⟩

/-- `normalizeDuplicateName(name)`. -/
def normalizeDuplicateName (name : String) : String :=
  let n := stringsTrimSpace (stringsToLower name)
  let n := stringsReplaceAll n " (copy)" ""
  stringsReplaceAll n " - copy" ""

/-- The map key `fmt.Sprintf("%d|%s", sizeBytes, base)`. -/
def duplicateKey (sizeBytes : Int) (base : String) : String :=
  toString sizeBytes ++ "|" ++ base

/-- `addDuplicateCandidate(groups, path, sizeBytes)`; returns the new contents of the map. -/
def addDuplicateCandidate (groups : List (String × duplicateGroup)) (path : String)
    (sizeBytes : Int) : List (String × duplicateGroup) :=
  let base := normalizeDuplicateName (filepathBase path)
  if base = "" ∨ sizeBytes ≤ 0 then groups
  else
    let key := duplicateKey sizeBytes base
    match mapGet groups key with
    | none => mapSet groups key ⟨key, sizeBytes, [path]⟩
    | some group =>
      if group.Paths.length < 50 then
        mapSet groups key { group with Paths := group.Paths ++ [path] }
      else groups

/-- `buildDuplicateCandidateList(groups, limit)`.  The limit is a `Nat`: the only call passes
200, and the Go slice expression `candidates[:limit]` is defined only for a limit ≥ 0. -/
def buildDuplicateCandidateList
    (sortSlice : {α : Type} → (α → α → Bool) → List α → List α)
    (mapRange : {V : Type} → List (String × V) → List (String × V))
    (groups : List (String × duplicateGroup)) (limit : Nat) :
    List FilesystemDuplicateCandidate :=
  let candidates := (mapRange groups).filterMap (fun e =>
    if e.2.Paths.length < 2 then none
    else some
      { Key := e.2.Key, SizeBytes := e.2.SizeBytes, Count := (e.2.Paths.length : Int),
        Paths := e.2.Paths })
  let candidates := sortSlice (fun a b : FilesystemDuplicateCandidate =>
    if a.SizeBytes = b.SizeBytes then decide (a.Count > b.Count)
    else decide (a.SizeBytes > b.SizeBytes)) candidates
  if candidates.length > limit then candidates.take limit else candidates

/-- The map after the files (path, size) were fed through `addDuplicateCandidate` in order,
starting from the empty map. -/
def feedDuplicates (files : List (String × Int)) : List (String × duplicateGroup) :=
  files.foldl (fun groups f => addDuplicateCandidate groups f.1 f.2) []

/-- The key under which `addDuplicateCandidate` files an entry, or `none` when it ignores the
entry (empty normalized name or size ≤ 0). -/
def duplicateKeyOf (f : String × Int) : Option String :=
  if normalizeDuplicateName (filepathBase f.1) = "" ∨ f.2 ≤ 0 then none
  else some (duplicateKey f.2 (normalizeDuplicateName (filepathBase f.1)))

/-! ## Constants and small helpers of the scan -/

/-- Constant `defaultFSMaxDepth`. -/
def defaultFSMaxDepth : Int := 6
/-- Constant `defaultFSTopFiles`. -/
def defaultFSTopFiles : Int := 50
/-- Constant `defaultFSTopDirs`. -/
def defaultFSTopDirs : Int := 30
/-- Constant `defaultFSMaxEntries`. -/
def defaultFSMaxEntries : Int := 200000
/-- Constant `defaultFSTimeoutSecs`. -/
def defaultFSTimeoutSecs : Int := 20
/-- Constant `maxFSErrors`. -/
def maxFSErrors : Nat := 200
/-- Constant `maxFSCleanupCandidates`. -/
def maxFSCleanupCandidates : Nat := 1000

/-- `clampInt(value, min, max)`. -/
def clampInt (value min max : Int) : Int :=
  if value < min then min
  else if value > max then max
  else value

/-- `filepath.Join(dir, name)` of the standard library for a cleaned `dir` and a single path
component `name`, with `/` as the separator: the result is cleaned, so nothing is added to an
empty `dir`, "." disappears and the root "/" is not doubled. -/
def filepathJoin (dir name : String) : String :=
  if dir = "" then name
  else if dir = "." then name
  else if dir = "/" then "/" ++ name
  else dir ++ "/" ++ name

/-- `classifyCleanupCategory(path)`. -/
def classifyCleanupCategory (path : String) : String :=
  let n := normalizePathForChecks path
  if stringsContains n "/tmp/" || stringsHasSuffix n "/tmp" ||
      stringsContains n "/windows/temp/" || stringsContains n "/appdata/local/temp/" ||
      stringsContains n "/var/tmp/" then "temp_files"
  else if stringsContains n "/google/chrome/user data/" ||
      stringsContains n "/mozilla/firefox/" ||
      stringsContains n "/library/caches/com.apple.safari/" ||
      stringsContains n "/library/caches/" || stringsContains n "/.cache/" ||
      stringsContains n "/edge/user data/" then "browser_cache"
  else if stringsContains n "/var/cache/apt/" || stringsContains n "/var/cache/dnf/" ||
      stringsContains n "/var/cache/yum/" || stringsContains n "/library/caches/homebrew/" ||
      stringsContains n "/appdata/local/packages/" then "package_cache"
  else ""

/-- An `error` value returned by the operating system, with the two classifications the scan
asks for. -/
structure FsError where
  /-- Text of `err.Error()`. -/
  message : String
  /-- Value of `os.IsPermission(err)`. -/
  isPermission : Bool
  /-- Value of `os.IsNotExist(err)`. -/
  isNotExist : Bool
deriving DecidableEq, Repr

/-- Entry of the scan error list. -/
structure FilesystemScanError where
  Path : String
  Error : String
deriving DecidableEq, Repr

/-- `appendScanError(errors, path, err, permissionDeniedCount)`; `none` is the nil error.
Returns the new error list and the new counter. -/
def appendScanError (errors : List FilesystemScanError) (path : String) (err : Option FsError)
    (permissionDeniedCount : Int) : List FilesystemScanError × Int :=
  match err with
  | none => (errors, permissionDeniedCount)
  | some e =>
    let count := if e.isPermission then permissionDeniedCount + 1 else permissionDeniedCount
    if errors.length ≥ maxFSErrors then (errors, count)
    else (errors ++ [{ Path := path, Error := e.message }], count)

/-- Entry of the cleanup candidate list. -/
structure FilesystemCleanupCandidate where
  Path : String
  Category : String
  SizeBytes : Int
  Safe : Bool
  Reason : String
  ModifiedAt : String
deriving DecidableEq, Repr

/-- `addCleanupCandidate(existing, candidate, maxItems)`; returns the new contents of the
map. -/
def addCleanupCandidate (existing : List (String × FilesystemCleanupCandidate))
    (candidate : FilesystemCleanupCandidate) (maxItems : Nat) :
    List (String × FilesystemCleanupCandidate) :=
  if existing.length ≥ maxItems then existing
  else if candidate.Path = "" ∨ candidate.SizeBytes ≤ 0 then existing
  else
    match mapGet existing candidate.Path with
    | none => mapSet existing candidate.Path candidate
    | some prev =>
      if candidate.SizeBytes > prev.SizeBytes then mapSet existing candidate.Path candidate
      else existing

/-- `mapCleanupCandidates(existing, limit)`.  The limit is a `Nat`: the only call passes
1000, and the Go slice expression `candidates[:limit]` is defined only for a limit ≥ 0. -/
def mapCleanupCandidates
    (sortSlice : {α : Type} → (α → α → Bool) → List α → List α)
    (mapRange : {V : Type} → List (String × V) → List (String × V))
    (existing : List (String × FilesystemCleanupCandidate)) (limit : Nat) :
    List FilesystemCleanupCandidate :=
  let candidates := (mapRange existing).map Prod.snd
  let candidates := sortSlice (fun a b : FilesystemCleanupCandidate =>
    decide (a.SizeBytes > b.SizeBytes)) candidates
  if candidates.length > limit then candidates.take limit else candidates

/-- Entry of the old-downloads list. -/
structure FilesystemOldDownload where
  Path : String
  SizeBytes : Int
  ModifiedAt : String
  Owner : String
deriving DecidableEq, Repr

/-- Entry of the unrotated-logs list. -/
structure FilesystemUnrotatedLog where
  Path : String
  SizeBytes : Int
  ModifiedAt : String
deriving DecidableEq, Repr

/-- Entry of the trash usage list. -/
structure FilesystemTrashUsage where
  Path : String
  SizeBytes : Int
deriving DecidableEq, Repr

/-- Entry of the temp accumulation list. -/
structure FilesystemAccumulation where
  Category : String
  Bytes : Int
deriving DecidableEq, Repr

/-- Struct `scanDirFrame`. -/
structure scanDirFrame where
  path : String
  depth : Int
deriving DecidableEq, Repr

/-- Struct `fsDirAggregate`. -/
structure fsDirAggregate where
  Path : String
  Parent : String
  Depth : Int
  SizeBytes : Int
  FileCount : Int
deriving DecidableEq, Repr

/-! ## The world outside the scan -/

/-- What the scan reads of an `os.FileInfo`. -/
structure FileInfo where
  /-- Value of `info.IsDir()`. -/
  isDir : Bool
  /-- Truth of `info.Mode()&os.ModeSymlink != 0`. -/
  isSymlink : Bool
  /-- Value of `info.Size()`. -/
  size : Int
  /-- Value of `info.ModTime()`. -/
  modTime : Int
  /-- Value of `getFileOwner(info)`. -/
  owner : String
deriving DecidableEq, Repr

/-- An `os.DirEntry`: its name and the result of `entry.Info()`. -/
structure DirEntry where
  name : String
  info : Except FsError FileInfo

/-- Everything `AnalyzeFilesystem` obtains from outside: the file system, the clock, the
platform helpers and the unspecified choices of the runtime. -/
structure ScanEnv where
  /-- Result of `os.ReadDir(path)`. -/
  readDir : String → Except FsError (List DirEntry)
  /-- Result of `os.Stat(path)`. -/
  stat : String → Except FsError FileInfo
  /-- Result of the `n`-th evaluation (counted from 0) of `time.Now().After(deadline)`. -/
  expired : Nat → Bool
  /-- The time `now` taken once before the traversal. -/
  now : Int
  /-- Result of `t.UTC().Format(time.RFC3339)`. -/
  formatTime : Int → String
  /-- Result of `getTrashPaths()`. -/
  trashPaths : List String
  /-- The library `sort.Slice`. -/
  sortSlice : {α : Type} → (α → α → Bool) → List α → List α
  /-- The order of `range` over a map; the `Nat` tells the loops of the scan apart. -/
  mapRange : Nat → {V : Type} → List (String × V) → List (String × V)

/-- The resolved parameters of a scan. -/
structure ScanConfig where
  maxDepth : Int
  topFilesLimit : Int
  topDirsLimit : Int
  maxEntries : Int
  timeoutSecs : Int
  followSymlinks : Bool
deriving DecidableEq, Repr

/-- The local variables of `AnalyzeFilesystem` that live across the traversal loop.  `dirStack`
is kept with the top of the stack first; `clock` counts the deadline checks made so far. -/
structure WalkState where
  dirStats : List (String × fsDirAggregate)
  dirStack : List scanDirFrame
  visitedDirs : List String
  tempBytes : List (String × Int)
  duplicateByKey : List (String × duplicateGroup)
  cleanupByPath : List (String × FilesystemCleanupCandidate)
  topLargestFiles : List FilesystemLargestFile
  oldDownloads : List FilesystemOldDownload
  unrotatedLogs : List FilesystemUnrotatedLog
  scanErrors : List FilesystemScanError
  filesScanned : Int
  dirsScanned : Int
  bytesScanned : Int
  permissionDeniedCount : Int
  maxDepthReached : Int
  entriesSeen : Int
  Partial : Bool
  reason : String
  clock : Nat

/-- The variables as initialised before the loop (lines 73 to 101). -/
def initialState (cleanRoot : String) : WalkState :=
  { dirStats := [(cleanRoot, ⟨cleanRoot, "", 0, 0, 0⟩)]
    dirStack := [⟨cleanRoot, 0⟩]
    visitedDirs := [cleanRoot]
    tempBytes := []
    duplicateByKey := []
    cleanupByPath := []
    topLargestFiles := []
    oldDownloads := []
    unrotatedLogs := []
    scanErrors := []
    filesScanned := 0
    dirsScanned := 0
    bytesScanned := 0
    permissionDeniedCount := 0
    maxDepthReached := 0
    entriesSeen := 0
    Partial := false
    reason := ""
    clock := 0 }

/-- The call `appendScanError(&scanErrors, path, err, &permissionDeniedCount)` on the state. -/
def recordError (s : WalkState) (path : String) (err : FsError) : WalkState :=
  let r := appendScanError s.scanErrors path (some err) s.permissionDeniedCount
  { s with scanErrors := r.1, permissionDeniedCount := r.2 }

/-- Lines 162 to 179: a directory entry is registered and, within the depth bound and unless
already visited, pushed. -/
def registerDir (cfg : ScanConfig) (frame : scanDirFrame) (s : WalkState)
    (entryPath : String) : WalkState :=
  let childDepth := frame.depth + 1
  let normalizedPath := entryPath
  let s1 : WalkState :=
    match mapGet s.dirStats normalizedPath with
    | some _ => s
    | none =>
      { s with dirStats := mapSet s.dirStats normalizedPath
                  ⟨normalizedPath, frame.path, childDepth, 0, 0⟩ }
  if childDepth ≤ cfg.maxDepth then
    if s1.visitedDirs.contains normalizedPath then s1
    else
      { s1 with visitedDirs := normalizedPath :: s1.visitedDirs
                dirStack := ⟨normalizedPath, childDepth⟩ :: s1.dirStack }
  else s1

/-- Lines 181 to 230: a regular file is counted and offered to every collector. -/
def visitFile (env : ScanEnv) (cfg : ScanConfig) (frame : scanDirFrame) (s : WalkState)
    (entryPath : String) (info : FileInfo) : WalkState :=
  let fileSize := if info.size < 0 then 0 else info.size
  let s1 : WalkState :=
    { s with filesScanned := s.filesScanned + 1, bytesScanned := s.bytesScanned + fileSize }
  let s2 : WalkState :=
    match mapGet s1.dirStats frame.path with
    | some parentAgg =>
      let updated : fsDirAggregate :=
        { parentAgg with SizeBytes := parentAgg.SizeBytes + fileSize
                         FileCount := parentAgg.FileCount + 1 }
      { s1 with dirStats := mapSet s1.dirStats frame.path updated }
    | none => s1
  let modifiedAt := env.formatTime info.modTime
  let s3 : WalkState :=
    { s2 with topLargestFiles := addTopLargestFile env.sortSlice s2.topLargestFiles
                ⟨entryPath, fileSize, modifiedAt, info.owner⟩ cfg.topFilesLimit }
  let category := classifyCleanupCategory entryPath
  let s4 : WalkState :=
    if category ≠ "" then
      let candidate : FilesystemCleanupCandidate :=
        { Path := entryPath, Category := category, SizeBytes := fileSize, Safe := true,
          Reason := "temporary/cache file", ModifiedAt := modifiedAt }
      { s3 with tempBytes := mapSet s3.tempBytes category
                  ((mapGet s3.tempBytes category).getD 0 + fileSize)
                cleanupByPath := addCleanupCandidate s3.cleanupByPath candidate
                  maxFSCleanupCandidates }
    else s3
  let s5 : WalkState :=
    if isOldDownload entryPath info.modTime (oldDownloadsThreshold env.now) then
      { s4 with oldDownloads := s4.oldDownloads ++
                  [⟨entryPath, fileSize, modifiedAt, info.owner⟩] }
    else s4
  let s6 : WalkState :=
    if isUnrotatedLog entryPath fileSize then
      { s5 with unrotatedLogs := s5.unrotatedLogs ++ [⟨entryPath, fileSize, modifiedAt⟩] }
    else s5
  { s6 with duplicateByKey := addDuplicateCandidate s6.duplicateByKey entryPath fileSize }

/-- One iteration of the inner loop (lines 126 to 231) for `entry`.  The flag is true when the
iteration ends in `break outer`. -/
def processEntry (env : ScanEnv) (cfg : ScanConfig) (frame : scanDirFrame) (s : WalkState)
    (entry : DirEntry) : WalkState × Bool :=
  if env.expired s.clock then
    ({ s with clock := s.clock + 1, Partial := true, reason := "timeout reached" }, true)
  else
    let s1 : WalkState := { s with clock := s.clock + 1, entriesSeen := s.entriesSeen + 1 }
    if s1.entriesSeen > cfg.maxEntries then
      ({ s1 with Partial := true, reason := "max entries reached" }, true)
    else
      let entryPath := filepathJoin frame.path entry.name
      match entry.info with
      | .error infoErr => (recordError s1 entryPath infoErr, false)
      | .ok info =>
        if info.isSymlink && !cfg.followSymlinks then (s1, false)
        else
          let resolved : Except FsError FileInfo :=
            if info.isSymlink && cfg.followSymlinks then env.stat entryPath else .ok info
          match resolved with
          | .error statErr => (recordError s1 entryPath statErr, false)
          | .ok target =>
            if target.isDir then (registerDir cfg frame s1 entryPath, false)
            else (visitFile env cfg frame s1 entryPath target, false)

/-- The inner loop over the entries of one directory; stops at the first `break outer`. -/
def processEntries (env : ScanEnv) (cfg : ScanConfig) (frame : scanDirFrame) :
    List DirEntry → WalkState → WalkState × Bool
  | [], s => (s, false)
  | entry :: rest, s =>
    let r := processEntry env cfg frame s entry
    if r.2 then r else processEntries env cfg frame rest r.1

/-- One iteration of the outer loop (lines 104 to 232) on a non-empty stack.  The flag is true
when the loop is left by `break`. -/
def walkStep (env : ScanEnv) (cfg : ScanConfig) (frame : scanDirFrame)
    (rest : List scanDirFrame) (s : WalkState) : WalkState × Bool :=
  if env.expired s.clock then
    ({ s with clock := s.clock + 1, Partial := true, reason := "timeout reached" }, true)
  else
    let s1 : WalkState := { s with clock := s.clock + 1, dirStack := rest }
    match env.readDir frame.path with
    | .error readErr => (recordError s1 frame.path readErr, false)
    | .ok entries =>
      let s2 : WalkState :=
        { s1 with dirsScanned := s1.dirsScanned + 1
                  maxDepthReached :=
                    if frame.depth > s1.maxDepthReached then frame.depth
                    else s1.maxDepthReached }
      processEntries env cfg frame entries s2

/-- The traversal loop, run for at most `fuel` iterations: `none` when the fuel runs out
before the loop ends. -/
def walkLoop (env : ScanEnv) (cfg : ScanConfig) : Nat → WalkState → Option WalkState
  | 0, _ => none
  | fuel + 1, s =>
    match s.dirStack with
    | [] => some s
    | frame :: rest =>
      let r := walkStep env cfg frame rest s
      if r.2 then some r.1 else walkLoop env cfg fuel r.1

/-- The traversal loop of `AnalyzeFilesystem` from the initial state.  Every iteration but
the last pops a frame, and at most `maxEntries` frames are ever pushed, so the fuel given here
is never used up (`mainWalk_terminates`). -/
def mainWalk (env : ScanEnv) (cfg : ScanConfig) (cleanRoot : String) : Option WalkState :=
  walkLoop env cfg (cfg.maxEntries.toNat + 3) (initialState cleanRoot)

/-! ## After the traversal -/

/-- One iteration of the roll-up loop (lines 242 to 252) for the aggregate stored under
`path`.  `orderedDirs` holds pointers into `dirStats`; an aggregate is the one stored under its
own `Path`, and its totals are read when its turn comes. -/
def rollUpOne (dirStats : List (String × fsDirAggregate)) (path : String) :
    List (String × fsDirAggregate) :=
  match mapGet dirStats path with
  | none => dirStats
  | some agg =>
    if agg.Parent = "" then dirStats
    else
      match mapGet dirStats agg.Parent with
      | none => dirStats
      | some parent =>
        mapSet dirStats agg.Parent
          { parent with SizeBytes := parent.SizeBytes + agg.SizeBytes
                        FileCount := parent.FileCount + agg.FileCount }

/-- The order `orderedDirs` of the roll-up (lines 235 to 241), as the keys of the aggregates:
the aggregates in `range` order, sorted by depth, deepest first. -/
def rollUpOrder (env : ScanEnv) (dirStats : List (String × fsDirAggregate)) : List String :=
  (env.sortSlice (fun a b : fsDirAggregate => decide (a.Depth > b.Depth))
    ((env.mapRange 0 dirStats).map Prod.snd)).map fsDirAggregate.Path

/-- The roll-up pass (lines 234 to 252); returns `dirStats` with cumulative totals. -/
def rollUp (env : ScanEnv) (dirStats : List (String × fsDirAggregate)) :
    List (String × fsDirAggregate) :=
  (rollUpOrder env dirStats).foldl rollUpOne dirStats

/-- Lines 254 to 260: every aggregate is offered to the largest-directories list. -/
def collectTopDirs (env : ScanEnv) (cfg : ScanConfig)
    (dirStats : List (String × fsDirAggregate)) : List FilesystemLargestDirectory :=
  (env.mapRange 1 dirStats).foldl (fun top e =>
    addTopLargestDir env.sortSlice top ⟨e.2.Path, e.2.SizeBytes, e.2.FileCount⟩
      cfg.topDirsLimit) []

/-- Sort by the given less function and keep at most 200 entries (lines 261 to 268). -/
def sortAndCap {α : Type} (env : ScanEnv) (less : α → α → Bool) (l : List α) : List α :=
  let sorted := env.sortSlice less l
  if sorted.length > 200 then sorted.take 200 else sorted

/-- The local variables of `estimateDirectorySize` inside its loop. -/
structure EstimateState where
  stack : List String
  entries : Int
  sizeBytes : Int
  filesScanned : Int
  clock : Nat

/-- The results of `estimateDirectorySize`, with the number of deadline checks made so far and
the value its local counter `entries` has on return. -/
structure EstimateResult where
  sizeBytes : Int
  filesScanned : Int
  timedOut : Bool
  err : Option FsError
  clock : Nat
  entries : Int

/-- One iteration of the inner loop of `estimateDirectorySize` (lines 573 to 599).  The flag is
true when the iteration returns with `timedOut`. -/
def estimateChild (env : ScanEnv) (maxEntries : Int) (current : String) (s : EstimateState)
    (child : DirEntry) : EstimateState × Bool :=
  let s1 : EstimateState := { s with entries := s.entries + 1 }
  if s1.entries > maxEntries then (s1, true)
  else if env.expired s1.clock then ({ s1 with clock := s1.clock + 1 }, true)
  else
    let s2 : EstimateState := { s1 with clock := s1.clock + 1 }
    let childPath := filepathJoin current child.name
    match child.info with
    | .error _ => (s2, false)
    | .ok childInfo =>
      if childInfo.isSymlink then (s2, false)
      else if childInfo.isDir then ({ s2 with stack := childPath :: s2.stack }, false)
      else
        let size := if childInfo.size < 0 then 0 else childInfo.size
        ({ s2 with sizeBytes := s2.sizeBytes + size
                   filesScanned := s2.filesScanned + 1 }, false)

/-- The inner loop of `estimateDirectorySize`; stops at the first return. -/
def estimateChildren (env : ScanEnv) (maxEntries : Int) (current : String) :
    List DirEntry → EstimateState → EstimateState × Bool
  | [], s => (s, false)
  | child :: rest, s =>
    let r := estimateChild env maxEntries current s child
    if r.2 then r else estimateChildren env maxEntries current rest r.1

/-- The loop of `estimateDirectorySize` (lines 558 to 602), run for at most `fuel` iterations:
`none` when the fuel runs out before the function returns. -/
def estimateLoop (env : ScanEnv) (maxEntries : Int) : Nat → EstimateState → Option EstimateResult
  | 0, _ => none
  | fuel + 1, s =>
    match s.stack with
    | [] => some ⟨s.sizeBytes, s.filesScanned, false, none, s.clock, s.entries⟩
    | current :: rest =>
      if env.expired s.clock then
        some ⟨s.sizeBytes, s.filesScanned, true, none, s.clock + 1, s.entries⟩
      else
        let s1 : EstimateState := { s with clock := s.clock + 1, stack := rest }
        match env.readDir current with
        | .error readErr =>
          if readErr.isPermission then estimateLoop env maxEntries fuel s1
          else some ⟨s1.sizeBytes, s1.filesScanned, false, some readErr, s1.clock, s1.entries⟩
        | .ok children =>
          let r := estimateChildren env maxEntries current children s1
          if r.2 then
            some ⟨r.1.sizeBytes, r.1.filesScanned, true, none, r.1.clock, r.1.entries⟩
          else estimateLoop env maxEntries fuel r.1

/-- `estimateDirectorySize(root, deadline, maxEntries)`, started after `clock` deadline
checks.  Every iteration of its loop but the last pops a directory, and at most `maxEntries`
directories are pushed after the root, so the fuel given here is never used up. -/
def estimateDirectorySize (env : ScanEnv) (root : String) (maxEntries : Int) (clock : Nat) :
    Option EstimateResult :=
  match env.stat root with
  | .error statErr => some ⟨0, 0, false, some statErr, clock, 0⟩
  | .ok info =>
    if !info.isDir then some ⟨info.size, 1, false, none, clock, 0⟩
    else estimateLoop env maxEntries (maxEntries.toNat + 3) ⟨[root], 0, 0, 0, clock⟩

/-- One iteration of the trash loop (lines 271 to 299); the second component is
`trashUsage`. -/
def trashStep (env : ScanEnv) (cfg : ScanConfig)
    (acc : Option (WalkState × List FilesystemTrashUsage)) (trashPath : String) :
    Option (WalkState × List FilesystemTrashUsage) :=
  match acc with
  | none => none
  | some (s, trashUsage) =>
    match estimateDirectorySize env trashPath (Int.tdiv cfg.maxEntries 2) s.clock with
    | none => none
    | some r =>
      let s1 : WalkState := { s with clock := r.clock }
      match r.err with
      | some trashErr =>
        if !trashErr.isNotExist then some (recordError s1 trashPath trashErr, trashUsage)
        else some (s1, trashUsage)
      | none =>
        let s2 : WalkState :=
          if r.timedOut then
            { s1 with Partial := true
                      reason := if s1.reason = "" then "timeout reached while scanning trash"
                                else s1.reason }
          else s1
        if r.sizeBytes ≤ 0 then some (s2, trashUsage)
        else
          let candidate : FilesystemCleanupCandidate :=
            { Path := trashPath, Category := "trash", SizeBytes := r.sizeBytes, Safe := true,
              Reason := "trash/recycle bin cleanup", ModifiedAt := "" }
          some ({ s2 with cleanupByPath := addCleanupCandidate s2.cleanupByPath candidate
                            maxFSCleanupCandidates },
                trashUsage ++ [⟨trashPath, r.sizeBytes⟩])

/-- The trash loop over `getTrashPaths()`. -/
def trashScan (env : ScanEnv) (cfg : ScanConfig) (s : WalkState) :
    Option (WalkState × List FilesystemTrashUsage) :=
  env.trashPaths.foldl (trashStep env cfg) (some (s, []))

/-- Summary block of the response. -/
structure FilesystemAnalysisSummary where
  FilesScanned : Int
  DirsScanned : Int
  BytesScanned : Int
  MaxDepthReached : Int
  PermissionDeniedCount : Int
deriving DecidableEq, Repr

/-- The response of `AnalyzeFilesystem`, without its three wall-clock fields (`StartedAt`,
`CompletedAt`, `DurationMs`). -/
structure FilesystemAnalysisResponse where
  Path : String
  Partial : Bool
  Reason : String
  Summary : FilesystemAnalysisSummary
  TopLargestFiles : List FilesystemLargestFile
  TopLargestDirs : List FilesystemLargestDirectory
  TempAccumulation : List FilesystemAccumulation
  OldDownloads : List FilesystemOldDownload
  UnrotatedLogs : List FilesystemUnrotatedLog
  TrashUsage : List FilesystemTrashUsage
  DuplicateCandidates : List FilesystemDuplicateCandidate
  CleanupCandidates : List FilesystemCleanupCandidate
  Errors : List FilesystemScanError

/-- Lines 234 to 338: everything after the traversal loop, from the state `w` it left. -/
def assemble (env : ScanEnv) (cfg : ScanConfig) (cleanRoot : String) (w : WalkState) :
    Option FilesystemAnalysisResponse :=
  let dirStats := rollUp env w.dirStats
  let topLargestDirs := collectTopDirs env cfg dirStats
  let oldDownloads := sortAndCap env
    (fun a b : FilesystemOldDownload => decide (a.SizeBytes > b.SizeBytes)) w.oldDownloads
  let unrotatedLogs := sortAndCap env
    (fun a b : FilesystemUnrotatedLog => decide (a.SizeBytes > b.SizeBytes)) w.unrotatedLogs
  match trashScan env cfg w with
  | none => none
  | some (t, trashUsage) =>
    let tempAccumulation := env.sortSlice
      (fun a b : FilesystemAccumulation => decide (a.Bytes > b.Bytes))
      ((env.mapRange 2 t.tempBytes).map (fun e => ⟨e.1, e.2⟩))
    let trashSorted := env.sortSlice
      (fun a b : FilesystemTrashUsage => decide (a.SizeBytes > b.SizeBytes)) trashUsage
    some
      { Path := cleanRoot
        Partial := t.Partial
        Reason := t.reason
        Summary := ⟨t.filesScanned, t.dirsScanned, t.bytesScanned, t.maxDepthReached,
          t.permissionDeniedCount⟩
        TopLargestFiles := t.topLargestFiles
        TopLargestDirs := topLargestDirs
        TempAccumulation := tempAccumulation
        OldDownloads := oldDownloads
        UnrotatedLogs := unrotatedLogs
        TrashUsage := trashSorted
        DuplicateCandidates :=
          buildDuplicateCandidateList env.sortSlice (env.mapRange 3) t.duplicateByKey 200
        CleanupCandidates :=
          mapCleanupCandidates env.sortSlice (env.mapRange 4) t.cleanupByPath
            maxFSCleanupCandidates
        Errors := t.scanErrors }

/-- The body of `AnalyzeFilesystem` from line 69 on, for a validated root directory
`cleanRoot` and resolved parameters `cfg`.  `none` only if a loop ran out of fuel. -/
def analyzeFrom (env : ScanEnv) (cfg : ScanConfig) (cleanRoot : String) :
    Option FilesystemAnalysisResponse :=
  match mainWalk env cfg cleanRoot with
  | none => none
  | some w => assemble env cfg cleanRoot w

/-- The state after an entry passed both bound checks of the inner loop. -/
def enterEntry (s : WalkState) : WalkState :=
  { s with clock := s.clock + 1, entriesSeen := s.entriesSeen + 1 }

/-- The entry is not skipped and `target` is the file info the loop goes on with: the entry's
own info, or for a followed symlink the info of what it points to. -/
def Resolves (env : ScanEnv) (cfg : ScanConfig) (entryPath : String) (entry : DirEntry)
    (target : FileInfo) : Prop :=
  ∃ info, entry.info = .ok info ∧
    ((info.isSymlink = false ∧ target = info) ∨
     (info.isSymlink = true ∧ cfg.followSymlinks = true ∧ env.stat entryPath = .ok target))

/-- The entry ends in a recorded error `e`: `entry.Info()` failed, or the entry is a followed
symlink and `os.Stat` failed. -/
def EntryFails (env : ScanEnv) (cfg : ScanConfig) (entryPath : String) (entry : DirEntry)
    (e : FsError) : Prop :=
  entry.info = .error e ∨
  ∃ info, entry.info = .ok info ∧ info.isSymlink = true ∧ cfg.followSymlinks = true ∧
    env.stat entryPath = .error e

/-- The state after the deadline check of the outer loop passed and the top frame was
popped. -/
def popFrame (s : WalkState) (rest : List scanDirFrame) : WalkState :=
  { s with clock := s.clock + 1, dirStack := rest }

/-- The state after `os.ReadDir` succeeded for `frame` (lines 121 to 124). -/
def openDir (frame : scanDirFrame) (s : WalkState) : WalkState :=
  { s with dirsScanned := s.dirsScanned + 1
           maxDepthReached :=
             if frame.depth > s.maxDepthReached then frame.depth else s.maxDepthReached }

/-- What the trash loop leaves of the state `s` of the traversal in a later state `t`: the
summary counters of the traversal, a partial flag once set, and a reason once given. -/
def TrashKeeps (s t : WalkState) : Prop :=
  t.filesScanned = s.filesScanned ∧ t.dirsScanned = s.dirsScanned ∧
  t.bytesScanned = s.bytesScanned ∧ t.maxDepthReached = s.maxDepthReached ∧
  t.dirStats = s.dirStats ∧ t.topLargestFiles = s.topLargestFiles ∧
  t.duplicateByKey = s.duplicateByKey ∧ t.tempBytes = s.tempBytes ∧
  (s.Partial = true → t.Partial = true) ∧ (s.reason ≠ "" → t.reason = s.reason)

/-- Bound on the iterations the traversal loop can still make: the frames on the stack plus
the entries that may still pass the entry cap. -/
def walkMeasure (cfg : ScanConfig) (s : WalkState) : Nat :=
  s.dirStack.length + (cfg.maxEntries - s.entriesSeen).toNat

/-- Bound on the iterations the loop of `estimateDirectorySize` can still make. -/
def estimateMeasure (maxEntries : Int) (s : EstimateState) : Nat :=
  s.stack.length + (maxEntries - s.entries).toNat

/-- The traversal has hit no bound so far. -/
def Running (cfg : ScanConfig) (s : WalkState) : Prop :=
  s.Partial = false ∧ s.reason = "" ∧ 0 ≤ s.filesScanned ∧ s.filesScanned ≤ s.entriesSeen ∧
  s.entriesSeen ≤ cfg.maxEntries

/-- The traversal was stopped by the entry cap, at entry number `maxEntries + 1`. -/
def StoppedAtCap (cfg : ScanConfig) (s : WalkState) : Prop :=
  s.Partial = true ∧ s.reason = "max entries reached" ∧ s.entriesSeen = cfg.maxEntries + 1 ∧
  s.filesScanned ≤ cfg.maxEntries

/-- Two entries have the same (size, normalized base name) key. -/
def sameKey (f g : String × Int) : Bool :=
  decide (f.2 = g.2 ∧
    normalizeDuplicateName (filepathBase f.1) = normalizeDuplicateName (filepathBase g.1))

/-- A `range` that visits the entries in insertion order (one admissible order). -/
def mapRangeInsertion {V : Type} (m : List (String × V)) : List (String × V) := m

/-- Value of a string of decimal digits (used to read back `%d`). -/
def digitsVal (cs : List Char) : Nat := cs.foldl (fun acc c => acc * 10 + (c.toNat - 48)) 0

/-- The paths a group with key `k` must hold after `files` were fed: the paths filed under
`k`, in order, cut at 50. -/
def expectedPaths (k : String) (files : List (String × Int)) : List String :=
  ((files.filter (fun f => duplicateKeyOf f = some k)).map Prod.fst).take 50

/-- Invariant of the duplicate map after `files` were fed. -/
def DupInv (groups : List (String × duplicateGroup)) (files : List (String × Int)) : Prop :=
  (groups.map Prod.fst).Nodup ∧
  (∀ e ∈ groups, e.2.Key = e.1 ∧ e.2.Paths = expectedPaths e.1 files ∧ e.2.Paths ≠ []) ∧
  (∀ f ∈ files, ∀ k, duplicateKeyOf f = some k → ∃ g, (k, g) ∈ groups)

/-- The report entry built from a group. -/
def candidateOf (g : duplicateGroup) : FilesystemDuplicateCandidate :=
  { Key := g.Key, SizeBytes := g.SizeBytes, Count := (g.Paths.length : Int), Paths := g.Paths }

/-! ## Parameters of a request -/

/-- The optional keys of the request payload that `AnalyzeFilesystem` reads (lines 53 to 58);
`none` stands for an absent key. -/
structure ScanPayload where
  maxDepth : Option Int
  topFiles : Option Int
  topDirs : Option Int
  maxEntries : Option Int
  timeoutSeconds : Option Int
  followSymlinks : Option Bool
deriving DecidableEq, Repr

/-- Modelled from the spec: the helper `GetPayloadInt(payload, key, fallback)` is not among
the sources; the optional integers of a request "default to" the given value when absent. -/
def GetPayloadInt (value : Option Int) (fallback : Int) : Int := value.getD fallback

/-- Modelled from the spec: the helper `GetPayloadBool(payload, key, fallback)` is not among
the sources; `followSymlinks` is an "optional boolean, default false". -/
def GetPayloadBool (value : Option Bool) (fallback : Bool) : Bool := value.getD fallback

/-- Lines 53 to 58: the parameters of the scan, clamped. -/
def resolveConfig (payload : ScanPayload) : ScanConfig :=
  { maxDepth := clampInt (GetPayloadInt payload.maxDepth defaultFSMaxDepth) 1 12
    topFilesLimit := clampInt (GetPayloadInt payload.topFiles defaultFSTopFiles) 1 500
    topDirsLimit := clampInt (GetPayloadInt payload.topDirs defaultFSTopDirs) 1 200
    maxEntries := clampInt (GetPayloadInt payload.maxEntries defaultFSMaxEntries) 1000 1000000
    timeoutSecs := clampInt (GetPayloadInt payload.timeoutSeconds defaultFSTimeoutSecs) 5 120
    followSymlinks := GetPayloadBool payload.followSymlinks false }

/-! ## Directory sizes, as the specification states them -/

/-- A name as `os.ReadDir` returns it: one path component, not the directory itself. -/
def ValidName (n : String) : Prop := n ≠ "" ∧ n ≠ "." ∧ '/' ∉ n.data

/-- A measure that grows from a directory path to the path of any entry in it. -/
def pathRank (q : String) : Nat := if q = "." then 0 else q.length

/-- A file system without read errors and without symlinks, in which every directory lists
valid, pairwise different names. -/
def TreeLike (env : ScanEnv) : Prop :=
  ∀ path, ∃ entries, env.readDir path = .ok entries ∧
    (entries.map DirEntry.name).Nodup ∧
    ∀ e ∈ entries, ValidName e.name ∧ ∃ info, e.info = .ok info ∧ info.isSymlink = false

/-- The paths on the stack of the traversal. -/
def stackPaths (s : WalkState) : List String := s.dirStack.map scanDirFrame.path

/-- Sum of `total` over the aggregates of `l` whose parent is `k`. -/
def childSum (total : String → Int) (l : List fsDirAggregate) (k : String) : Int :=
  ((l.filter (fun a => a.Parent = k)).map (fun a => total a.Path)).sum

/-- What the roll-up needs of `dirStats`: distinct keys, every aggregate stored under its own
non-empty path, and every named parent present and strictly less deep. -/
def RollReady (m : List (String × fsDirAggregate)) : Prop :=
  (m.map Prod.fst).Nodup ∧
  (∀ k a, (k, a) ∈ m → a.Path = k ∧ k ≠ "") ∧
  (∀ k a, (k, a) ∈ m → a.Parent ≠ "" → ∃ pa, (a.Parent, pa) ∈ m ∧ pa.Depth < a.Depth)

/-- Invariant of the roll-up loop after the aggregates `done` had their turn: the map `cur`
has the keys and static fields of the map `m` it started from, and every size is the initial
one plus the totals of the children done. -/
def RollInv (m : List (String × fsDirAggregate)) (total : String → Int)
    (done : List fsDirAggregate) (cur : List (String × fsDirAggregate)) : Prop :=
  cur.map Prod.fst = m.map Prod.fst ∧
  ∀ k a2, (k, a2) ∈ cur → ∃ a, (k, a) ∈ m ∧ a2.Depth = a.Depth ∧ a2.Parent = a.Parent ∧
    a2.Path = a.Path ∧ a2.SizeBytes = a.SizeBytes + childSum total done k

/-- A regular file entry of the given size. -/
def fileEntry (name : String) (size : Int) : DirEntry := ⟨name, .ok ⟨false, false, size, 0, ""⟩⟩

/-- A directory entry. -/
def dirEntry (name : String) : DirEntry := ⟨name, .ok ⟨true, false, 0, 0, ""⟩⟩

/-- The tree `/data` with `r.txt` (1 byte) and `a`; `a` with `g.txt` (2 bytes) and `b`; `b`
with `f.txt` (5 bytes) and an empty directory `c`.  No deadline, no trash directories, the
library insertion sort and maps ranged in insertion order. -/
def sampleEnv : ScanEnv :=
  { readDir := fun p =>
      if p = "/data" then .ok [dirEntry "a", fileEntry "r.txt" 1]
      else if p = "/data/a" then .ok [dirEntry "b", fileEntry "g.txt" 2]
      else if p = "/data/a/b" then .ok [fileEntry "f.txt" 5, dirEntry "c"]
      else .ok []
    stat := fun p =>
      if p = "/data" ∨ p = "/data/a" ∨ p = "/data/a/b" ∨ p = "/data/a/b/c" then
        .ok ⟨true, false, 0, 0, ""⟩
      else if p = "/data/r.txt" then .ok ⟨false, false, 1, 0, ""⟩
      else if p = "/data/a/g.txt" then .ok ⟨false, false, 2, 0, ""⟩
      else if p = "/data/a/b/f.txt" then .ok ⟨false, false, 5, 0, ""⟩
      else .error ⟨"no such file or directory", false, true⟩
    expired := fun _ => false
    now := 0
    formatTime := fun _ => ""
    trashPaths := []
    sortSlice := fun {α : Type} => @insertionSortFunc α
    mapRange := fun _ {V : Type} => @mapRangeInsertion V }

/-- Parameters with the given depth and entry bounds and the default list limits. -/
def sampleConfig (maxDepth maxEntries : Int) : ScanConfig :=
  ⟨maxDepth, 50, 30, maxEntries, 20, false⟩

/-! ## Cleanup candidates, as the specification states them -/

/-- A cleanup candidate for a temporary file with the given path and size. -/
def tempCandidate (path : String) (size : Int) : FilesystemCleanupCandidate :=
  ⟨path, "temp_files", size, true, "temporary/cache file", ""⟩

/-- The path "/tmp/" followed by `i + 1` letters a: a different path for every `i`. -/
def tempPath (i : Nat) : String := ⟨"/tmp/".data ++ List.replicate (i + 1) 'a'⟩

/-- The first `n` of a series of candidates of one byte each, with paths `tempPath i`. -/
def smallCandidates (n : Nat) : List FilesystemCleanupCandidate :=
  (List.range n).map (fun i => tempCandidate (tempPath i) 1)

/-- The map that holds the candidates `smallCandidates n`, each under its path. -/
def smallCandidateMap (n : Nat) : List (String × FilesystemCleanupCandidate) :=
  (List.range n).map (fun i => (tempPath i, tempCandidate (tempPath i) 1))

/-- The candidates `offered` passed one by one to `addCleanupCandidate`, from an empty map. -/
def cleanupFeed (offered : List FilesystemCleanupCandidate) (maxItems : Nat) :
    List (String × FilesystemCleanupCandidate) :=
  offered.foldl (fun m c => addCleanupCandidate m c maxItems) []

/-- A candidate `addCleanupCandidate` does not reject for its own fields: non-empty path and
positive size. -/
def validCleanup (c : FilesystemCleanupCandidate) : Bool :=
  decide (c.Path ≠ "" ∧ 0 < c.SizeBytes)

/-- The largest size among the valid candidates offered for the path `p` (0 if none). -/
def pathMaximum (offered : List FilesystemCleanupCandidate) (p : String) : Int :=
  ((offered.filter (fun c => validCleanup c && decide (c.Path = p))).map
    FilesystemCleanupCandidate.SizeBytes).foldl max 0

/-- The paths of the valid candidates offered, each once. -/
def validPaths (offered : List FilesystemCleanupCandidate) : List String :=
  ((offered.filter validCleanup).map FilesystemCleanupCandidate.Path).dedup

/-- The per-path maxima of the valid candidates offered. -/
def perPathMaxima (offered : List FilesystemCleanupCandidate) : List Int :=
  (validPaths offered).map (pathMaximum offered)

/-- Invariant of the cleanup map after the candidates `seen` were offered and none was turned
away by the cap: one entry per valid path, holding the largest size offered for it. -/
def CleanInv (m : List (String × FilesystemCleanupCandidate))
    (seen : List FilesystemCleanupCandidate) : Prop :=
  (m.map Prod.fst).Nodup ∧ (∀ p, p ∈ m.map Prod.fst ↔ p ∈ validPaths seen) ∧
  (∀ p c, (p, c) ∈ m → c.Path = p ∧ c.SizeBytes = pathMaximum seen p)

/-! ## Bounds of a scan -/

/-- The scan has hit no bound: the flag is down and no reason is given. -/
def Unbounded (s : WalkState) : Prop := s.Partial = false ∧ s.reason = ""

/-- Inside the loop of `estimateDirectorySize` the counter has not passed the cap. -/
def EstimateInv (cap : Int) (s : EstimateState) : Prop :=
  0 ≤ cap → 0 ≤ s.entries ∧ s.entries ≤ cap

/-- What a result of the loop of `estimateDirectorySize` with entry cap `cap` satisfies: the
counter stops at the first entry beyond the cap, and a result with more entries than the cap
reports the bound hit; an error handed back is not a permission error; and without a deadline
hit only the entry cap makes the loop report a bound hit. -/
def EstimateOK (env : ScanEnv) (cap : Int) (r : EstimateResult) : Prop :=
  (0 ≤ cap → 0 ≤ r.entries ∧ r.entries ≤ cap + 1 ∧ (cap < r.entries → r.timedOut = true)) ∧
  (r.timedOut = true → r.err = none) ∧
  (∀ e, r.err = some e → e.isPermission = false) ∧
  ((∀ n, env.expired n = false) → r.timedOut = true → cap < r.entries)

/-- `os.Stat` of the path fails with a permission error (and not with a not-exist error, which
the trash loop passes over). -/
def statDenied (env : ScanEnv) (p : String) : Bool :=
  match env.stat p with
  | .error e => !e.isNotExist && e.isPermission
  | .ok _ => false

/-- What one iteration of the trash loop adds to the permission-denied counter, given the
result of its sub-scan. -/
def deniedBy (r : EstimateResult) : Int :=
  match r.err with
  | some e => if !e.isNotExist && e.isPermission then 1 else 0
  | none => 0

/-- The sample tree with a trash directory `/trash` that holds `n` files of one byte each. -/
def trashEnv (n : Nat) : ScanEnv :=
  { sampleEnv with
    readDir := fun p =>
      if p = "/trash" then
        .ok ((List.range n).map (fun i => fileEntry ⟨List.replicate (i + 1) 'x'⟩ 1))
      else sampleEnv.readDir p
    stat := fun p =>
      if p = "/trash" then .ok ⟨true, false, 0, 0, ""⟩ else sampleEnv.stat p
    trashPaths := ["/trash"] }

/-- The sample tree scanned after the deadline, with a trash directory that `os.Stat` may not
look at. -/
def deniedTrashEnv : ScanEnv :=
  { sampleEnv with
    expired := fun _ => true
    stat := fun p =>
      if p = "/home/u/.local/share/Trash" then .error ⟨"permission denied", true, false⟩
      else sampleEnv.stat p
    trashPaths := ["/home/u/.local/share/Trash"] }

/-! ## Cumulative totals, as the specification states them -/

/-- Sum of `own` over the aggregates of `l` that lie beneath the path `k`: the aggregates
that name `k` as their parent, each with its own value and with what lies beneath it in turn.
An aggregate names one parent, so every transitive descendant of `k` is counted once.
`levels` bounds the number of levels followed. -/
def subtreeTotal (own : fsDirAggregate → Int) (l : List fsDirAggregate) : Nat → String → Int
  | 0, _ => 0
  | levels + 1, k =>
    ((l.filter (fun a => a.Parent = k)).map
      (fun a => own a + subtreeTotal own l levels a.Path)).sum

/-- The value of `own` for the aggregate stored under `k` plus the values of all its
transitive descendants in the map (no chain of parents is longer than the map). -/
def cumulativeOf (own : fsDirAggregate → Int) (m : List (String × fsDirAggregate))
    (k : String) : Int :=
  match mapGet m k with
  | some a => own a + subtreeTotal own (m.map Prod.snd) m.length k
  | none => 0

/-- Number of aggregates of `l` deeper than `d`. -/
def deeperCount (l : List fsDirAggregate) (d : Int) : Nat :=
  l.countP (fun a => decide (d < a.Depth))

/-- The aggregate with size and file count exchanged: the roll-up treats the two alike. -/
def swapTotals (a : fsDirAggregate) : fsDirAggregate :=
  { a with SizeBytes := a.FileCount, FileCount := a.SizeBytes }

/-- The map with size and file count exchanged in every aggregate. -/
def swapMap (m : List (String × fsDirAggregate)) : List (String × fsDirAggregate) :=
  m.map (fun e => (e.1, swapTotals e.2))

/-- The frames the traversal loop pops and hands to `os.ReadDir` (lines 112 to 116), in
order, when it runs from the state `s` for at most `fuel` iterations. -/
def expandedFrames (env : ScanEnv) (cfg : ScanConfig) : Nat → WalkState → List scanDirFrame
  | 0, _ => []
  | fuel + 1, s =>
    match s.dirStack with
    | [] => []
    | frame :: rest =>
      if env.expired s.clock then []
      else
        let r := walkStep env cfg frame rest s
        if r.2 then [frame] else frame :: expandedFrames env cfg fuel r.1

/-- Invariant of the stack of the traversal: `visitedDirs`, which gains a path exactly when a
frame for it is pushed, holds no path twice; every frame on the stack is within the depth
bound and was recorded as visited; no path is on the stack twice. -/
def PushInv (cfg : ScanConfig) (s : WalkState) : Prop :=
  s.visitedDirs.Nodup ∧
  (∀ f ∈ s.dirStack, f.depth ≤ cfg.maxDepth ∧ f.path ∈ s.visitedDirs) ∧
  (stackPaths s).Nodup ∧ s.maxDepthReached ≤ cfg.maxDepth

/-- The step from `s` to `t` pushed nothing, or pushed one frame for the path `p`, one level
below `frame`, within the depth bound and not visited before. -/
def PushedAtMost (cfg : ScanConfig) (frame : scanDirFrame) (s t : WalkState) : Prop :=
  t.maxDepthReached = s.maxDepthReached ∧
  ((t.dirStack = s.dirStack ∧ t.visitedDirs = s.visitedDirs) ∨
   ∃ p, t.dirStack = ⟨p, frame.depth + 1⟩ :: s.dirStack ∧ t.visitedDirs = p :: s.visitedDirs ∧
     frame.depth + 1 ≤ cfg.maxDepth ∧ p ∉ s.visitedDirs)

/-! ## Homebrew patch identifiers (agent/internal/patching/homebrew.go) -/

/-- Constant `brewCaskPrefix`. -/
def brewCaskPrefix : String := "cask:"

/-- `strings.HasPrefix(s, prefix)`. -/
def stringsHasPrefix (s pre : String) : Bool := pre.data.isPrefixOf s.data

/-- `strings.TrimPrefix(s, prefix)`. -/
def stringsTrimPrefix (s pre : String) : String :=
  if stringsHasPrefix s pre then ⟨s.data.drop pre.data.length⟩ else s

/-- `parseBrewID(patchID)`. -/
def parseBrewID (patchID : String) : String × Bool :=
  if stringsHasPrefix patchID brewCaskPrefix then
    (stringsTrimPrefix patchID brewCaskPrefix, true)
  else (patchID, false)

/-- The ID `Scan` gives to an outdated cask (line 171). -/
def caskPatchID (name : String) : String := brewCaskPrefix ++ name

/-- The arguments `Install` hands to brew (lines 183 to 188). -/
def installArgs (patchID : String) : List String :=
  let parsed := parseBrewID patchID
  let args := ["upgrade"]
  let args := if parsed.2 then args ++ ["--cask"] else args
  args ++ [parsed.1]

/-- The arguments `Uninstall` hands to brew (lines 208 to 213). -/
def uninstallArgs (patchID : String) : List String :=
  let parsed := parseBrewID patchID
  let args := ["uninstall"]
  let args := if parsed.2 then args ++ ["--cask"] else args
  args ++ [parsed.1]

/-! ## The registered directories form a tree -/

/-- The registered directories form a tree below `root`, in every file system whose
directories list valid names: distinct keys, the root registered without parent, every
aggregate stored under its own non-empty path, every other aggregate one level below a
registered parent and named by joining a valid name to the parent's path, and every frame on
the stack registered with its depth. -/
structure DirTree (root : String) (m : List (String × fsDirAggregate))
    (stack : List scanDirFrame) : Prop where
  keysNodup : (m.map Prod.fst).Nodup
  rootIn : ∃ a, (root, a) ∈ m ∧ a.Parent = ""
  wf : ∀ k a, (k, a) ∈ m → a.Path = k ∧ k ≠ "" ∧ pathRank root ≤ pathRank k
  parent : ∀ k a, (k, a) ∈ m → k ≠ root →
    ∃ pa name, (a.Parent, pa) ∈ m ∧ a.Depth = pa.Depth + 1 ∧ ValidName name ∧
      k = filepathJoin a.Parent name
  frames : ∀ f ∈ stack, ∃ a, (f.path, a) ∈ m ∧ a.Depth = f.depth

/-- The map `m2` has the keys of `m` and aggregates with the same path, parent and depth. -/
def SameShape (m m2 : List (String × fsDirAggregate)) : Prop :=
  m2.map Prod.fst = m.map Prod.fst ∧
  (∀ k a2, (k, a2) ∈ m2 → ∃ a, (k, a) ∈ m ∧ a2.Path = a.Path ∧ a2.Parent = a.Parent ∧
    a2.Depth = a.Depth) ∧
  (∀ k a, (k, a) ∈ m → ∃ a2, (k, a2) ∈ m2 ∧ a2.Path = a.Path ∧ a2.Parent = a.Parent ∧
    a2.Depth = a.Depth)

/-- Every byte and every file counted by the traversal is held by one aggregate. -/
def SumsMatch (s : WalkState) : Prop :=
  (s.dirStats.map (fun e => e.2.SizeBytes)).sum = s.bytesScanned ∧
  (s.dirStats.map (fun e => e.2.FileCount)).sum = s.filesScanned

/-- The names `os.ReadDir` returns are valid: single path components. -/
def ValidNames (env : ScanEnv) : Prop :=
  ∀ path entries, env.readDir path = .ok entries → ∀ e ∈ entries, ValidName e.name

/-! ## Paths with one normalized form -/

/-- Two runes that `normalizePathForChecks` does not tell apart: each is a slash or a
backslash, or the two have the same lower-case form. -/
def SamePathRune (a b : Char) : Prop :=
  ((a = '/' ∨ a = '\\') ∧ (b = '/' ∨ b = '\\')) ∨ unicodeToLower a = unicodeToLower b

/-! ## A directory that links to itself -/

/-- The path `/s` followed by `n` times `/loop`. -/
def loopPath : Nat → String
  | 0 => "/s"
  | n + 1 => loopPath n ++ "/loop"

/-- The directory `/s` with the file `f` (6 bytes) and the symbolic link `loop` that points
back at `/s`.  Each path `/s/loop/.../loop`, with up to 40 links, names the directory `/s`:
`os.ReadDir` returns the listing of `/s` for it and `os.Stat` reports a directory.  No
deadline, no trash directories, the library insertion sort and maps ranged in insertion
order. -/
def loopEnv : ScanEnv :=
  { readDir := fun p =>
      if (List.range 41).any (fun n => loopPath n = p) then
        .ok [fileEntry "f" 6, ⟨"loop", .ok ⟨false, true, 0, 0, ""⟩⟩]
      else .error ⟨"not a directory", false, false⟩
    stat := fun p =>
      if (List.range 41).any (fun n => loopPath n = p) then .ok ⟨true, false, 0, 0, ""⟩
      else if (List.range 41).any (fun n => loopPath n ++ "/f" = p) then
        .ok ⟨false, false, 6, 0, ""⟩
      else .error ⟨"no such file or directory", false, true⟩
    expired := fun _ => false
    now := 0
    formatTime := fun _ => ""
    trashPaths := []
    sortSlice := fun {α : Type} => @insertionSortFunc α
    mapRange := fun _ {V : Type} => @mapRangeInsertion V }

/-- Parameters with maxDepth = 3 that follow symbolic links. -/
def loopConfig : ScanConfig := ⟨3, 50, 30, 1000, 20, true⟩

/-! ## Proofs -/

section SortFacts

variable {α : Type}

theorem sinkLeft_perm (less : α → α → Bool) (x : α) (l : List α) :
    (sinkLeft less x l).Perm (x :: l) := by
  induction l with
  | nil => simp [sinkLeft]
  | cons y rest ih =>
    unfold sinkLeft
    split
    · exact (List.Perm.cons y ih).trans (List.Perm.swap x y rest)
    · exact List.Perm.refl _

theorem sinkLeft_pairwise (less : α → α → Bool) (h : LessOK less) (x : α) (l : List α)
    (hl : l.Pairwise (fun a b => less a b = false)) :
    (sinkLeft less x l).Pairwise (fun a b => less a b = false) := by
  obtain ⟨hirr, htr, hneg⟩ := h
  induction l with
  | nil => simp [sinkLeft]
  | cons y rest ih =>
    rw [List.pairwise_cons] at hl
    unfold sinkLeft
    split
    · rename_i hxy
      rw [List.pairwise_cons]
      refine ⟨?_, ih hl.2⟩
      intro z hz
      rcases List.mem_cons.1 ((List.Perm.mem_iff (sinkLeft_perm less x rest)).1 hz) with hz | hz
      · subst hz
        cases hyx : less y z with
        | false => rfl
        | true =>
          have := htr z y z hxy hyx
          rw [hirr z] at this
          exact absurd this (by simp)
      · exact hl.1 z hz
    · rename_i hxy
      have hxy : less x y = false := by simpa using hxy
      rw [List.pairwise_cons]
      refine ⟨?_, List.pairwise_cons.2 hl⟩
      intro z hz
      rcases List.mem_cons.1 hz with rfl | hz
      · exact hxy
      · exact hneg x y z hxy (hl.1 z hz)

theorem foldl_sinkLeft_perm (less : α → α → Bool) (l acc : List α) :
    (l.foldl (fun revPrefix x => sinkLeft less x revPrefix) acc).Perm (l.reverse ++ acc) := by
  induction l generalizing acc with
  | nil => simp
  | cons x rest ih =>
    simp only [List.foldl_cons, List.reverse_cons, List.append_assoc, List.singleton_append]
    refine (ih _).trans ?_
    exact List.Perm.append_left _ (sinkLeft_perm less x acc)

theorem foldl_sinkLeft_pairwise (less : α → α → Bool) (h : LessOK less) (l acc : List α)
    (hacc : acc.Pairwise (fun a b => less a b = false)) :
    (l.foldl (fun revPrefix x => sinkLeft less x revPrefix) acc).Pairwise
      (fun a b => less a b = false) := by
  induction l generalizing acc with
  | nil => exact hacc
  | cons x rest ih =>
    simp only [List.foldl_cons]
    exact ih _ (sinkLeft_pairwise less h x acc hacc)

/-- The library insertion sort meets the contract of `sort.Slice`. -/
theorem insertionSortFunc_spec : SortSliceSpec (fun {α : Type} => @insertionSortFunc α) := by
  intro α less l
  constructor
  · unfold insertionSortFunc
    refine (List.reverse_perm _).trans ?_
    refine (foldl_sinkLeft_perm less l []).trans ?_
    simp
  · intro h
    unfold insertionSortFunc
    rw [List.pairwise_reverse]
    exact foldl_sinkLeft_pairwise less h l [] List.Pairwise.nil

/-- Comparing by size, larger first, is a proper less function. -/
theorem sizeLess_ok (size : α → Int) : LessOK (fun a b => decide (size a > size b)) := by
  refine ⟨?_, ?_, ?_⟩
  · intro a; simp
  · intro a b c h1 h2
    simp only [gt_iff_lt, decide_eq_true_eq] at *
    omega
  · intro a b c h1 h2
    simp only [gt_iff_lt, decide_eq_false_iff_not, not_lt] at *
    omega

end SortFacts

section TopK

variable {α : Type}

theorem addTopLargestFile_eq (sortSlice : {α : Type} → (α → α → Bool) → List α → List α)
    (top : List FilesystemLargestFile) (file : FilesystemLargestFile) (limit : Int) :
    addTopLargestFile sortSlice top file limit =
      topInsert FilesystemLargestFile.SizeBytes sortSlice top file limit := by
  simp only [addTopLargestFile, topInsert]
  cases top[top.length - 1]? <;> rfl

theorem addTopLargestDir_eq (sortSlice : {α : Type} → (α → α → Bool) → List α → List α)
    (top : List FilesystemLargestDirectory) (dir : FilesystemLargestDirectory) (limit : Int) :
    addTopLargestDir sortSlice top dir limit =
      topInsert FilesystemLargestDirectory.SizeBytes sortSlice top dir limit := by
  simp only [addTopLargestDir, topInsert]
  cases top[top.length - 1]? <;> rfl

theorem sortSlice_sizes_sorted (size : α → Int)
    (sortSlice : {α : Type} → (α → α → Bool) → List α → List α) (hs : SortSliceSpec sortSlice)
    (l : List α) :
    ((sortSlice (fun a b => decide (size a > size b)) l).map size).Sorted (fun a b => a ≥ b) := by
  have h := (hs (fun a b => decide (size a > size b)) l).2 (sizeLess_ok size)
  unfold List.Sorted
  rw [List.pairwise_map]
  refine h.imp ?_
  intro a b hab
  simp only [gt_iff_lt, decide_eq_false_iff_not, not_lt] at hab
  exact hab

theorem sortSlice_sizes_perm (size : α → Int)
    (sortSlice : {α : Type} → (α → α → Bool) → List α → List α) (hs : SortSliceSpec sortSlice)
    (less : α → α → Bool) (l : List α) :
    ((sortSlice less l).map size).Perm (l.map size) :=
  (hs less l).1.map size

theorem set_last_eq (top : List α) (x : α) (h : top ≠ []) :
    top.set (top.length - 1) x = top.dropLast ++ [x] := by
  induction top with
  | nil => exact absurd rfl h
  | cons a rest ih =>
    cases rest with
    | nil => simp
    | cons b rest2 =>
      have := ih (by simp)
      simp only [List.length_cons, Nat.add_sub_cancel] at this ⊢
      simp only [List.set_cons_succ, List.dropLast_cons₂, List.cons_append, this]

theorem getElem?_last_eq (top : List α) (last : α) (h : top[top.length - 1]? = some last) :
    top = top.dropLast ++ [last] := by
  have hne : top ≠ [] := by
    intro h0
    subst h0
    simp at h
  have h2 : top.getLast? = some last := by
    rw [List.getLast?_eq_getElem?]
    exact h
  exact (List.dropLast_append_getLast? last h2).symm

theorem topInsert_length_le (size : α → Int)
    (sortSlice : {α : Type} → (α → α → Bool) → List α → List α) (hs : SortSliceSpec sortSlice)
    (top : List α) (x : α) (limit : Int) (h : (top.length : Int) ≤ limit) :
    ((topInsert size sortSlice top x limit).length : Int) ≤ limit := by
  unfold topInsert
  split
  · exact h
  · split
    · rw [(hs _ _).1.length_eq]
      simp only [List.length_append, List.length_singleton, Nat.cast_add, Nat.cast_one]
      omega
    · split
      · exact h
      · split
        · exact h
        · rw [(hs _ _).1.length_eq, List.length_set]
          exact h

theorem topInv_nil (size : α → Int) (limit : Int) (h : 1 ≤ limit) :
    TopInv size limit ([] : List α) [] := by
  refine ⟨by simp [List.Sorted], by simp; omega, [], by simp, by simp, by simp⟩

theorem sorted_ge_last (l : List Int) (m : Int) (h : (l ++ [m]).Sorted (fun a b => a ≥ b)) :
    ∀ t ∈ l ++ [m], m ≤ t := by
  intro t ht
  unfold List.Sorted at h
  rw [List.pairwise_append] at h
  rcases List.mem_append.1 ht with ht | ht
  · exact h.2.2 t ht m (by simp)
  · simp only [List.mem_singleton] at ht
    omega

theorem topInsert_under (size : α → Int)
    (sortSlice : {α : Type} → (α → α → Bool) → List α → List α)
    (top : List α) (x : α) (limit : Int) (h : (top.length : Int) < limit) :
    topInsert size sortSlice top x limit =
      sortSlice (fun a b => decide (size a > size b)) (top ++ [x]) := by
  unfold topInsert
  rw [if_neg (by omega), if_pos h]

theorem topInsert_full (size : α → Int)
    (sortSlice : {α : Type} → (α → α → Bool) → List α → List α)
    (top : List α) (x last : α) (limit : Int) (hl : 1 ≤ limit) (h : ¬ (top.length : Int) < limit)
    (hlast : top[top.length - 1]? = some last) :
    topInsert size sortSlice top x limit =
      if size x ≤ size last then top
      else sortSlice (fun a b => decide (size a > size b)) (top.set (top.length - 1) x) := by
  unfold topInsert
  rw [if_neg (by omega), if_neg h, hlast]

theorem getElem?_last_of_full (top : List α) (limit : Int) (hl : 1 ≤ limit)
    (h : ¬ (top.length : Int) < limit) : ∃ last, top[top.length - 1]? = some last := by
  have hpos : 0 < top.length := by omega
  exact ⟨top[top.length - 1], List.getElem?_eq_getElem (by omega)⟩

theorem topInv_step (size : α → Int)
    (sortSlice : {α : Type} → (α → α → Bool) → List α → List α) (hs : SortSliceSpec sortSlice)
    (limit : Int) (hl : 1 ≤ limit) (top : List α) (seen : List Int) (x : α)
    (h : TopInv size limit top seen) :
    TopInv size limit (topInsert size sortSlice top x limit) (seen ++ [size x]) := by
  obtain ⟨hsorted, hlen, rest, hperm, hrest, hfull⟩ := h
  by_cases hlt : (top.length : Int) < limit
  · rw [topInsert_under size sortSlice top x limit hlt]
    have hrest0 : rest = [] := by
      by_contra hne
      have := hfull hne
      omega
    subst hrest0
    refine ⟨sortSlice_sizes_sorted size sortSlice hs _, ?_, [], ?_, by simp, by simp⟩
    · rw [(hs _ _).1.length_eq]
      simp only [List.length_append, List.length_singleton, Nat.cast_add, Nat.cast_one]
      omega
    · simp only [List.append_nil] at hperm ⊢
      refine List.Perm.trans ?_ (sortSlice_sizes_perm size sortSlice hs _ _).symm
      simp only [List.map_append, List.map_cons, List.map_nil]
      exact List.Perm.append_right _ hperm
  · obtain ⟨last, hlast⟩ := getElem?_last_of_full top limit hl hlt
    rw [topInsert_full size sortSlice top x last limit hl hlt hlast]
    have htop := getElem?_last_eq top last hlast
    have hne : top ≠ [] := by
      intro h0
      rw [h0] at hlast
      simp at hlast
    have h1 : top.map size = (top.dropLast.map size) ++ [size last] := by
      conv_lhs => rw [htop]
      simp
    have hmin : ∀ t ∈ top.map size, size last ≤ t := by
      rw [h1]
      apply sorted_ge_last
      rw [← h1]
      exact hsorted
    by_cases hle : size x ≤ size last
    · rw [if_pos hle]
      refine ⟨hsorted, hlen, size x :: rest, ?_, ?_, by intro _; omega⟩
      · refine (List.Perm.append_right _ hperm).trans ?_
        rw [List.append_assoc]
        refine List.Perm.append_left _ ?_
        simp
      · intro r hr t ht
        rcases List.mem_cons.1 hr with rfl | hr
        · exact le_trans hle (hmin t ht)
        · exact hrest r hr t ht
    · rw [if_neg hle]
      have hgt : size last < size x := by omega
      have hp := sortSlice_sizes_perm size sortSlice hs
        (fun a b => decide (size a > size b)) (top.set (top.length - 1) x)
      have hlen3 : (sortSlice (fun a b => decide (size a > size b))
          (top.set (top.length - 1) x)).length = top.length := by
        rw [(hs _ _).1.length_eq, List.length_set]
      refine ⟨sortSlice_sizes_sorted size sortSlice hs _, ?_, size last :: rest, ?_, ?_, ?_⟩
      · rw [hlen3]
        exact hlen
      · rw [set_last_eq top x hne] at hp ⊢
        refine List.Perm.trans ?_ (List.Perm.append_right _ hp.symm)
        refine (List.Perm.append_right _ hperm).trans ?_
        rw [h1]
        simp only [List.map_append, List.map_cons, List.map_nil, List.append_assoc,
          List.singleton_append]
        refine List.Perm.append_left _ ?_
        simpa using (List.perm_append_comm :
          ((size last :: rest) ++ [size x]).Perm ([size x] ++ (size last :: rest)))
      · intro r hr t ht
        have ht2 : t ∈ (top.set (top.length - 1) x).map size := (List.Perm.mem_iff hp).1 ht
        rw [set_last_eq top x hne] at ht2
        simp only [List.map_append, List.map_cons, List.map_nil, List.mem_append,
          List.mem_map, List.mem_singleton] at ht2
        have hlast_le : size last ≤ t := by
          rcases ht2 with ⟨a, ha, rfl⟩ | rfl
          · exact hmin _ (List.mem_map.2 ⟨a, List.dropLast_subset top ha, rfl⟩)
          · omega
        rcases List.mem_cons.1 hr with rfl | hr
        · exact hlast_le
        · exact le_trans (hrest r hr (size last) (by
            rw [h1]
            simp)) hlast_le
      · intro _
        rw [hlen3]
        omega

theorem topInv_foldl (size : α → Int)
    (sortSlice : {α : Type} → (α → α → Bool) → List α → List α) (hs : SortSliceSpec sortSlice)
    (limit : Int) (hl : 1 ≤ limit) (xs : List α) (top : List α) (seen : List Int)
    (h : TopInv size limit top seen) :
    TopInv size limit (xs.foldl (fun t x => topInsert size sortSlice t x limit) top)
      (seen ++ xs.map size) := by
  induction xs generalizing top seen with
  | nil => simpa using h
  | cons x rest ih =>
    have := ih _ _ (topInv_step size sortSlice hs limit hl top seen x h)
    simpa using this

theorem topInv_largest (size : α → Int) (limit : Int) (top : List α) (seen : List Int)
    (h : TopInv size limit top seen) :
    top.map size = largestSizes (min seen.length limit.toNat) seen := by
  obtain ⟨hsorted, hlen, rest, hperm, hrest, hfull⟩ := h
  have hsort : seen.insertionSort (fun a b => a ≥ b) =
      top.map size ++ rest.insertionSort (fun a b => a ≥ b) := by
    apply List.eq_of_perm_of_sorted (r := fun a b : Int => a ≥ b)
    · refine (List.perm_insertionSort _ seen).trans (hperm.trans ?_)
      exact List.Perm.append_left _ (List.perm_insertionSort _ rest).symm
    · exact List.sorted_insertionSort _ seen
    · unfold List.Sorted
      rw [List.pairwise_append]
      refine ⟨hsorted, List.sorted_insertionSort _ rest, ?_⟩
      intro t ht r hr
      exact hrest r ((List.mem_insertionSort _).1 hr) t ht
  have hseenlen : seen.length = top.length + rest.length := by
    have := hperm.length_eq
    simpa using this
  unfold largestSizes
  rw [hsort]
  by_cases hr : rest = []
  · subst hr
    simp only [List.insertionSort, List.append_nil]
    rw [List.take_of_length_le]
    simp only [List.length_map, List.length_nil, Nat.add_zero] at hseenlen ⊢
    omega
  · have hfl := hfull hr
    have hk : min seen.length limit.toNat = (top.map size).length := by
      simp only [List.length_map]
      omega
    rw [hk, List.take_left]

theorem insertFiles_inv (sortSlice : {α : Type} → (α → α → Bool) → List α → List α)
    (hs : SortSliceSpec sortSlice) (limit : Int) (hl : 1 ≤ limit)
    (files : List FilesystemLargestFile) :
    TopInv FilesystemLargestFile.SizeBytes limit (insertFiles sortSlice limit files)
      (files.map FilesystemLargestFile.SizeBytes) := by
  have h := topInv_foldl FilesystemLargestFile.SizeBytes sortSlice hs limit hl files [] []
    (topInv_nil _ limit hl)
  simpa [insertFiles, addTopLargestFile_eq] using h

theorem insertDirs_inv (sortSlice : {α : Type} → (α → α → Bool) → List α → List α)
    (hs : SortSliceSpec sortSlice) (limit : Int) (hl : 1 ≤ limit)
    (dirs : List FilesystemLargestDirectory) :
    TopInv FilesystemLargestDirectory.SizeBytes limit (insertDirs sortSlice limit dirs)
      (dirs.map FilesystemLargestDirectory.SizeBytes) := by
  have h := topInv_foldl FilesystemLargestDirectory.SizeBytes sortSlice hs limit hl dirs [] []
    (topInv_nil _ limit hl)
  simpa [insertDirs, addTopLargestDir_eq] using h

theorem topInv_last_min (size : α → Int) (limit : Int) (top : List α) (seen : List Int)
    (h : TopInv size limit top seen) (last : α) (hlast : top.getLast? = some last) :
    ∀ e ∈ top, size last ≤ size e := by
  intro e he
  have htop : top = top.dropLast ++ [last] := (List.dropLast_append_getLast? last hlast).symm
  have h1 : top.map size = (top.dropLast.map size) ++ [size last] := by
    conv_lhs => rw [htop]
    simp
  have := sorted_ge_last (top.dropLast.map size) (size last) (by
    rw [← h1]
    exact h.1)
  rw [← h1] at this
  exact this _ (List.mem_map.2 ⟨e, he, rfl⟩)

theorem topInsert_full_unchanged (size : α → Int)
    (sortSlice : {α : Type} → (α → α → Bool) → List α → List α)
    (top : List α) (x last : α) (limit : Int) (hl : 1 ≤ limit)
    (hfull : (top.length : Int) = limit) (hlast : top.getLast? = some last)
    (hle : size x ≤ size last) :
    topInsert size sortSlice top x limit = top := by
  rw [List.getLast?_eq_getElem?] at hlast
  rw [topInsert_full size sortSlice top x last limit hl (by omega) hlast, if_pos hle]

end TopK

/-! ## Top-K collectors: the claims -/

/-- C1: for every limit ≥ 1 and every sequence of entries inserted one by one with
`addTopLargestFile` (likewise `addTopLargestDir`) into an initially empty list, the multiset of
sizes in the final list is the multiset of the min(n, limit) largest sizes inserted. -/
theorem topK_retains_largest (sortSlice : {α : Type} → (α → α → Bool) → List α → List α)
    (hs : SortSliceSpec sortSlice) (limit : Int) (hl : 1 ≤ limit)
    (files : List FilesystemLargestFile) (dirs : List FilesystemLargestDirectory) :
    (Multiset.ofList ((insertFiles sortSlice limit files).map FilesystemLargestFile.SizeBytes) =
      Multiset.ofList (largestSizes (min files.length limit.toNat)
        (files.map FilesystemLargestFile.SizeBytes))) ∧
    (Multiset.ofList ((insertDirs sortSlice limit dirs).map FilesystemLargestDirectory.SizeBytes) =
      Multiset.ofList (largestSizes (min dirs.length limit.toNat)
        (dirs.map FilesystemLargestDirectory.SizeBytes))) := by
  constructor
  · have h := topInv_largest _ limit _ _ (insertFiles_inv sortSlice hs limit hl files)
    rw [h, List.length_map]
  · have h := topInv_largest _ limit _ _ (insertDirs_inv sortSlice hs limit hl dirs)
    rw [h, List.length_map]

/-- Witness for C1: limit 2 and three files of sizes 5, 9, 7 (directories of sizes 4, 4, 1),
sorted by the library insertion sort. -/
theorem topK_retains_largest_witness :
    (Multiset.ofList ((insertFiles (fun {α : Type} => @insertionSortFunc α) 2
        [⟨"/d/a", 5, "", ""⟩, ⟨"/d/b", 9, "", ""⟩, ⟨"/d/c", 7, "", ""⟩]).map
          FilesystemLargestFile.SizeBytes) =
      Multiset.ofList (largestSizes (min 3 (2 : Int).toNat) [5, 9, 7])) ∧
    (Multiset.ofList ((insertDirs (fun {α : Type} => @insertionSortFunc α) 2
        [⟨"/d", 4, 1⟩, ⟨"/e", 4, 2⟩, ⟨"/f", 1, 1⟩]).map
          FilesystemLargestDirectory.SizeBytes) =
      Multiset.ofList (largestSizes (min 3 (2 : Int).toNat) [4, 4, 1])) :=
  topK_retains_largest (fun {α : Type} => @insertionSortFunc α) insertionSortFunc_spec 2
    (by decide) [⟨"/d/a", 5, "", ""⟩, ⟨"/d/b", 9, "", ""⟩, ⟨"/d/c", 7, "", ""⟩]
    [⟨"/d", 4, 1⟩, ⟨"/e", 4, 2⟩, ⟨"/f", 1, 1⟩]

/-- C2: for every limit ≥ 1 and every sequence of `addTopLargestFile` / `addTopLargestDir`
insertions starting from the empty list, the list never holds more than limit entries. -/
theorem topK_length_le_limit (sortSlice : {α : Type} → (α → α → Bool) → List α → List α)
    (hs : SortSliceSpec sortSlice) (limit : Int) (hl : 1 ≤ limit)
    (files : List FilesystemLargestFile) (dirs : List FilesystemLargestDirectory) :
    ((insertFiles sortSlice limit files).length : Int) ≤ limit ∧
    ((insertDirs sortSlice limit dirs).length : Int) ≤ limit :=
  ⟨(insertFiles_inv sortSlice hs limit hl files).2.1,
   (insertDirs_inv sortSlice hs limit hl dirs).2.1⟩

/-- Witness for C2: limit 2, three files and three directories. -/
theorem topK_length_le_limit_witness :
    ((insertFiles (fun {α : Type} => @insertionSortFunc α) 2
        [⟨"/d/a", 5, "", ""⟩, ⟨"/d/b", 9, "", ""⟩, ⟨"/d/c", 7, "", ""⟩]).length : Int) ≤ 2 ∧
    ((insertDirs (fun {α : Type} => @insertionSortFunc α) 2
        [⟨"/d", 4, 1⟩, ⟨"/e", 4, 2⟩, ⟨"/f", 1, 1⟩]).length : Int) ≤ 2 :=
  topK_length_le_limit (fun {α : Type} => @insertionSortFunc α) insertionSortFunc_spec 2
    (by decide) [⟨"/d/a", 5, "", ""⟩, ⟨"/d/b", 9, "", ""⟩, ⟨"/d/c", 7, "", ""⟩]
    [⟨"/d", 4, 1⟩, ⟨"/e", 4, 2⟩, ⟨"/f", 1, 1⟩]

/-- C3: for every limit ≥ 1, after every insertion into a list that started empty the list is
sorted descending by size (each size is ≥ the size that follows), so the last entry is a
minimum. -/
theorem topK_sorted_descending (sortSlice : {α : Type} → (α → α → Bool) → List α → List α)
    (hs : SortSliceSpec sortSlice) (limit : Int) (hl : 1 ≤ limit)
    (files : List FilesystemLargestFile) (dirs : List FilesystemLargestDirectory) :
    (((insertFiles sortSlice limit files).map FilesystemLargestFile.SizeBytes).Sorted
        (fun a b => a ≥ b) ∧
      ∀ last, (insertFiles sortSlice limit files).getLast? = some last →
        ∀ e ∈ insertFiles sortSlice limit files, last.SizeBytes ≤ e.SizeBytes) ∧
    (((insertDirs sortSlice limit dirs).map FilesystemLargestDirectory.SizeBytes).Sorted
        (fun a b => a ≥ b) ∧
      ∀ last, (insertDirs sortSlice limit dirs).getLast? = some last →
        ∀ e ∈ insertDirs sortSlice limit dirs, last.SizeBytes ≤ e.SizeBytes) := by
  have hf := insertFiles_inv sortSlice hs limit hl files
  have hd := insertDirs_inv sortSlice hs limit hl dirs
  exact ⟨⟨hf.1, fun last hlast => topInv_last_min _ limit _ _ hf last hlast⟩,
    ⟨hd.1, fun last hlast => topInv_last_min _ limit _ _ hd last hlast⟩⟩

/-- Witness for C3: limit 2, three files and three directories. -/
theorem topK_sorted_descending_witness :
    (((insertFiles (fun {α : Type} => @insertionSortFunc α) 2
        [⟨"/d/a", 5, "", ""⟩, ⟨"/d/b", 9, "", ""⟩, ⟨"/d/c", 7, "", ""⟩]).map
          FilesystemLargestFile.SizeBytes).Sorted (fun a b => a ≥ b) ∧
      ∀ last, (insertFiles (fun {α : Type} => @insertionSortFunc α) 2
        [⟨"/d/a", 5, "", ""⟩, ⟨"/d/b", 9, "", ""⟩, ⟨"/d/c", 7, "", ""⟩]).getLast? = some last →
        ∀ e ∈ insertFiles (fun {α : Type} => @insertionSortFunc α) 2
          [⟨"/d/a", 5, "", ""⟩, ⟨"/d/b", 9, "", ""⟩, ⟨"/d/c", 7, "", ""⟩],
          last.SizeBytes ≤ e.SizeBytes) ∧
    (((insertDirs (fun {α : Type} => @insertionSortFunc α) 2
        [⟨"/d", 4, 1⟩, ⟨"/e", 4, 2⟩, ⟨"/f", 1, 1⟩]).map
          FilesystemLargestDirectory.SizeBytes).Sorted (fun a b => a ≥ b) ∧
      ∀ last, (insertDirs (fun {α : Type} => @insertionSortFunc α) 2
        [⟨"/d", 4, 1⟩, ⟨"/e", 4, 2⟩, ⟨"/f", 1, 1⟩]).getLast? = some last →
        ∀ e ∈ insertDirs (fun {α : Type} => @insertionSortFunc α) 2
          [⟨"/d", 4, 1⟩, ⟨"/e", 4, 2⟩, ⟨"/f", 1, 1⟩], last.SizeBytes ≤ e.SizeBytes) :=
  topK_sorted_descending (fun {α : Type} => @insertionSortFunc α) insertionSortFunc_spec 2
    (by decide) [⟨"/d/a", 5, "", ""⟩, ⟨"/d/b", 9, "", ""⟩, ⟨"/d/c", 7, "", ""⟩]
    [⟨"/d", 4, 1⟩, ⟨"/e", 4, 2⟩, ⟨"/f", 1, 1⟩]

/-- C4: when the list already holds limit entries (limit ≥ 1) and the candidate is no larger
than the last entry, `addTopLargestFile` and `addTopLargestDir` return the list unchanged; in
particular with limit 1 and two files of equal size the list holds the first one. -/
theorem topK_full_rejects_not_larger
    (sortSlice : {α : Type} → (α → α → Bool) → List α → List α) (limit : Int) (hl : 1 ≤ limit) :
    (∀ (top : List FilesystemLargestFile) (file last : FilesystemLargestFile),
      (top.length : Int) = limit → top.getLast? = some last →
      file.SizeBytes ≤ last.SizeBytes → addTopLargestFile sortSlice top file limit = top) ∧
    (∀ (top : List FilesystemLargestDirectory) (dir last : FilesystemLargestDirectory),
      (top.length : Int) = limit → top.getLast? = some last →
      dir.SizeBytes ≤ last.SizeBytes → addTopLargestDir sortSlice top dir limit = top) ∧
    (SortSliceSpec sortSlice → ∀ first second : FilesystemLargestFile,
      first.SizeBytes = second.SizeBytes → insertFiles sortSlice 1 [first, second] = [first]) := by
  refine ⟨?_, ?_, ?_⟩
  · intro top file last hfull hlast hle
    rw [addTopLargestFile_eq]
    exact topInsert_full_unchanged _ sortSlice top file last limit hl hfull hlast hle
  · intro top dir last hfull hlast hle
    rw [addTopLargestDir_eq]
    exact topInsert_full_unchanged _ sortSlice top dir last limit hl hfull hlast hle
  · intro hs first second heq
    have h1 : addTopLargestFile sortSlice [] first 1 = [first] := by
      rw [addTopLargestFile_eq, topInsert_under _ sortSlice [] first 1 (by simp)]
      exact List.perm_singleton.1 (hs _ _).1
    simp only [insertFiles, List.foldl_cons, List.foldl_nil, h1]
    rw [addTopLargestFile_eq]
    exact topInsert_full_unchanged _ sortSlice [first] second first 1 (by decide) (by simp)
      (by simp) (by omega)

/-- Witness for C4: a full list of two files and a candidate as large as its last entry. -/
theorem topK_full_rejects_not_larger_witness :
    addTopLargestFile (fun {α : Type} => @insertionSortFunc α)
      [⟨"/d/b", 9, "", ""⟩, ⟨"/d/c", 7, "", ""⟩] ⟨"/d/e", 7, "", ""⟩ 2 =
      [⟨"/d/b", 9, "", ""⟩, ⟨"/d/c", 7, "", ""⟩] :=
  (topK_full_rejects_not_larger (fun {α : Type} => @insertionSortFunc α) 2 (by decide)).1
    [⟨"/d/b", 9, "", ""⟩, ⟨"/d/c", 7, "", ""⟩] ⟨"/d/e", 7, "", ""⟩ ⟨"/d/c", 7, "", ""⟩
    (by decide) (by decide) (by decide)

/-! ## Lower case: the proofs -/

theorem caseRanges_ascending : ascendingFrom 0 caseRanges = true := by decide!

theorem caseRanges_good : caseRanges.all (entryGood caseRanges) = true := by decide!

theorem toNat_ofNat_valid (n : Nat) (h : n.isValidChar) : (Char.ofNat n).toNat = n := by
  unfold Char.ofNat
  rw [dif_pos h]
  rfl

theorem plainInterval_spec (a b n : Nat) (h : plainInterval a b = true) (ha : a ≤ n)
    (hb : n ≤ b) :
    n.isValidChar ∧ n ≠ 92 ∧
      ¬ ((9 ≤ n ∧ n ≤ 13) ∨ n = 32 ∨ n = 0x85 ∨ n = 0xA0 ∨ n = 0x1680 ∨
        (0x2000 ≤ n ∧ n ≤ 0x200A) ∨ n = 0x2028 ∨ n = 0x2029 ∨ n = 0x202F ∨ n = 0x205F ∨
        n = 0x3000) := by
  unfold plainInterval at h
  simp only [Bool.or_eq_true, Bool.and_eq_true, decide_eq_true_eq] at h
  unfold Nat.isValidChar
  omega

theorem isSpace_iff (c : Char) : unicodeIsSpace c = true ↔
    ((9 ≤ c.toNat ∧ c.toNat ≤ 13) ∨ c.toNat = 32 ∨ c.toNat = 0x85 ∨ c.toNat = 0xA0 ∨
      c.toNat = 0x1680 ∨ (0x2000 ≤ c.toNat ∧ c.toNat ≤ 0x200A) ∨ c.toNat = 0x2028 ∨
      c.toNat = 0x2029 ∨ c.toNat = 0x202F ∨ c.toNat = 0x205F ∨ c.toNat = 0x3000) := by
  unfold unicodeIsSpace
  simp only [Bool.or_eq_true, Bool.and_eq_true, decide_eq_true_eq]
  tauto

theorem unicodeTo_outside (r : Nat) (t : List CaseRange)
    (h : ∀ cr ∈ t, ¬ (cr.Lo ≤ r ∧ r ≤ cr.Hi)) : unicodeTo r t = r := by
  induction t with
  | nil => rfl
  | cons x rest ih =>
    rw [unicodeTo, if_neg (h x (List.mem_cons_self _ _))]
    exact ih (fun cr hcr => h cr (List.mem_cons_of_mem _ hcr))

theorem ascendingFrom_bound (b : Nat) (t : List CaseRange) (h : ascendingFrom b t = true)
    (cr : CaseRange) (hcr : cr ∈ t) : b ≤ cr.Lo := by
  induction t generalizing b with
  | nil => exact absurd hcr (List.not_mem_nil _)
  | cons x rest ih =>
    simp only [ascendingFrom, Bool.and_eq_true, decide_eq_true_eq] at h
    rcases List.mem_cons.1 hcr with rfl | h2
    · exact h.1.1
    · have := ih (x.Hi + 1) h.2 h2
      omega

theorem unicodeTo_inside (r b : Nat) (t : List CaseRange) (h : ascendingFrom b t = true)
    (cr : CaseRange) (hcr : cr ∈ t) (h1 : cr.Lo ≤ r) (h2 : r ≤ cr.Hi) :
    unicodeTo r t = applyRange cr r := by
  induction t generalizing b with
  | nil => exact absurd hcr (List.not_mem_nil _)
  | cons x rest ih =>
    simp only [ascendingFrom, Bool.and_eq_true, decide_eq_true_eq] at h
    rcases List.mem_cons.1 hcr with rfl | h3
    · rw [unicodeTo, if_pos ⟨h1, h2⟩]
      rfl
    · have hb := ascendingFrom_bound (x.Hi + 1) rest h.2 cr h3
      rw [unicodeTo, if_neg (by omega)]
      exact ih (x.Hi + 1) h.2 h3

/-- What the table does to a rune `r`: nothing, or what the one entry that holds `r` says; the
result `y` is then a scalar value that the table leaves alone, neither `r` nor `y` is white
space or a backslash, and `y` is ASCII only if `r` is or `y` is `i` or `k`. -/
theorem unicodeTo_cases (r : Nat) :
    unicodeTo r caseRanges = r ∨
    (unicodeTo (unicodeTo r caseRanges) caseRanges = unicodeTo r caseRanges ∧
      (unicodeTo r caseRanges).isValidChar ∧ unicodeTo r caseRanges ≠ 92 ∧ r ≠ 92 ∧
      (∀ c : Char, c.toNat = r ∨ c.toNat = unicodeTo r caseRanges → unicodeIsSpace c = false) ∧
      (127 < r → 127 < unicodeTo r caseRanges ∨ unicodeTo r caseRanges = 105 ∨
        unicodeTo r caseRanges = 107)) := by
  by_cases hin : ∃ cr ∈ caseRanges, cr.Lo ≤ r ∧ r ≤ cr.Hi
  · right
    obtain ⟨cr, hcr, h1, h2⟩ := hin
    have hy := unicodeTo_inside r 0 caseRanges caseRanges_ascending cr hcr h1 h2
    have hg := List.all_eq_true.1 caseRanges_good cr hcr
    rw [hy]
    unfold entryGood at hg
    rw [Bool.and_eq_true] at hg
    obtain ⟨hp, hg⟩ := hg
    have hr := plainInterval_spec _ _ r hp h1 h2
    have hspace : ∀ n : Nat, (n.isValidChar ∧ n ≠ 92 ∧
        ¬ ((9 ≤ n ∧ n ≤ 13) ∨ n = 32 ∨ n = 0x85 ∨ n = 0xA0 ∨ n = 0x1680 ∨
          (0x2000 ≤ n ∧ n ≤ 0x200A) ∨ n = 0x2028 ∨ n = 0x2029 ∨ n = 0x202F ∨ n = 0x205F ∨
          n = 0x3000)) → ∀ c : Char, c.toNat = n → unicodeIsSpace c = false := by
      intro n hn c hc
      cases hs : unicodeIsSpace c with
      | false => rfl
      | true =>
        rw [isSpace_iff, hc] at hs
        exact absurd hs hn.2.2
    by_cases hd : cr.Delta > maxRune
    · rw [if_pos hd, decide_eq_true_eq] at hg
      have hy2 : applyRange cr r = cr.Lo + ((r - cr.Lo) / 2 * 2 + 1) := by
        unfold applyRange
        rw [if_pos hd]
      have hlo : cr.Lo ≤ applyRange cr r := by omega
      have hhi : applyRange cr r ≤ cr.Hi := by omega
      have hpy := plainInterval_spec _ _ _ hp hlo hhi
      refine ⟨?_, hpy.1, hpy.2.1, hr.2.1, ?_, ?_⟩
      · rw [unicodeTo_inside _ 0 caseRanges caseRanges_ascending cr hcr hlo hhi]
        rw [hy2]
        unfold applyRange
        rw [if_pos hd]
        omega
      · intro c hc
        rcases hc with hc | hc
        · exact hspace r hr c hc
        · exact hspace _ hpy c hc
      · intro h127
        left
        omega
    · rw [if_neg hd] at hg
      simp only [Bool.and_eq_true, decide_eq_true_eq, Bool.or_eq_true, List.all_eq_true]
        at hg
      obtain ⟨⟨⟨hnn, hpi⟩, hfree⟩, hascii⟩ := hg
      have hy2 : applyRange cr r = ((r : Int) + cr.Delta).toNat := by
        unfold applyRange
        rw [if_neg hd]
      have hlo : ((cr.Lo : Int) + cr.Delta).toNat ≤ applyRange cr r := by omega
      have hhi : applyRange cr r ≤ ((cr.Hi : Int) + cr.Delta).toNat := by omega
      have hpy := plainInterval_spec _ _ _ hpi hlo hhi
      refine ⟨?_, hpy.1, hpy.2.1, hr.2.1, ?_, ?_⟩
      · apply unicodeTo_outside
        intro x hx hcon
        have := hfree x hx
        omega
      · intro c hc
        rcases hc with hc | hc
        · exact hspace r hr c hc
        · exact hspace _ hpy c hc
      · intro h127
        omega
  · left
    apply unicodeTo_outside
    intro cr hcr hcon
    exact hin ⟨cr, hcr, hcon⟩

theorem toLower_eq (c : Char) :
    Char.toLower c = if 65 ≤ c.toNat ∧ c.toNat ≤ 90 then Char.ofNat (c.toNat + 32) else c :=
  rfl

theorem ofNat_lower_toNat (n : Nat) (h1 : 65 ≤ n) (h2 : n ≤ 90) :
    (Char.ofNat (n + 32)).toNat = n + 32 := by
  interval_cases n <;> rfl

theorem toLower_toNat (c : Char) :
    (Char.toLower c).toNat = if 65 ≤ c.toNat ∧ c.toNat ≤ 90 then c.toNat + 32 else c.toNat := by
  rw [toLower_eq]
  by_cases h : 65 ≤ c.toNat ∧ c.toNat ≤ 90
  · rw [if_pos h, if_pos h]
    exact ofNat_lower_toNat _ h.1 h.2
  · rw [if_neg h, if_neg h]

theorem toLower_idem (c : Char) : Char.toLower (Char.toLower c) = Char.toLower c := by
  rw [toLower_eq (Char.toLower c)]
  apply if_neg
  rw [toLower_toNat]
  split <;> omega

theorem toLower_ne_backslash (c : Char) (h : c ≠ '\\') : Char.toLower c ≠ '\\' := by
  intro e
  have h1 := toLower_toNat c
  rw [e] at h1
  split at h1
  · have : ('\\' : Char).toNat = 92 := rfl
    omega
  · rw [toLower_eq, if_neg (by assumption)] at e
    exact h e

theorem char_eq_of_toNat (c d : Char) (h : c.toNat = d.toNat) : c = d := by
  rw [← Char.ofNat_toNat c, ← Char.ofNat_toNat d, h]

/-- On an ASCII rune `unicode.ToLower` is the ASCII lower-casing. -/
theorem unicodeToLower_ascii (c : Char) (h : c.toNat ≤ 127) :
    unicodeToLower c = Char.toLower c := by
  unfold unicodeToLower
  rw [if_pos h, toLower_eq]

theorem unicodeToLower_table (c : Char) (h : 127 < c.toNat) :
    unicodeToLower c = Char.ofNat (unicodeTo c.toNat caseRanges) := by
  unfold unicodeToLower
  rw [if_neg (by omega)]

/-- The cases of `unicode.ToLower` on a rune `c`: an ASCII rune is lower-cased as in ASCII; any
other rune stays, or goes to the rune the table gives, which is then a fixed point, with
neither of the two white space or a backslash, and ASCII only if it is `i` or `k`. -/
theorem unicodeToLower_cases (c : Char) :
    (c.toNat ≤ 127 ∧ unicodeToLower c = Char.toLower c) ∨
    (127 < c.toNat ∧ unicodeToLower c = c) ∨
    (127 < c.toNat ∧ unicodeToLower (unicodeToLower c) = unicodeToLower c ∧
      unicodeToLower c ≠ '\\' ∧ unicodeIsSpace c = false ∧
      unicodeIsSpace (unicodeToLower c) = false ∧
      (127 < (unicodeToLower c).toNat ∨ unicodeToLower c = 'i' ∨ unicodeToLower c = 'k')) := by
  by_cases h : c.toNat ≤ 127
  · exact Or.inl ⟨h, unicodeToLower_ascii c h⟩
  · right
    have h127 : 127 < c.toNat := by omega
    have hy := unicodeToLower_table c h127
    rcases unicodeTo_cases c.toNat with e | ⟨e1, e2, e3, _, e5, e6⟩
    · left
      rw [e, Char.ofNat_toNat] at hy
      exact ⟨h127, hy⟩
    · right
      have hn : (unicodeToLower c).toNat = unicodeTo c.toNat caseRanges := by
        rw [hy]
        exact toNat_ofNat_valid _ e2
      refine ⟨h127, ?_, ?_, e5 c (Or.inl rfl), e5 _ (Or.inr hn), ?_⟩
      · by_cases hs : (unicodeToLower c).toNat ≤ 127
        · rw [unicodeToLower_ascii _ hs, toLower_eq, if_neg]
          rw [hn]
          rw [hn] at hs
          have := e6 h127
          omega
        · rw [unicodeToLower_table _ (by omega), hn, e1, ← hy]
      · intro e
        rw [e] at hn
        have : ('\\' : Char).toNat = 92 := rfl
        omega
      · rcases e6 h127 with e | e | e
        · left
          omega
        · right
          left
          apply char_eq_of_toNat
          rw [hn, e]
          rfl
        · right
          right
          apply char_eq_of_toNat
          rw [hn, e]
          rfl

theorem unicodeToLower_idem (c : Char) :
    unicodeToLower (unicodeToLower c) = unicodeToLower c := by
  rcases unicodeToLower_cases c with ⟨h, e⟩ | ⟨_, e⟩ | ⟨_, e, _⟩
  · have h2 : (Char.toLower c).toNat ≤ 127 := by
      rw [toLower_toNat]
      split <;> omega
    rw [e, unicodeToLower_ascii _ h2]
    exact toLower_idem c
  · rw [e, e]
  · exact e

theorem unicodeToLower_ne_backslash (c : Char) (h : c ≠ '\\') : unicodeToLower c ≠ '\\' := by
  rcases unicodeToLower_cases c with ⟨_, e⟩ | ⟨_, e⟩ | ⟨_, _, e, _⟩
  · rw [e]
    exact toLower_ne_backslash c h
  · rw [e]
    exact h
  · exact e

theorem isSpace_toLower (c : Char) : unicodeIsSpace (Char.toLower c) = unicodeIsSpace c := by
  unfold unicodeIsSpace
  simp only
  rw [toLower_toNat]
  by_cases h : 65 ≤ c.toNat ∧ c.toNat ≤ 90
  · rw [if_pos h]
    rw [Bool.eq_iff_iff]
    simp only [Bool.or_eq_true, Bool.and_eq_true, decide_eq_true_eq]
    omega
  · rw [if_neg h]

/-- A rune is white space exactly when its lower-case form is. -/
theorem isSpace_unicodeToLower (c : Char) :
    unicodeIsSpace (unicodeToLower c) = unicodeIsSpace c := by
  rcases unicodeToLower_cases c with ⟨_, e⟩ | ⟨_, e⟩ | ⟨_, _, _, e1, e2, _⟩
  · rw [e]
    exact isSpace_toLower c
  · rw [e]
  · rw [e1, e2]

/-- An ASCII rune other than `i` and `k` is the lower-case form of ASCII runes only. -/
theorem unicodeToLower_eq_ascii_iff (c d : Char) (hd : d.toNat ≤ 127) (hi : d ≠ 'i')
    (hk : d ≠ 'k') : unicodeToLower c = d ↔ Char.toLower c = d := by
  rcases unicodeToLower_cases c with ⟨_, e⟩ | ⟨h, e⟩ | ⟨h, _, _, _, _, e⟩
  · rw [e]
  · have e2 : Char.toLower c = c := by
      rw [toLower_eq, if_neg (by omega)]
    rw [e, e2]
  · have e2 : Char.toLower c = c := by
      rw [toLower_eq, if_neg (by omega)]
    rw [e2]
    constructor
    · intro x
      rw [x] at e
      rcases e with e | e | e
      · omega
      · exact absurd e hi
      · exact absurd e hk
    · intro x
      rw [x] at h
      omega

/-! ## Strings and path checks: the proofs -/

theorem containsChars_iff (sub l : List Char) : containsChars sub l = true ↔ sub <:+: l := by
  induction l with
  | nil =>
    cases sub <;> simp [containsChars]
  | cons c cs ih =>
    simp only [containsChars, Bool.or_eq_true, List.isPrefixOf_iff_prefix, ih]
    exact List.infix_cons_iff.symm

theorem replaceAllChars_single (a b : Char) (l : List Char) :
    replaceAllChars [a] [b] 0 l = l.map (fun c => if c = a then b else c) := by
  induction l with
  | nil => simp [replaceAllChars]
  | cons c cs ih =>
    by_cases h : c = a
    · subst h
      simp [replaceAllChars, ih]
    · have h2 : ¬ a = c := fun e => h e.symm
      simp [replaceAllChars, ih, h, h2]

theorem normalizePathForChecks_data (path : String) :
    (normalizePathForChecks path).data =
      path.data.map (fun c => unicodeToLower (if c = '\\' then '/' else c)) := by
  have h : ("\\" : String).data = ['\\'] := rfl
  have h2 : ("/" : String).data = ['/'] := rfl
  simp only [normalizePathForChecks, stringsToLower, stringsReplaceAll, h, h2,
    replaceAllChars_single, List.map_map]
  rfl

theorem map_eq_congr_on {f g : Char → Char} (t : List Char)
    (h : ∀ c, ∀ d ∈ t, (f c = d ↔ g c = d)) (l : List Char) : l.map f = t ↔ l.map g = t := by
  induction l generalizing t with
  | nil => simp
  | cons c cs ih =>
    cases t with
    | nil => simp
    | cons d ds =>
      simp only [List.map_cons, List.cons.injEq]
      rw [h c d (by simp), ih ds (fun c e he => h c e (List.mem_cons_of_mem _ he))]

theorem suffix_map_congr_on {f g : Char → Char} (t : List Char)
    (h : ∀ c, ∀ d ∈ t, (f c = d ↔ g c = d)) (l : List Char) :
    t <:+ l.map f ↔ t <:+ l.map g := by
  rw [List.suffix_iff_eq_drop, List.suffix_iff_eq_drop]
  simp only [List.length_map, ← List.map_drop]
  constructor
  · intro e
    exact ((map_eq_congr_on t h _).1 e.symm).symm
  · intro e
    exact ((map_eq_congr_on t h _).2 e.symm).symm

theorem dotLog_suffix_normalize (path : String) :
    ".log".data <:+ (normalizePathForChecks path).data ↔
      ".log".data <:+ path.data.map Char.toLower := by
  rw [normalizePathForChecks_data]
  apply suffix_map_congr_on
  intro c d hd
  have hd2 : d = '.' ∨ d = 'l' ∨ d = 'o' ∨ d = 'g' := by
    have : (".log" : String).data = ['.', 'l', 'o', 'g'] := rfl
    rw [this] at hd
    simpa using hd
  by_cases hc : c = '\\'
  · subst hc
    rcases hd2 with rfl | rfl | rfl | rfl <;> decide
  · simp only [if_neg hc]
    rcases hd2 with rfl | rfl | rfl | rfl <;>
      exact unicodeToLower_eq_ascii_iff c _ (by decide) (by decide) (by decide)

theorem isOldDownload_eq_true_iff (path : String) (modifiedAt threshold : Int) :
    isOldDownload path modifiedAt threshold = true ↔
      (("/downloads/".data <:+: (normalizePathForChecks path).data ∨
        "/downloads".data <:+ (normalizePathForChecks path).data) ∧ modifiedAt ≤ threshold) := by
  unfold isOldDownload
  by_cases h : modifiedAt > threshold
  · rw [if_pos h]
    constructor
    · intro e
      exact absurd e (by simp)
    · intro e
      omega
  · rw [if_neg h]
    simp only [stringsContains, stringsHasSuffix, Bool.or_eq_true, containsChars_iff,
      List.isSuffixOf_iff_suffix]
    constructor
    · intro e
      exact ⟨e, by omega⟩
    · intro e
      exact e.1

/-- C8: `isOldDownload` returns true exactly when the normalized path contains "/downloads/"
or ends with "/downloads" and the modification time is at or before the threshold; with
threshold = now - 30 days a file under such a path modified 31 days ago is reported, one
modified 29 days ago is not, and one modified exactly at the threshold is reported. -/
theorem isOldDownload_spec (path : String) (modifiedAt threshold : Int) :
    (isOldDownload path modifiedAt threshold = true ↔
      (("/downloads/".data <:+: (normalizePathForChecks path).data ∨
        "/downloads".data <:+ (normalizePathForChecks path).data) ∧ modifiedAt ≤ threshold)) ∧
    (("/downloads/".data <:+: (normalizePathForChecks path).data ∨
        "/downloads".data <:+ (normalizePathForChecks path).data) →
      ∀ now : Int,
        isOldDownload path (now - 31 * 24 * timeHour) (oldDownloadsThreshold now) = true ∧
        isOldDownload path (now - 29 * 24 * timeHour) (oldDownloadsThreshold now) = false ∧
        isOldDownload path (oldDownloadsThreshold now) (oldDownloadsThreshold now) = true) := by
  refine ⟨isOldDownload_eq_true_iff path modifiedAt threshold, ?_⟩
  intro hp now
  refine ⟨?_, ?_, ?_⟩
  · rw [isOldDownload_eq_true_iff]
    refine ⟨hp, ?_⟩
    simp only [oldDownloadsThreshold, timeHour]
    omega
  · cases h : isOldDownload path (now - 29 * 24 * timeHour) (oldDownloadsThreshold now) with
    | false => rfl
    | true =>
      rw [isOldDownload_eq_true_iff] at h
      have := h.2
      simp only [oldDownloadsThreshold, timeHour] at this
      omega
  · rw [isOldDownload_eq_true_iff]
    exact ⟨hp, le_refl _⟩

/-- Witness for C8: a file below a `Downloads` directory, scan started at time 0. -/
theorem isOldDownload_spec_witness :
    isOldDownload "/home/u/Downloads/x.iso" (0 - 31 * 24 * timeHour) (oldDownloadsThreshold 0)
        = true ∧
    isOldDownload "/home/u/Downloads/x.iso" (0 - 29 * 24 * timeHour) (oldDownloadsThreshold 0)
        = false ∧
    isOldDownload "/home/u/Downloads/x.iso" (oldDownloadsThreshold 0) (oldDownloadsThreshold 0)
        = true :=
  (isOldDownload_spec "/home/u/Downloads/x.iso" 0 0).2
    (Or.inl ((containsChars_iff _ _).1 (by decide))) 0

/-- C9: `isUnrotatedLog` returns true exactly when the size is at least 100 MiB (104857600
bytes) and the path, compared case-insensitively, ends in ".log"; `service.log` of 150 MiB is
reported, of 50 MiB is not, and a ".log" file of exactly 104857600 bytes is reported.  The
four runes of ".log" are lower-case forms of ASCII runes only, so the comparison is stated
with the ASCII lower-casing `Char.toLower`. -/
theorem isUnrotatedLog_spec (path : String) (sizeBytes : Int) :
    (isUnrotatedLog path sizeBytes = true ↔
      (104857600 ≤ sizeBytes ∧ ".log".data <:+ path.data.map Char.toLower)) ∧
    isUnrotatedLog "service.log" (150 * 1024 * 1024) = true ∧
    isUnrotatedLog "service.log" (50 * 1024 * 1024) = false ∧
    (".log".data <:+ path.data.map Char.toLower → isUnrotatedLog path 104857600 = true) := by
  have key : ∀ size : Int, isUnrotatedLog path size = true ↔
      (104857600 ≤ size ∧ ".log".data <:+ path.data.map Char.toLower) := by
    intro size
    unfold isUnrotatedLog
    by_cases h : size < unrotatedLogMinBytes
    · rw [if_pos h]
      simp only [unrotatedLogMinBytes] at h
      constructor
      · intro e
        exact absurd e (by simp)
      · intro e
        omega
    · rw [if_neg h]
      simp only [unrotatedLogMinBytes] at h
      simp only [stringsHasSuffix, List.isSuffixOf_iff_suffix]
      constructor
      · intro e
        exact ⟨by omega, (dotLog_suffix_normalize path).1 e⟩
      · intro e
        exact (dotLog_suffix_normalize path).2 e.2
  refine ⟨key sizeBytes, by decide, by decide, ?_⟩
  intro hp
  exact (key 104857600).2 ⟨le_refl _, hp⟩

/-- Witness for C9: a Windows style path in upper case, exactly 104857600 bytes. -/
theorem isUnrotatedLog_spec_witness :
    isUnrotatedLog "C:\\Logs\\Service.LOG" 104857600 = true :=
  (isUnrotatedLog_spec "C:\\Logs\\Service.LOG" 0).2.2.2 (by decide)

/-! ## Decimal keys -/

theorem digitsVal_append (a b : List Char) :
    digitsVal (a ++ b) = b.foldl (fun acc c => acc * 10 + (c.toNat - 48)) (digitsVal a) := by
  simp [digitsVal, List.foldl_append]

theorem digitChar_val (d : Nat) (h : d < 10) : (Nat.digitChar d).toNat - 48 = d := by
  interval_cases d <;> rfl

theorem digitChar_ne_bar (d : Nat) (h : d < 10) : Nat.digitChar d ≠ '|' := by
  interval_cases d <;> decide

theorem toDigitsCore_spec (fuel n : Nat) (ds : List Char) (h : n < fuel) :
    ∃ front : List Char, Nat.toDigitsCore 10 fuel n ds = front ++ ds ∧ digitsVal front = n ∧
      ∀ c ∈ front, c ≠ '|' := by
  induction fuel generalizing n ds with
  | zero => omega
  | succ fuel ih =>
    unfold Nat.toDigitsCore
    by_cases h0 : n / 10 = 0
    · simp only [h0, if_true]
      refine ⟨[Nat.digitChar (n % 10)], by simp, ?_, ?_⟩
      · simp only [digitsVal, List.foldl_cons, List.foldl_nil, Nat.zero_mul, Nat.zero_add]
        rw [digitChar_val _ (Nat.mod_lt _ (by decide))]
        omega
      · intro c hc
        simp only [List.mem_singleton] at hc
        subst hc
        exact digitChar_ne_bar _ (Nat.mod_lt _ (by decide))
    · simp only [h0, if_false]
      obtain ⟨front, hf, hv, hb⟩ := ih (n / 10) (Nat.digitChar (n % 10) :: ds) (by omega)
      refine ⟨front ++ [Nat.digitChar (n % 10)], by simp [hf], ?_, ?_⟩
      · rw [digitsVal_append, hv]
        simp only [List.foldl_cons, List.foldl_nil]
        rw [digitChar_val _ (Nat.mod_lt _ (by decide))]
        omega
      · intro c hc
        rcases List.mem_append.1 hc with hc | hc
        · exact hb c hc
        · simp only [List.mem_singleton] at hc
          subst hc
          exact digitChar_ne_bar _ (Nat.mod_lt _ (by decide))

theorem natRepr_spec (n : Nat) :
    digitsVal (Nat.repr n).data = n ∧ ∀ c ∈ (Nat.repr n).data, c ≠ '|' := by
  obtain ⟨front, hf, hv, hb⟩ := toDigitsCore_spec (n + 1) n [] (by omega)
  have : (Nat.repr n).data = front := by
    simp only [Nat.repr, Nat.toDigits, hf, List.append_nil, List.asString]
  rw [this]
  exact ⟨hv, hb⟩

theorem toString_pos (s : Int) (h : 0 < s) : toString s = Nat.repr s.toNat := by
  obtain ⟨n, rfl⟩ := Int.eq_ofNat_of_zero_le (le_of_lt h)
  rfl

theorem bar_split_unique (d1 d2 r1 r2 : List Char) (h1 : ∀ c ∈ d1, c ≠ '|')
    (h2 : ∀ c ∈ d2, c ≠ '|') (h : d1 ++ '|' :: r1 = d2 ++ '|' :: r2) : d1 = d2 ∧ r1 = r2 := by
  induction d1 generalizing d2 with
  | nil =>
    cases d2 with
    | nil => simpa using h
    | cons c cs =>
      simp only [List.nil_append, List.cons_append, List.cons.injEq] at h
      exact absurd h.1.symm (h2 c (by simp))
  | cons a as ih =>
    cases d2 with
    | nil =>
      simp only [List.nil_append, List.cons_append, List.cons.injEq] at h
      exact absurd h.1 (h1 a (by simp))
    | cons c cs =>
      simp only [List.cons_append, List.cons.injEq] at h
      obtain ⟨e1, e2⟩ := ih cs (fun x hx => h1 x (List.mem_cons_of_mem _ hx))
        (fun x hx => h2 x (List.mem_cons_of_mem _ hx)) h.2
      exact ⟨by rw [h.1, e1], e2⟩

/-- The key format separates size and name: equal keys of positive sizes have equal parts. -/
theorem duplicateKey_inj (s1 s2 : Int) (b1 b2 : String) (h1 : 0 < s1) (h2 : 0 < s2)
    (h : duplicateKey s1 b1 = duplicateKey s2 b2) : s1 = s2 ∧ b1 = b2 := by
  unfold duplicateKey at h
  rw [toString_pos s1 h1, toString_pos s2 h2] at h
  have hd := congrArg String.data h
  simp only [String.data_append] at hd
  rw [List.append_assoc, List.append_assoc] at hd
  obtain ⟨e1, e2⟩ := bar_split_unique _ _ _ _ (natRepr_spec s1.toNat).2 (natRepr_spec s2.toNat).2 hd
  have hv : s1.toNat = s2.toNat := by
    rw [← (natRepr_spec s1.toNat).1, ← (natRepr_spec s2.toNat).1, e1]
  refine ⟨by omega, ?_⟩
  exact String.ext e2

theorem duplicateKeyOf_eq_iff (f g : String × Int) (k : String)
    (hf : duplicateKeyOf f = some k) : duplicateKeyOf g = some k ↔ sameKey g f = true := by
  unfold duplicateKeyOf at hf ⊢
  unfold sameKey
  rw [decide_eq_true_iff]
  split at hf
  · exact absurd hf (by simp)
  · rename_i hvf
    simp only [not_or, not_le] at hvf
    simp only [Option.some.injEq] at hf
    constructor
    · intro hg
      split at hg
      · exact absurd hg (by simp)
      · rename_i hvg
        simp only [not_or, not_le] at hvg
        simp only [Option.some.injEq] at hg
        exact duplicateKey_inj _ _ _ _ hvg.2 hvf.2 (hg.trans hf.symm)
    · intro hs
      rw [hs.1, hs.2, if_neg (by
        simp only [not_or, not_le]
        exact hvf), hf]

/-! ## Go maps: lookup facts -/

section MapFacts

variable {V : Type}

theorem lookup_cons_eq (k k2 : String) (v : V) (m : List (String × V)) :
    ((k2, v) :: m).lookup k = if k = k2 then some v else m.lookup k := by
  rw [List.lookup_cons]
  by_cases h : k = k2
  · simp [h]
  · have : (k == k2) = false := by simpa using h
    simp [h, this]

theorem lookup_some_mem (m : List (String × V)) (k : String) (v : V)
    (h : m.lookup k = some v) : (k, v) ∈ m := by
  induction m with
  | nil => simp at h
  | cons e rest ih =>
    obtain ⟨k2, v2⟩ := e
    rw [lookup_cons_eq] at h
    split at h
    · rename_i hk
      simp only [Option.some.injEq] at h
      subst hk
      subst h
      simp
    · exact List.mem_cons_of_mem _ (ih h)

theorem lookup_none_not_mem (m : List (String × V)) (k : String)
    (h : m.lookup k = none) : ∀ e ∈ m, e.1 ≠ k := by
  induction m with
  | nil => simp
  | cons e rest ih =>
    obtain ⟨k2, v2⟩ := e
    rw [lookup_cons_eq] at h
    split at h
    · exact absurd h (by simp)
    · rename_i hk
      intro e he
      rcases List.mem_cons.1 he with rfl | he
      · exact fun e => hk e.symm
      · exact ih h e he

theorem lookup_of_mem_nodup (m : List (String × V)) (k : String) (v : V)
    (hn : (m.map Prod.fst).Nodup) (h : (k, v) ∈ m) : m.lookup k = some v := by
  induction m with
  | nil => simp at h
  | cons e rest ih =>
    obtain ⟨k2, v2⟩ := e
    rw [lookup_cons_eq]
    simp only [List.map_cons, List.nodup_cons, List.mem_map, not_exists, not_and] at hn
    rcases List.mem_cons.1 h with heq | hmem
    · simp only [Prod.mk.injEq] at heq
      rw [if_pos heq.1, heq.2]
    · have hne : k ≠ k2 := by
        intro e
        exact hn.1 (k, v) hmem e
      rw [if_neg hne]
      exact ih hn.2 hmem

theorem mem_nodup_keys_unique (m : List (String × V)) (k : String) (v w : V)
    (hn : (m.map Prod.fst).Nodup) (h1 : (k, v) ∈ m) (h2 : (k, w) ∈ m) : v = w := by
  have a := lookup_of_mem_nodup m k v hn h1
  have b := lookup_of_mem_nodup m k w hn h2
  rw [a] at b
  exact Option.some.inj b

end MapFacts

/-! ## Duplicate candidates: the invariant -/

theorem expectedPaths_append_other (k : String) (files : List (String × Int))
    (f : String × Int) (h : duplicateKeyOf f ≠ some k) :
    expectedPaths k (files ++ [f]) = expectedPaths k files := by
  unfold expectedPaths
  rw [List.filter_append]
  have : List.filter (fun f => decide (duplicateKeyOf f = some k)) [f] = [] := by
    simp [List.filter_cons, h]
  rw [this, List.append_nil]

theorem expectedPaths_append_same (k : String) (files : List (String × Int))
    (f : String × Int) (h : duplicateKeyOf f = some k) :
    expectedPaths k (files ++ [f]) =
      (((files.filter (fun f => duplicateKeyOf f = some k)).map Prod.fst) ++ [f.1]).take 50 := by
  unfold expectedPaths
  rw [List.filter_append]
  have : List.filter (fun f => decide (duplicateKeyOf f = some k)) [f] = [f] := by
    simp [List.filter_cons, h]
  rw [this, List.map_append]
  rfl

theorem dupInv_nil : DupInv [] [] := by
  refine ⟨by simp, by simp, by simp⟩

theorem dupInv_step (groups : List (String × duplicateGroup)) (files : List (String × Int))
    (f : String × Int) (h : DupInv groups files) :
    DupInv (addDuplicateCandidate groups f.1 f.2) (files ++ [f]) := by
  obtain ⟨hnd, hgrp, hall⟩ := h
  cases hk : duplicateKeyOf f with
  | none =>
    have hsame : addDuplicateCandidate groups f.1 f.2 = groups := by
      unfold duplicateKeyOf at hk
      unfold addDuplicateCandidate
      split at hk
      · rename_i hv
        simp only [hv, if_true]
      · exact absurd hk (by simp)
    rw [hsame]
    refine ⟨hnd, ?_, ?_⟩
    · intro e he
      obtain ⟨a, b, c⟩ := hgrp e he
      refine ⟨a, ?_, c⟩
      rw [expectedPaths_append_other _ _ _ (by rw [hk]; simp)]
      exact b
    · intro g hg k hgk
      rcases List.mem_append.1 hg with hg | hg
      · exact hall g hg k hgk
      · simp only [List.mem_singleton] at hg
        subst hg
        rw [hk] at hgk
        exact absurd hgk (by simp)
  | some key =>
    have hvalid : ¬ (normalizeDuplicateName (filepathBase f.1) = "" ∨ f.2 ≤ 0) := by
      intro hv
      unfold duplicateKeyOf at hk
      rw [if_pos hv] at hk
      exact absurd hk (by simp)
    have hkey : duplicateKey f.2 (normalizeDuplicateName (filepathBase f.1)) = key := by
      unfold duplicateKeyOf at hk
      rw [if_neg hvalid] at hk
      exact Option.some.inj hk
    cases hget : groups.lookup key with
    | none =>
      have hnew : addDuplicateCandidate groups f.1 f.2 =
          groups ++ [(key, ⟨key, f.2, [f.1]⟩)] := by
        unfold addDuplicateCandidate
        simp only [hvalid, if_false, hkey, mapGet, mapSet, hget]
      rw [hnew]
      have hfresh := lookup_none_not_mem groups key hget
      have hnofile : files.filter (fun f => duplicateKeyOf f = some key) = [] := by
        rw [List.filter_eq_nil_iff]
        intro g hg hgk
        simp only [decide_eq_true_eq] at hgk
        obtain ⟨grp, hmem⟩ := hall g hg key hgk
        exact hfresh _ hmem rfl
      refine ⟨?_, ?_, ?_⟩
      · rw [List.map_append, List.nodup_append]
        refine ⟨hnd, by simp, ?_⟩
        intro a ha hb
        simp only [List.map_cons, List.map_nil, List.mem_singleton] at hb
        obtain ⟨e, he, rfl⟩ := List.mem_map.1 ha
        exact hfresh e he hb
      · intro e he
        rcases List.mem_append.1 he with he | he
        · obtain ⟨a, b, c⟩ := hgrp e he
          refine ⟨a, ?_, c⟩
          rw [expectedPaths_append_other _ _ _ (by
            rw [hk]
            intro heq
            exact hfresh e he (Option.some.inj heq).symm)]
          exact b
        · simp only [List.mem_singleton] at he
          subst he
          refine ⟨rfl, ?_, by simp⟩
          rw [expectedPaths_append_same _ _ _ hk, hnofile]
          rfl
      · intro g hg k hgk
        rcases List.mem_append.1 hg with hg | hg
        · obtain ⟨grp, hmem⟩ := hall g hg k hgk
          exact ⟨grp, List.mem_append_left _ hmem⟩
        · simp only [List.mem_singleton] at hg
          subst hg
          rw [hk] at hgk
          have : key = k := Option.some.inj hgk
          subst this
          exact ⟨⟨key, g.2, [g.1]⟩, List.mem_append_right _ (List.mem_singleton.2 rfl)⟩
    | some group =>
      have hmemg := lookup_some_mem groups key group hget
      obtain ⟨hgk, hgp, hgne⟩ := hgrp _ hmemg
      simp only at hgk hgp hgne
      have hplen : group.Paths.length =
          min 50 ((files.filter (fun f => duplicateKeyOf f = some key)).map Prod.fst).length := by
        rw [hgp]
        unfold expectedPaths
        rw [List.length_take]
      by_cases hroom : group.Paths.length < 50
      · have hnew : addDuplicateCandidate groups f.1 f.2 =
            groups.map (fun e => if e.1 = key then
              (key, { group with Paths := group.Paths ++ [f.1] }) else e) := by
          unfold addDuplicateCandidate
          simp only [hvalid, if_false, hkey, mapGet, mapSet, hget, hroom, if_true]
        rw [hnew]
        have hkeys : (groups.map (fun e => if e.1 = key then
              (key, { group with Paths := group.Paths ++ [f.1] }) else e)).map Prod.fst =
            groups.map Prod.fst := by
          rw [List.map_map]
          apply List.map_congr_left
          intro e _
          simp only [Function.comp]
          split
          · rename_i h1
            exact h1.symm
          · rfl
        refine ⟨by rw [hkeys]; exact hnd, ?_, ?_⟩
        · intro e2 he2
          obtain ⟨e, he, rfl⟩ := List.mem_map.1 he2
          by_cases hek : e.1 = key
          · simp only [hek, if_true]
            refine ⟨hgk, ?_, by simp⟩
            rw [expectedPaths_append_same _ _ _ hk]
            have hfull : ((files.filter (fun f => duplicateKeyOf f = some key)).map
                Prod.fst).length < 50 := by omega
            have hgp2 : group.Paths =
                (files.filter (fun f => duplicateKeyOf f = some key)).map Prod.fst := by
              rw [hgp]
              unfold expectedPaths
              exact List.take_of_length_le (by omega)
            rw [← hgp2]
            exact (List.take_of_length_le (by simp; omega)).symm
          · simp only [hek, if_false]
            obtain ⟨a, b, c⟩ := hgrp e he
            refine ⟨a, ?_, c⟩
            rw [expectedPaths_append_other _ _ _ (by
              rw [hk]
              intro heq
              exact hek (Option.some.inj heq).symm)]
            exact b
        · intro g hg k hgk2
          have hex : ∃ grp, (k, grp) ∈ groups := by
            rcases List.mem_append.1 hg with hg | hg
            · exact hall g hg k hgk2
            · simp only [List.mem_singleton] at hg
              subst hg
              rw [hk] at hgk2
              have : key = k := Option.some.inj hgk2
              subst this
              exact ⟨group, hmemg⟩
          obtain ⟨grp, hmem⟩ := hex
          by_cases hkk : k = key
          · refine ⟨{ group with Paths := group.Paths ++ [f.1] }, ?_⟩
            rw [List.mem_map]
            refine ⟨(k, grp), hmem, ?_⟩
            simp only [hkk, if_true]
          · refine ⟨grp, ?_⟩
            rw [List.mem_map]
            refine ⟨(k, grp), hmem, ?_⟩
            simp only [hkk, if_false]
      · have hsame : addDuplicateCandidate groups f.1 f.2 = groups := by
          unfold addDuplicateCandidate
          simp only [hvalid, if_false, hkey, mapGet, hget, hroom]
        rw [hsame]
        refine ⟨hnd, ?_, ?_⟩
        · intro e he
          obtain ⟨a, b, c⟩ := hgrp e he
          refine ⟨a, ?_, c⟩
          by_cases hek : e.1 = key
          · rw [hek, expectedPaths_append_same _ _ _ hk, b, hek]
            unfold expectedPaths
            exact (List.take_append_of_le_length (by omega)).symm
          · rw [expectedPaths_append_other _ _ _ (by
              rw [hk]
              intro heq
              exact hek (Option.some.inj heq).symm)]
            exact b
        · intro g hg k hgk2
          rcases List.mem_append.1 hg with hg | hg
          · exact hall g hg k hgk2
          · simp only [List.mem_singleton] at hg
            subst hg
            rw [hk] at hgk2
            have : key = k := Option.some.inj hgk2
            subst this
            exact ⟨group, hmemg⟩

theorem dupInv_foldl (files : List (String × Int)) (groups : List (String × duplicateGroup))
    (seen : List (String × Int)) (h : DupInv groups seen) :
    DupInv (files.foldl (fun groups f => addDuplicateCandidate groups f.1 f.2) groups)
      (seen ++ files) := by
  induction files generalizing groups seen with
  | nil => simpa using h
  | cons f rest ih =>
    have := ih _ _ (dupInv_step groups seen f h)
    simpa using this

theorem feedDuplicates_inv (files : List (String × Int)) :
    DupInv (feedDuplicates files) files := by
  have := dupInv_foldl files [] [] dupInv_nil
  simpa [feedDuplicates] using this

/-! ## Duplicate candidates: the report -/

theorem mem_expectedPaths (k : String) (files : List (String × Int)) (p : String)
    (h : p ∈ expectedPaths k files) : ∃ g ∈ files, duplicateKeyOf g = some k ∧ g.1 = p := by
  unfold expectedPaths at h
  obtain ⟨g, hg, rfl⟩ := List.mem_map.1 (List.mem_of_mem_take h)
  rw [List.mem_filter] at hg
  exact ⟨g, hg.1, by simpa using hg.2, rfl⟩

theorem nodup_fst_unique (files : List (String × Int)) (h : (files.map Prod.fst).Nodup)
    (f g : String × Int) (hf : f ∈ files) (hg : g ∈ files) (e : f.1 = g.1) : f = g :=
  List.inj_on_of_nodup_map h hf hg e

theorem build_candidates_eq (groups : List (String × duplicateGroup)) :
    groups.filterMap (fun e =>
      if e.2.Paths.length < 2 then none
      else some
        ({ Key := e.2.Key, SizeBytes := e.2.SizeBytes, Count := (e.2.Paths.length : Int),
           Paths := e.2.Paths } : FilesystemDuplicateCandidate)) =
    groups.filterMap (fun e => if e.2.Paths.length < 2 then none else some (candidateOf e.2)) :=
  rfl

theorem mem_build (sortSlice : {α : Type} → (α → α → Bool) → List α → List α)
    (mapRange : {V : Type} → List (String × V) → List (String × V))
    (hs : SortSliceSpec sortSlice) (hm : MapRangeSpec mapRange)
    (groups : List (String × duplicateGroup)) (limit : Nat) (c : FilesystemDuplicateCandidate)
    (h : c ∈ buildDuplicateCandidateList sortSlice mapRange groups limit) :
    ∃ e ∈ groups, 2 ≤ e.2.Paths.length ∧ c = candidateOf e.2 := by
  unfold buildDuplicateCandidateList at h
  simp only at h
  have h2 : c ∈ (mapRange groups).filterMap (fun e =>
      if e.2.Paths.length < 2 then none else some (candidateOf e.2)) := by
    rw [← build_candidates_eq]
    split at h
    · exact (hs _ _).1.subset (List.mem_of_mem_take h)
    · exact (hs _ _).1.subset h
  rw [List.mem_filterMap] at h2
  obtain ⟨e, he, hc⟩ := h2
  refine ⟨e, (hm groups).subset he, ?_⟩
  split at hc
  · exact absurd hc (by simp)
  · exact ⟨by omega, (Option.some.inj hc).symm⟩

theorem filter_key_lone (k : String) (pre post : List (String × Int)) (f : String × Int)
    (hf : duplicateKeyOf f = some k) (hlone : ∀ g ∈ pre ++ post, sameKey g f = false) :
    (pre ++ f :: post).filter (fun g => duplicateKeyOf g = some k) = [f] := by
  have hnone : ∀ l : List (String × Int), (∀ g ∈ l, sameKey g f = false) →
      l.filter (fun g => duplicateKeyOf g = some k) = [] := by
    intro l hl
    rw [List.filter_eq_nil_iff]
    intro g hg hgk
    simp only [decide_eq_true_eq] at hgk
    have := (duplicateKeyOf_eq_iff f g k hf).1 hgk
    rw [hl g hg] at this
    exact absurd this (by simp)
  rw [List.filter_append, List.filter_cons, hnone pre (fun g hg => hlone g (List.mem_append_left _ hg)),
    hnone post (fun g hg => hlone g (List.mem_append_right _ hg))]
  simp [hf]

/-- C7, as amended: every group returned by `buildDuplicateCandidateList` has Count equal to the
length of its Paths with 2 ≤ Count ≤ 50; and for a file whose (size, normalized base name) key
is shared by no other file of the sequence, no group is returned under its key and, when each
path occurs once in the sequence, the file appears in the Paths of no returned group. -/
theorem duplicate_groups_reported (sortSlice : {α : Type} → (α → α → Bool) → List α → List α)
    (mapRange : {V : Type} → List (String × V) → List (String × V))
    (hs : SortSliceSpec sortSlice) (hm : MapRangeSpec mapRange)
    (files : List (String × Int)) (limit : Nat) :
    (∀ c ∈ buildDuplicateCandidateList sortSlice mapRange (feedDuplicates files) limit,
      c.Count = (c.Paths.length : Int) ∧ 2 ≤ c.Count ∧ c.Count ≤ 50) ∧
    (∀ (pre post : List (String × Int)) (f : String × Int),
      files = pre ++ f :: post → (∀ g ∈ pre ++ post, sameKey g f = false) →
      (∀ k, duplicateKeyOf f = some k →
        ∀ c ∈ buildDuplicateCandidateList sortSlice mapRange (feedDuplicates files) limit,
          c.Key ≠ k) ∧
      ((files.map Prod.fst).Nodup →
        ∀ c ∈ buildDuplicateCandidateList sortSlice mapRange (feedDuplicates files) limit,
          f.1 ∉ c.Paths)) := by
  obtain ⟨hnd, hgrp, hall⟩ := feedDuplicates_inv files
  constructor
  · intro c hc
    obtain ⟨e, he, h2, rfl⟩ := mem_build sortSlice mapRange hs hm _ limit c hc
    have hp := (hgrp e he).2.1
    have hlen : e.2.Paths.length ≤ 50 := by
      rw [hp]
      unfold expectedPaths
      rw [List.length_take]
      omega
    simp only [candidateOf]
    exact ⟨trivial, by omega, by omega⟩
  · intro pre post f hfiles hlone
    constructor
    · intro k hk c hc hck
      obtain ⟨e, he, h2, rfl⟩ := mem_build sortSlice mapRange hs hm _ limit c hc
      obtain ⟨hkey, hp, _⟩ := hgrp e he
      simp only [candidateOf] at hck
      rw [hkey] at hck
      have hlen : e.2.Paths.length ≤ 1 := by
        rw [hp, hck]
        unfold expectedPaths
        rw [hfiles, filter_key_lone k pre post f hk hlone]
        simp
      omega
    · intro hpaths c hc hmem
      obtain ⟨e, he, h2, rfl⟩ := mem_build sortSlice mapRange hs hm _ limit c hc
      have hp := (hgrp e he).2.1
      simp only [candidateOf] at hmem
      rw [hp] at hmem
      obtain ⟨g, hg, hgk, hg1⟩ := mem_expectedPaths _ _ _ hmem
      have hfmem : f ∈ files := by
        rw [hfiles]
        simp
      have hgf : g = f := nodup_fst_unique files hpaths g f hg hfmem hg1
      subst hgf
      have hlen : e.2.Paths.length ≤ 1 := by
        rw [hp]
        unfold expectedPaths
        rw [hfiles, filter_key_lone e.1 pre post g hgk hlone]
        simp
      omega

/-- Witness for C7: three files, two of which share size and normalized name. -/
theorem duplicate_groups_reported_witness :
    (∀ c ∈ buildDuplicateCandidateList (fun {α : Type} => @insertionSortFunc α)
        (fun {V : Type} => @mapRangeInsertion V)
        (feedDuplicates [("/data/a/big.bin", 200), ("/data/c", 3), ("/data/b/Big.bin", 200)])
        200,
      c.Count = (c.Paths.length : Int) ∧ 2 ≤ c.Count ∧ c.Count ≤ 50) ∧
    (∀ c ∈ buildDuplicateCandidateList (fun {α : Type} => @insertionSortFunc α)
        (fun {V : Type} => @mapRangeInsertion V)
        (feedDuplicates [("/data/a/big.bin", 200), ("/data/c", 3), ("/data/b/Big.bin", 200)])
        200,
      "/data/c" ∉ c.Paths) :=
  ⟨(duplicate_groups_reported (fun {α : Type} => @insertionSortFunc α)
      (fun {V : Type} => @mapRangeInsertion V) insertionSortFunc_spec
      (fun {V : Type} m => List.Perm.refl m)
      [("/data/a/big.bin", 200), ("/data/c", 3), ("/data/b/Big.bin", 200)] 200).1,
   ((duplicate_groups_reported (fun {α : Type} => @insertionSortFunc α)
      (fun {V : Type} => @mapRangeInsertion V) insertionSortFunc_spec
      (fun {V : Type} m => List.Perm.refl m)
      [("/data/a/big.bin", 200), ("/data/c", 3), ("/data/b/Big.bin", 200)] 200).2
      [("/data/a/big.bin", 200)] [("/data/b/Big.bin", 200)] ("/data/c", 3) rfl
      (by decide)).2 (by decide)⟩

/-- C7, the claim as stated fails: the path `/a/x.bin` is fed twice, with sizes 5 and 7.  The
file `/a/x.bin` of size 5 shares its key with no other file of the sequence, and its path is
in the Paths of the returned group `7|x.bin`. -/
theorem lone_key_file_path_in_group :
    buildDuplicateCandidateList (fun {α : Type} => @insertionSortFunc α)
        (fun {V : Type} => @mapRangeInsertion V)
        (feedDuplicates [("/a/x.bin", 5), ("/a/x.bin", 7), ("/c/x.bin", 7)]) 200 =
      [⟨"7|x.bin", 7, 2, ["/a/x.bin", "/c/x.bin"]⟩] ∧
    sameKey ("/a/x.bin", 7) ("/a/x.bin", 5) = false ∧
    sameKey ("/c/x.bin", 7) ("/a/x.bin", 5) = false := by
  decide

@[simp] theorem recordError_dirStats (s : WalkState) (path : String) (err : FsError) :
    (recordError s path err).dirStats = s.dirStats := rfl

@[simp] theorem recordError_dirStack (s : WalkState) (path : String) (err : FsError) :
    (recordError s path err).dirStack = s.dirStack := rfl

@[simp] theorem recordError_visitedDirs (s : WalkState) (path : String) (err : FsError) :
    (recordError s path err).visitedDirs = s.visitedDirs := rfl

@[simp] theorem recordError_tempBytes (s : WalkState) (path : String) (err : FsError) :
    (recordError s path err).tempBytes = s.tempBytes := rfl

@[simp] theorem recordError_duplicateByKey (s : WalkState) (path : String) (err : FsError) :
    (recordError s path err).duplicateByKey = s.duplicateByKey := rfl

@[simp] theorem recordError_cleanupByPath (s : WalkState) (path : String) (err : FsError) :
    (recordError s path err).cleanupByPath = s.cleanupByPath := rfl

@[simp] theorem recordError_topLargestFiles (s : WalkState) (path : String) (err : FsError) :
    (recordError s path err).topLargestFiles = s.topLargestFiles := rfl

@[simp] theorem recordError_oldDownloads (s : WalkState) (path : String) (err : FsError) :
    (recordError s path err).oldDownloads = s.oldDownloads := rfl

@[simp] theorem recordError_unrotatedLogs (s : WalkState) (path : String) (err : FsError) :
    (recordError s path err).unrotatedLogs = s.unrotatedLogs := rfl

@[simp] theorem recordError_filesScanned (s : WalkState) (path : String) (err : FsError) :
    (recordError s path err).filesScanned = s.filesScanned := rfl

@[simp] theorem recordError_dirsScanned (s : WalkState) (path : String) (err : FsError) :
    (recordError s path err).dirsScanned = s.dirsScanned := rfl

@[simp] theorem recordError_bytesScanned (s : WalkState) (path : String) (err : FsError) :
    (recordError s path err).bytesScanned = s.bytesScanned := rfl

@[simp] theorem recordError_maxDepthReached (s : WalkState) (path : String) (err : FsError) :
    (recordError s path err).maxDepthReached = s.maxDepthReached := rfl

@[simp] theorem recordError_entriesSeen (s : WalkState) (path : String) (err : FsError) :
    (recordError s path err).entriesSeen = s.entriesSeen := rfl

@[simp] theorem recordError_Partial (s : WalkState) (path : String) (err : FsError) :
    (recordError s path err).Partial = s.Partial := rfl

@[simp] theorem recordError_reason (s : WalkState) (path : String) (err : FsError) :
    (recordError s path err).reason = s.reason := rfl

@[simp] theorem recordError_clock (s : WalkState) (path : String) (err : FsError) :
    (recordError s path err).clock = s.clock := rfl

theorem registerDir_keeps (cfg : ScanConfig) (frame : scanDirFrame) (s : WalkState) (entryPath : String) :
    (registerDir cfg frame s entryPath).tempBytes = s.tempBytes ∧
    (registerDir cfg frame s entryPath).duplicateByKey = s.duplicateByKey ∧
    (registerDir cfg frame s entryPath).cleanupByPath = s.cleanupByPath ∧
    (registerDir cfg frame s entryPath).topLargestFiles = s.topLargestFiles ∧
    (registerDir cfg frame s entryPath).oldDownloads = s.oldDownloads ∧
    (registerDir cfg frame s entryPath).unrotatedLogs = s.unrotatedLogs ∧
    (registerDir cfg frame s entryPath).scanErrors = s.scanErrors ∧
    (registerDir cfg frame s entryPath).filesScanned = s.filesScanned ∧
    (registerDir cfg frame s entryPath).dirsScanned = s.dirsScanned ∧
    (registerDir cfg frame s entryPath).bytesScanned = s.bytesScanned ∧
    (registerDir cfg frame s entryPath).permissionDeniedCount = s.permissionDeniedCount ∧
    (registerDir cfg frame s entryPath).maxDepthReached = s.maxDepthReached ∧
    (registerDir cfg frame s entryPath).entriesSeen = s.entriesSeen ∧
    (registerDir cfg frame s entryPath).Partial = s.Partial ∧
    (registerDir cfg frame s entryPath).reason = s.reason ∧
    (registerDir cfg frame s entryPath).clock = s.clock := by
  unfold registerDir
  simp only
  repeat' split
  all_goals exact ⟨rfl, rfl, rfl, rfl, rfl, rfl, rfl, rfl, rfl, rfl, rfl, rfl, rfl, rfl, rfl, rfl⟩

@[simp] theorem registerDir_tempBytes (cfg : ScanConfig) (frame : scanDirFrame) (s : WalkState) (entryPath : String) :
    (registerDir cfg frame s entryPath).tempBytes = s.tempBytes :=
  (registerDir_keeps cfg frame s entryPath).1

@[simp] theorem registerDir_duplicateByKey (cfg : ScanConfig) (frame : scanDirFrame) (s : WalkState) (entryPath : String) :
    (registerDir cfg frame s entryPath).duplicateByKey = s.duplicateByKey :=
  (registerDir_keeps cfg frame s entryPath).2.1

@[simp] theorem registerDir_cleanupByPath (cfg : ScanConfig) (frame : scanDirFrame) (s : WalkState) (entryPath : String) :
    (registerDir cfg frame s entryPath).cleanupByPath = s.cleanupByPath :=
  (registerDir_keeps cfg frame s entryPath).2.2.1

@[simp] theorem registerDir_topLargestFiles (cfg : ScanConfig) (frame : scanDirFrame) (s : WalkState) (entryPath : String) :
    (registerDir cfg frame s entryPath).topLargestFiles = s.topLargestFiles :=
  (registerDir_keeps cfg frame s entryPath).2.2.2.1

@[simp] theorem registerDir_oldDownloads (cfg : ScanConfig) (frame : scanDirFrame) (s : WalkState) (entryPath : String) :
    (registerDir cfg frame s entryPath).oldDownloads = s.oldDownloads :=
  (registerDir_keeps cfg frame s entryPath).2.2.2.2.1

@[simp] theorem registerDir_unrotatedLogs (cfg : ScanConfig) (frame : scanDirFrame) (s : WalkState) (entryPath : String) :
    (registerDir cfg frame s entryPath).unrotatedLogs = s.unrotatedLogs :=
  (registerDir_keeps cfg frame s entryPath).2.2.2.2.2.1

@[simp] theorem registerDir_scanErrors (cfg : ScanConfig) (frame : scanDirFrame) (s : WalkState) (entryPath : String) :
    (registerDir cfg frame s entryPath).scanErrors = s.scanErrors :=
  (registerDir_keeps cfg frame s entryPath).2.2.2.2.2.2.1

@[simp] theorem registerDir_filesScanned (cfg : ScanConfig) (frame : scanDirFrame) (s : WalkState) (entryPath : String) :
    (registerDir cfg frame s entryPath).filesScanned = s.filesScanned :=
  (registerDir_keeps cfg frame s entryPath).2.2.2.2.2.2.2.1

@[simp] theorem registerDir_dirsScanned (cfg : ScanConfig) (frame : scanDirFrame) (s : WalkState) (entryPath : String) :
    (registerDir cfg frame s entryPath).dirsScanned = s.dirsScanned :=
  (registerDir_keeps cfg frame s entryPath).2.2.2.2.2.2.2.2.1

@[simp] theorem registerDir_bytesScanned (cfg : ScanConfig) (frame : scanDirFrame) (s : WalkState) (entryPath : String) :
    (registerDir cfg frame s entryPath).bytesScanned = s.bytesScanned :=
  (registerDir_keeps cfg frame s entryPath).2.2.2.2.2.2.2.2.2.1

@[simp] theorem registerDir_permissionDeniedCount (cfg : ScanConfig) (frame : scanDirFrame) (s : WalkState) (entryPath : String) :
    (registerDir cfg frame s entryPath).permissionDeniedCount = s.permissionDeniedCount :=
  (registerDir_keeps cfg frame s entryPath).2.2.2.2.2.2.2.2.2.2.1

@[simp] theorem registerDir_maxDepthReached (cfg : ScanConfig) (frame : scanDirFrame) (s : WalkState) (entryPath : String) :
    (registerDir cfg frame s entryPath).maxDepthReached = s.maxDepthReached :=
  (registerDir_keeps cfg frame s entryPath).2.2.2.2.2.2.2.2.2.2.2.1

@[simp] theorem registerDir_entriesSeen (cfg : ScanConfig) (frame : scanDirFrame) (s : WalkState) (entryPath : String) :
    (registerDir cfg frame s entryPath).entriesSeen = s.entriesSeen :=
  (registerDir_keeps cfg frame s entryPath).2.2.2.2.2.2.2.2.2.2.2.2.1

@[simp] theorem registerDir_Partial (cfg : ScanConfig) (frame : scanDirFrame) (s : WalkState) (entryPath : String) :
    (registerDir cfg frame s entryPath).Partial = s.Partial :=
  (registerDir_keeps cfg frame s entryPath).2.2.2.2.2.2.2.2.2.2.2.2.2.1

@[simp] theorem registerDir_reason (cfg : ScanConfig) (frame : scanDirFrame) (s : WalkState) (entryPath : String) :
    (registerDir cfg frame s entryPath).reason = s.reason :=
  (registerDir_keeps cfg frame s entryPath).2.2.2.2.2.2.2.2.2.2.2.2.2.2.1

@[simp] theorem registerDir_clock (cfg : ScanConfig) (frame : scanDirFrame) (s : WalkState) (entryPath : String) :
    (registerDir cfg frame s entryPath).clock = s.clock :=
  (registerDir_keeps cfg frame s entryPath).2.2.2.2.2.2.2.2.2.2.2.2.2.2.2

theorem visitFile_keeps (env : ScanEnv) (cfg : ScanConfig) (frame : scanDirFrame) (s : WalkState)
    (entryPath : String) (info : FileInfo) :
    (visitFile env cfg frame s entryPath info).dirStack = s.dirStack ∧
    (visitFile env cfg frame s entryPath info).visitedDirs = s.visitedDirs ∧
    (visitFile env cfg frame s entryPath info).scanErrors = s.scanErrors ∧
    (visitFile env cfg frame s entryPath info).dirsScanned = s.dirsScanned ∧
    (visitFile env cfg frame s entryPath info).permissionDeniedCount = s.permissionDeniedCount ∧
    (visitFile env cfg frame s entryPath info).maxDepthReached = s.maxDepthReached ∧
    (visitFile env cfg frame s entryPath info).entriesSeen = s.entriesSeen ∧
    (visitFile env cfg frame s entryPath info).Partial = s.Partial ∧
    (visitFile env cfg frame s entryPath info).reason = s.reason ∧
    (visitFile env cfg frame s entryPath info).clock = s.clock := by
  unfold visitFile
  simp only
  repeat' split
  all_goals exact ⟨rfl, rfl, rfl, rfl, rfl, rfl, rfl, rfl, rfl, rfl⟩

@[simp] theorem visitFile_dirStack (env : ScanEnv) (cfg : ScanConfig) (frame : scanDirFrame) (s : WalkState)
    (entryPath : String) (info : FileInfo) :
    (visitFile env cfg frame s entryPath info).dirStack = s.dirStack :=
  (visitFile_keeps env cfg frame s entryPath info).1

@[simp] theorem visitFile_visitedDirs (env : ScanEnv) (cfg : ScanConfig) (frame : scanDirFrame) (s : WalkState)
    (entryPath : String) (info : FileInfo) :
    (visitFile env cfg frame s entryPath info).visitedDirs = s.visitedDirs :=
  (visitFile_keeps env cfg frame s entryPath info).2.1

@[simp] theorem visitFile_scanErrors (env : ScanEnv) (cfg : ScanConfig) (frame : scanDirFrame) (s : WalkState)
    (entryPath : String) (info : FileInfo) :
    (visitFile env cfg frame s entryPath info).scanErrors = s.scanErrors :=
  (visitFile_keeps env cfg frame s entryPath info).2.2.1

@[simp] theorem visitFile_dirsScanned (env : ScanEnv) (cfg : ScanConfig) (frame : scanDirFrame) (s : WalkState)
    (entryPath : String) (info : FileInfo) :
    (visitFile env cfg frame s entryPath info).dirsScanned = s.dirsScanned :=
  (visitFile_keeps env cfg frame s entryPath info).2.2.2.1

@[simp] theorem visitFile_permissionDeniedCount (env : ScanEnv) (cfg : ScanConfig) (frame : scanDirFrame) (s : WalkState)
    (entryPath : String) (info : FileInfo) :
    (visitFile env cfg frame s entryPath info).permissionDeniedCount = s.permissionDeniedCount :=
  (visitFile_keeps env cfg frame s entryPath info).2.2.2.2.1

@[simp] theorem visitFile_maxDepthReached (env : ScanEnv) (cfg : ScanConfig) (frame : scanDirFrame) (s : WalkState)
    (entryPath : String) (info : FileInfo) :
    (visitFile env cfg frame s entryPath info).maxDepthReached = s.maxDepthReached :=
  (visitFile_keeps env cfg frame s entryPath info).2.2.2.2.2.1

@[simp] theorem visitFile_entriesSeen (env : ScanEnv) (cfg : ScanConfig) (frame : scanDirFrame) (s : WalkState)
    (entryPath : String) (info : FileInfo) :
    (visitFile env cfg frame s entryPath info).entriesSeen = s.entriesSeen :=
  (visitFile_keeps env cfg frame s entryPath info).2.2.2.2.2.2.1

@[simp] theorem visitFile_Partial (env : ScanEnv) (cfg : ScanConfig) (frame : scanDirFrame) (s : WalkState)
    (entryPath : String) (info : FileInfo) :
    (visitFile env cfg frame s entryPath info).Partial = s.Partial :=
  (visitFile_keeps env cfg frame s entryPath info).2.2.2.2.2.2.2.1

@[simp] theorem visitFile_reason (env : ScanEnv) (cfg : ScanConfig) (frame : scanDirFrame) (s : WalkState)
    (entryPath : String) (info : FileInfo) :
    (visitFile env cfg frame s entryPath info).reason = s.reason :=
  (visitFile_keeps env cfg frame s entryPath info).2.2.2.2.2.2.2.2.1

@[simp] theorem visitFile_clock (env : ScanEnv) (cfg : ScanConfig) (frame : scanDirFrame) (s : WalkState)
    (entryPath : String) (info : FileInfo) :
    (visitFile env cfg frame s entryPath info).clock = s.clock :=
  (visitFile_keeps env cfg frame s entryPath info).2.2.2.2.2.2.2.2.2

theorem visitFile_filesScanned (env : ScanEnv) (cfg : ScanConfig) (frame : scanDirFrame)
    (s : WalkState) (entryPath : String) (info : FileInfo) :
    (visitFile env cfg frame s entryPath info).filesScanned = s.filesScanned + 1 := by
  unfold visitFile
  simp only
  repeat' split
  all_goals rfl

theorem visitFile_bytesScanned (env : ScanEnv) (cfg : ScanConfig) (frame : scanDirFrame)
    (s : WalkState) (entryPath : String) (info : FileInfo) :
    (visitFile env cfg frame s entryPath info).bytesScanned =
      s.bytesScanned + (if info.size < 0 then 0 else info.size) := by
  unfold visitFile
  simp only
  repeat' split
  all_goals rfl

theorem visitFile_dirStats (env : ScanEnv) (cfg : ScanConfig) (frame : scanDirFrame)
    (s : WalkState) (entryPath : String) (info : FileInfo) :
    (visitFile env cfg frame s entryPath info).dirStats =
      match mapGet s.dirStats frame.path with
      | some parentAgg =>
        mapSet s.dirStats frame.path
          { parentAgg with
            SizeBytes := parentAgg.SizeBytes + (if info.size < 0 then 0 else info.size)
            FileCount := parentAgg.FileCount + 1 }
      | none => s.dirStats := by
  unfold visitFile
  simp only
  repeat' split
  all_goals rfl


/-! ## The loops end within their fuel -/

/-- Case analysis of one iteration of the inner loop. -/
theorem processEntry_cases (P : WalkState × Bool → Prop) (env : ScanEnv) (cfg : ScanConfig)
    (frame : scanDirFrame) (s : WalkState) (entry : DirEntry)
    (htimeout : env.expired s.clock = true →
      P ({ s with clock := s.clock + 1, Partial := true, reason := "timeout reached" }, true))
    (hcap : env.expired s.clock = false → cfg.maxEntries < s.entriesSeen + 1 →
      P ({ enterEntry s with Partial := true, reason := "max entries reached" }, true))
    (herr : env.expired s.clock = false → s.entriesSeen + 1 ≤ cfg.maxEntries →
      ∀ e, EntryFails env cfg (filepathJoin frame.path entry.name) entry e →
        P (recordError (enterEntry s) (filepathJoin frame.path entry.name) e, false))
    (hskip : env.expired s.clock = false → s.entriesSeen + 1 ≤ cfg.maxEntries →
      ∀ info, entry.info = .ok info → info.isSymlink = true → cfg.followSymlinks = false →
        P (enterEntry s, false))
    (hdir : env.expired s.clock = false → s.entriesSeen + 1 ≤ cfg.maxEntries →
      ∀ target, Resolves env cfg (filepathJoin frame.path entry.name) entry target →
        target.isDir = true →
        P (registerDir cfg frame (enterEntry s) (filepathJoin frame.path entry.name), false))
    (hfile : env.expired s.clock = false → s.entriesSeen + 1 ≤ cfg.maxEntries →
      ∀ target, Resolves env cfg (filepathJoin frame.path entry.name) entry target →
        target.isDir = false →
        P (visitFile env cfg frame (enterEntry s) (filepathJoin frame.path entry.name) target,
          false)) :
    P (processEntry env cfg frame s entry) := by
  unfold processEntry
  by_cases hex : env.expired s.clock = true
  · rw [if_pos hex]
    exact htimeout hex
  · rw [if_neg hex]
    have hex2 : env.expired s.clock = false := by simpa using hex
    simp only
    by_cases hc : s.entriesSeen + 1 > cfg.maxEntries
    · rw [if_pos hc]
      exact hcap hex2 hc
    · rw [if_neg hc]
      have hc2 : s.entriesSeen + 1 ≤ cfg.maxEntries := by omega
      cases hinfo : entry.info with
      | error e =>
        simp only
        exact herr hex2 hc2 e (Or.inl hinfo)
      | ok info =>
        simp only
        cases hsym : info.isSymlink with
        | false =>
          simp only [Bool.false_and, if_false, Bool.false_eq_true]
          cases hd : info.isDir with
          | true =>
            simp only [if_true]
            exact hdir hex2 hc2 info ⟨info, hinfo, Or.inl ⟨hsym, rfl⟩⟩ hd
          | false =>
            simp only [if_false, Bool.false_eq_true]
            exact hfile hex2 hc2 info ⟨info, hinfo, Or.inl ⟨hsym, rfl⟩⟩ hd
        | true =>
          cases hf : cfg.followSymlinks with
          | false =>
            simp only [Bool.not_false, Bool.and_self, if_true]
            exact hskip hex2 hc2 info hinfo hsym hf
          | true =>
            simp only [Bool.not_true, Bool.and_false, Bool.false_eq_true, if_false,
              Bool.and_self, if_true]
            cases hst : env.stat (filepathJoin frame.path entry.name) with
            | error e =>
              simp only
              exact herr hex2 hc2 e (Or.inr ⟨info, hinfo, hsym, hf, hst⟩)
            | ok target =>
              simp only
              cases hd : target.isDir with
              | true =>
                simp only [if_true]
                exact hdir hex2 hc2 target ⟨info, hinfo, Or.inr ⟨hsym, hf, hst⟩⟩ hd
              | false =>
                simp only [if_false, Bool.false_eq_true]
                exact hfile hex2 hc2 target ⟨info, hinfo, Or.inr ⟨hsym, hf, hst⟩⟩ hd

theorem registerDir_dirStack_length (cfg : ScanConfig) (frame : scanDirFrame) (s : WalkState)
    (entryPath : String) :
    (registerDir cfg frame s entryPath).dirStack.length ≤ s.dirStack.length + 1 := by
  unfold registerDir
  simp only
  repeat' split
  all_goals simp

theorem processEntry_measure (env : ScanEnv) (cfg : ScanConfig) (frame : scanDirFrame)
    (s : WalkState) (entry : DirEntry) :
    (processEntry env cfg frame s entry).2 = false →
    walkMeasure cfg (processEntry env cfg frame s entry).1 ≤ walkMeasure cfg s := by
  have key : ∀ t : WalkState, t.entriesSeen = s.entriesSeen + 1 →
      s.entriesSeen + 1 ≤ cfg.maxEntries →
      t.dirStack.length ≤ s.dirStack.length + 1 → walkMeasure cfg t ≤ walkMeasure cfg s := by
    intro t h1 hc h2
    unfold walkMeasure
    rw [h1]
    omega
  apply processEntry_cases (fun r => r.2 = false → walkMeasure cfg r.1 ≤ walkMeasure cfg s)
  · intro _ h
    exact absurd h (by simp)
  · intro _ _ h
    exact absurd h (by simp)
  · intro _ hc e _ _
    exact key _ (by simp [enterEntry]) hc (by simp [enterEntry])
  · intro _ hc info _ _ _ _
    exact key _ (by simp [enterEntry]) hc (by simp [enterEntry])
  · intro _ hc target _ _ _
    refine key _ (by simp [enterEntry]) hc ?_
    exact registerDir_dirStack_length cfg frame (enterEntry s) _
  · intro _ hc target _ _ _
    exact key _ (by simp [enterEntry]) hc (by simp [enterEntry])

theorem processEntries_measure (env : ScanEnv) (cfg : ScanConfig) (frame : scanDirFrame)
    (entries : List DirEntry) (s : WalkState)
    (h : (processEntries env cfg frame entries s).2 = false) :
    walkMeasure cfg (processEntries env cfg frame entries s).1 ≤ walkMeasure cfg s := by
  induction entries generalizing s with
  | nil => simp [processEntries]
  | cons entry rest ih =>
    unfold processEntries at h ⊢
    simp only at h ⊢
    split
    · rename_i hstop
      rw [if_pos hstop] at h
      rw [hstop] at h
      exact absurd h (by simp)
    · rename_i hgo
      rw [if_neg hgo] at h
      exact le_trans (ih _ h) (processEntry_measure env cfg frame s entry (by simpa using hgo))

/-- Case analysis of one iteration of the outer loop. -/
theorem walkStep_cases (P : WalkState × Bool → Prop) (env : ScanEnv) (cfg : ScanConfig)
    (frame : scanDirFrame) (rest : List scanDirFrame) (s : WalkState)
    (htimeout : env.expired s.clock = true →
      P ({ s with clock := s.clock + 1, Partial := true, reason := "timeout reached" }, true))
    (herr : env.expired s.clock = false → ∀ e, env.readDir frame.path = .error e →
      P (recordError (popFrame s rest) frame.path e, false))
    (hok : env.expired s.clock = false → ∀ entries, env.readDir frame.path = .ok entries →
      P (processEntries env cfg frame entries (openDir frame (popFrame s rest)))) :
    P (walkStep env cfg frame rest s) := by
  unfold walkStep
  by_cases hex : env.expired s.clock = true
  · rw [if_pos hex]
    exact htimeout hex
  · rw [if_neg hex]
    have hex2 : env.expired s.clock = false := by simpa using hex
    simp only
    cases hread : env.readDir frame.path with
    | error e => exact herr hex2 e hread
    | ok entries => exact hok hex2 entries hread

theorem walkStep_measure (env : ScanEnv) (cfg : ScanConfig) (frame : scanDirFrame)
    (rest : List scanDirFrame) (s : WalkState) (hs : s.dirStack = frame :: rest) :
    (walkStep env cfg frame rest s).2 = false →
    walkMeasure cfg (walkStep env cfg frame rest s).1 < walkMeasure cfg s := by
  apply walkStep_cases (fun r => r.2 = false → walkMeasure cfg r.1 < walkMeasure cfg s)
  · intro _ h
    exact absurd h (by simp)
  · intro _ e _ _
    unfold walkMeasure
    simp only [recordError_dirStack, recordError_entriesSeen, popFrame, hs, List.length_cons]
    omega
  · intro _ entries _ h
    refine lt_of_le_of_lt (processEntries_measure env cfg frame entries _ h) ?_
    unfold walkMeasure
    simp only [openDir, popFrame, hs, List.length_cons]
    omega

theorem walkLoop_terminates (env : ScanEnv) (cfg : ScanConfig) (fuel : Nat) (s : WalkState)
    (h : walkMeasure cfg s < fuel) : ∃ w, walkLoop env cfg fuel s = some w := by
  induction fuel generalizing s with
  | zero => omega
  | succ fuel ih =>
    unfold walkLoop
    split
    · exact ⟨s, rfl⟩
    · rename_i frame rest hs
      simp only
      split
      · exact ⟨_, rfl⟩
      · rename_i hgo
        have := walkStep_measure env cfg frame rest s hs (by simpa using hgo)
        exact ih _ (by omega)

/-- The traversal loop always ends within the fuel `mainWalk` gives it. -/
theorem mainWalk_terminates (env : ScanEnv) (cfg : ScanConfig) (cleanRoot : String) :
    ∃ w, mainWalk env cfg cleanRoot = some w := by
  unfold mainWalk
  apply walkLoop_terminates
  unfold walkMeasure initialState
  simp only [List.length_singleton, sub_zero]
  omega

/-- Case analysis of one iteration of the inner loop of `estimateDirectorySize`. -/
theorem estimateChild_cases (P : EstimateState × Bool → Prop) (env : ScanEnv)
    (maxEntries : Int) (current : String) (s : EstimateState) (child : DirEntry)
    (hcap : maxEntries < s.entries + 1 → P ({ s with entries := s.entries + 1 }, true))
    (htimeout : s.entries + 1 ≤ maxEntries → env.expired s.clock = true →
      P ({ s with entries := s.entries + 1, clock := s.clock + 1 }, true))
    (hgo : s.entries + 1 ≤ maxEntries → env.expired s.clock = false →
      ∀ t : EstimateState, t.entries = s.entries + 1 → t.clock = s.clock + 1 →
        t.stack.length ≤ s.stack.length + 1 → P (t, false)) :
    P (estimateChild env maxEntries current s child) := by
  unfold estimateChild
  simp only
  by_cases hc : s.entries + 1 > maxEntries
  · rw [if_pos hc]
    exact hcap hc
  · rw [if_neg hc]
    have hc2 : s.entries + 1 ≤ maxEntries := by omega
    by_cases hex : env.expired s.clock = true
    · rw [if_pos hex]
      exact htimeout hc2 hex
    · rw [if_neg hex]
      have hex2 : env.expired s.clock = false := by simpa using hex
      cases hinfo : child.info with
      | error e => exact hgo hc2 hex2 _ rfl rfl (by simp)
      | ok info =>
        simp only
        split
        · exact hgo hc2 hex2 _ rfl rfl (by simp)
        · split
          · exact hgo hc2 hex2 _ rfl rfl (by simp)
          · exact hgo hc2 hex2 _ rfl rfl (by simp)

theorem estimateChildren_measure (env : ScanEnv) (maxEntries : Int) (current : String)
    (children : List DirEntry) (s : EstimateState)
    (h : (estimateChildren env maxEntries current children s).2 = false) :
    estimateMeasure maxEntries (estimateChildren env maxEntries current children s).1 ≤
      estimateMeasure maxEntries s := by
  induction children generalizing s with
  | nil => simp [estimateChildren]
  | cons child rest ih =>
    unfold estimateChildren at h ⊢
    simp only at h ⊢
    split
    · rename_i hstop
      rw [if_pos hstop] at h
      rw [hstop] at h
      exact absurd h (by simp)
    · rename_i hgo
      rw [if_neg hgo] at h
      refine le_trans (ih _ h) ?_
      have hgo2 : (estimateChild env maxEntries current s child).2 = false := by simpa using hgo
      revert hgo2
      apply estimateChild_cases (fun r => r.2 = false →
        estimateMeasure maxEntries r.1 ≤ estimateMeasure maxEntries s)
      · intro _ h
        exact absurd h (by simp)
      · intro _ _ h
        exact absurd h (by simp)
      · intro hc _ t h1 _ h3 _
        unfold estimateMeasure
        simp only
        rw [h1]
        omega

theorem estimateLoop_terminates (env : ScanEnv) (maxEntries : Int) (fuel : Nat)
    (s : EstimateState) (h : estimateMeasure maxEntries s < fuel) :
    ∃ r, estimateLoop env maxEntries fuel s = some r := by
  induction fuel generalizing s with
  | zero => omega
  | succ fuel ih =>
    unfold estimateLoop
    cases hstack : s.stack with
    | nil => exact ⟨_, rfl⟩
    | cons current rest =>
      simp only
      split
      · exact ⟨_, rfl⟩
      · have hpop : estimateMeasure maxEntries
            { s with clock := s.clock + 1, stack := rest } < fuel := by
          unfold estimateMeasure at h ⊢
          simp only [hstack, List.length_cons] at h ⊢
          omega
        cases hread : env.readDir current with
        | error e =>
          simp only
          split
          · exact ih _ hpop
          · exact ⟨_, rfl⟩
        | ok children =>
          simp only
          split
          · exact ⟨_, rfl⟩
          · rename_i hgo
            have := estimateChildren_measure env maxEntries current children
              { s with clock := s.clock + 1, stack := rest } (by simpa using hgo)
            exact ih _ (by omega)

/-- The loop of `estimateDirectorySize` always ends within the fuel given to it. -/
theorem estimateDirectorySize_terminates (env : ScanEnv) (root : String) (maxEntries : Int)
    (clock : Nat) : ∃ r, estimateDirectorySize env root maxEntries clock = some r := by
  unfold estimateDirectorySize
  split
  · exact ⟨_, rfl⟩
  · split
    · exact ⟨_, rfl⟩
    · apply estimateLoop_terminates
      unfold estimateMeasure
      simp only [List.length_singleton, sub_zero]
      omega

/-! ## The trash loop -/

theorem trashKeeps_refl (s : WalkState) : TrashKeeps s s :=
  ⟨rfl, rfl, rfl, rfl, rfl, rfl, rfl, rfl, fun h => h, fun _ => rfl⟩

theorem trashKeeps_trans (s t u : WalkState) (h1 : TrashKeeps s t) (h2 : TrashKeeps t u) :
    TrashKeeps s u := by
  obtain ⟨a1, a2, a3, a4, a5, a6, a7, a8, a9, a10⟩ := h1
  obtain ⟨b1, b2, b3, b4, b5, b6, b7, b8, b9, b10⟩ := h2
  refine ⟨b1.trans a1, b2.trans a2, b3.trans a3, b4.trans a4, b5.trans a5, b6.trans a6,
    b7.trans a7, b8.trans a8, fun h => b9 (a9 h), ?_⟩
  intro h
  have e := a10 h
  rw [← e]
  exact b10 (by rw [e]; exact h)

theorem trashStep_keeps (env : ScanEnv) (cfg : ScanConfig) (s : WalkState)
    (usage : List FilesystemTrashUsage) (trashPath : String) :
    ∃ t usage2, trashStep env cfg (some (s, usage)) trashPath = some (t, usage2) ∧
      TrashKeeps s t := by
  obtain ⟨r, hr⟩ := estimateDirectorySize_terminates env trashPath (Int.tdiv cfg.maxEntries 2)
    s.clock
  unfold trashStep
  simp only [hr]
  cases herr : r.err with
  | some e =>
    simp only
    split
    · exact ⟨_, _, rfl, ⟨rfl, rfl, rfl, rfl, rfl, rfl, rfl, rfl, fun h => h, fun _ => rfl⟩⟩
    · exact ⟨_, _, rfl, ⟨rfl, rfl, rfl, rfl, rfl, rfl, rfl, rfl, fun h => h, fun _ => rfl⟩⟩
  | none =>
    simp only
    by_cases ht : r.timedOut = true
    · simp only [ht, if_true]
      split
      · refine ⟨_, _, rfl, ⟨rfl, rfl, rfl, rfl, rfl, rfl, rfl, rfl, fun _ => rfl, ?_⟩⟩
        intro h
        simp only [if_neg h]
      · refine ⟨_, _, rfl, ⟨rfl, rfl, rfl, rfl, rfl, rfl, rfl, rfl, fun _ => rfl, ?_⟩⟩
        intro h
        simp only [if_neg h]
    · simp only [ht, if_false, Bool.false_eq_true]
      split
      · exact ⟨_, _, rfl, ⟨rfl, rfl, rfl, rfl, rfl, rfl, rfl, rfl, fun h => h, fun _ => rfl⟩⟩
      · exact ⟨_, _, rfl, ⟨rfl, rfl, rfl, rfl, rfl, rfl, rfl, rfl, fun h => h, fun _ => rfl⟩⟩

theorem trashFold_keeps (env : ScanEnv) (cfg : ScanConfig) (paths : List String)
    (s : WalkState) (usage : List FilesystemTrashUsage) :
    ∃ t usage2, paths.foldl (trashStep env cfg) (some (s, usage)) = some (t, usage2) ∧
      TrashKeeps s t := by
  induction paths generalizing s usage with
  | nil => exact ⟨s, usage, rfl, trashKeeps_refl s⟩
  | cons path rest ih =>
    obtain ⟨t, usage2, h1, k1⟩ := trashStep_keeps env cfg s usage path
    obtain ⟨u, usage3, h2, k2⟩ := ih t usage2
    refine ⟨u, usage3, ?_, trashKeeps_trans s t u k1 k2⟩
    rw [List.foldl_cons, h1, h2]

/-- The trash loop always returns, keeping what the traversal counted. -/
theorem trashScan_keeps (env : ScanEnv) (cfg : ScanConfig) (s : WalkState) :
    ∃ t usage, trashScan env cfg s = some (t, usage) ∧ TrashKeeps s t :=
  trashFold_keeps env cfg env.trashPaths s []

/-- The scan always returns a response, whose flag, reason and summary come from the state
after the trash loop. -/
theorem analyzeFrom_returns (env : ScanEnv) (cfg : ScanConfig) (cleanRoot : String) :
    ∃ w t resp, mainWalk env cfg cleanRoot = some w ∧ TrashKeeps w t ∧
      analyzeFrom env cfg cleanRoot = some resp ∧
      resp.Partial = t.Partial ∧ resp.Reason = t.reason ∧
      resp.Summary = ⟨t.filesScanned, t.dirsScanned, t.bytesScanned, t.maxDepthReached,
        t.permissionDeniedCount⟩ ∧
      resp.TopLargestDirs = collectTopDirs env cfg (rollUp env w.dirStats) := by
  obtain ⟨w, hw⟩ := mainWalk_terminates env cfg cleanRoot
  obtain ⟨t, usage, ht, hk⟩ := trashScan_keeps env cfg w
  have h1 : analyzeFrom env cfg cleanRoot = assemble env cfg cleanRoot w := by
    unfold analyzeFrom
    rw [hw]
  cases hasm : assemble env cfg cleanRoot w with
  | none =>
    unfold assemble at hasm
    simp only [ht] at hasm
    exact absurd hasm (by simp)
  | some resp =>
    refine ⟨w, t, resp, hw, hk, h1.trans hasm, ?_⟩
    unfold assemble at hasm
    simp only [ht, Option.some.injEq] at hasm
    subst hasm
    exact ⟨rfl, rfl, rfl, rfl⟩

/-! ## Induction along the loops -/

/-- Invariant rule for the inner loop: `I` may depend on the entries still to come. -/
theorem processEntries_induct (I : List DirEntry → WalkState → Prop) (Q : WalkState → Prop)
    (env : ScanEnv) (cfg : ScanConfig) (frame : scanDirFrame)
    (hstep : ∀ entry rest s, I (entry :: rest) s →
      ((processEntry env cfg frame s entry).2 = false →
        I rest (processEntry env cfg frame s entry).1) ∧
      ((processEntry env cfg frame s entry).2 = true →
        Q (processEntry env cfg frame s entry).1))
    (entries : List DirEntry) (s : WalkState) (h : I entries s) :
    ((processEntries env cfg frame entries s).2 = false →
      I [] (processEntries env cfg frame entries s).1) ∧
    ((processEntries env cfg frame entries s).2 = true →
      Q (processEntries env cfg frame entries s).1) := by
  induction entries generalizing s with
  | nil =>
    simp only [processEntries]
    exact ⟨fun _ => h, fun e => absurd e (by simp)⟩
  | cons entry rest ih =>
    unfold processEntries
    simp only
    obtain ⟨h1, h2⟩ := hstep entry rest s h
    by_cases hstop : (processEntry env cfg frame s entry).2 = true
    · rw [if_pos hstop]
      exact ⟨fun e => absurd hstop (by rw [e]; simp), fun _ => h2 hstop⟩
    · rw [if_neg hstop]
      exact ih _ (h1 (by simpa using hstop))

/-- Invariant rule for the traversal loop. -/
theorem walkLoop_induct (I Q : WalkState → Prop) (env : ScanEnv) (cfg : ScanConfig)
    (hstep : ∀ frame rest s, I s → s.dirStack = frame :: rest →
      ((walkStep env cfg frame rest s).2 = false → I (walkStep env cfg frame rest s).1) ∧
      ((walkStep env cfg frame rest s).2 = true → Q (walkStep env cfg frame rest s).1))
    (hend : ∀ s, I s → s.dirStack = [] → Q s)
    (fuel : Nat) (s w : WalkState) (h : I s) (hw : walkLoop env cfg fuel s = some w) : Q w := by
  induction fuel generalizing s with
  | zero =>
    unfold walkLoop at hw
    exact absurd hw (by simp)
  | succ fuel ih =>
    unfold walkLoop at hw
    cases hstack : s.dirStack with
    | nil =>
      rw [hstack] at hw
      simp only [Option.some.injEq] at hw
      subst hw
      exact hend s h hstack
    | cons frame rest =>
      rw [hstack] at hw
      simp only at hw
      obtain ⟨h1, h2⟩ := hstep frame rest s h hstack
      by_cases hstop : (walkStep env cfg frame rest s).2 = true
      · rw [if_pos hstop] at hw
        simp only [Option.some.injEq] at hw
        subst hw
        exact h2 hstop
      · rw [if_neg hstop] at hw
        exact ih _ (h1 (by simpa using hstop)) hw

/-! ## Resolved parameters -/

theorem clampInt_ge (value lo hi : Int) (h : lo ≤ hi) : lo ≤ clampInt value lo hi := by
  unfold clampInt
  split
  · exact le_refl _
  · split
    · exact h
    · omega

/-- The bounds every request gives to the traversal: at least one level and at least 1000
entries. -/
theorem resolveConfig_bounds (payload : ScanPayload) :
    1 ≤ (resolveConfig payload).maxDepth ∧ 1000 ≤ (resolveConfig payload).maxEntries :=
  ⟨clampInt_ge _ 1 12 (by decide), clampInt_ge _ 1000 1000000 (by decide)⟩

/-! ## The entry cap -/

theorem processEntry_cap (env : ScanEnv) (cfg : ScanConfig) (frame : scanDirFrame)
    (hd : ∀ n, env.expired n = false) (s : WalkState) (entry : DirEntry)
    (h : Running cfg s) :
    ((processEntry env cfg frame s entry).2 = false →
      Running cfg (processEntry env cfg frame s entry).1) ∧
    ((processEntry env cfg frame s entry).2 = true →
      StoppedAtCap cfg (processEntry env cfg frame s entry).1) := by
  obtain ⟨hp, hr, h0, hf, he⟩ := h
  apply processEntry_cases (fun r => (r.2 = false → Running cfg r.1) ∧
    (r.2 = true → StoppedAtCap cfg r.1))
  · intro hex
    rw [hd] at hex
    exact absurd hex (by simp)
  · intro _ hc
    refine ⟨fun e => absurd e (by simp), fun _ => ⟨rfl, rfl, ?_, ?_⟩⟩
    · simp only [enterEntry]
      omega
    · simp only [enterEntry]
      omega
  · intro _ hc e _
    refine ⟨fun _ => ⟨?_, ?_, ?_, ?_, ?_⟩, fun e => absurd e (by simp)⟩
    all_goals simp only [recordError_Partial, recordError_reason, recordError_filesScanned,
      recordError_entriesSeen, enterEntry]
    all_goals first | assumption | omega
  · intro _ hc info _ _ _
    refine ⟨fun _ => ⟨?_, ?_, ?_, ?_, ?_⟩, fun e => absurd e (by simp)⟩
    all_goals simp only [enterEntry]
    all_goals first | assumption | omega
  · intro _ hc target _ _
    refine ⟨fun _ => ⟨?_, ?_, ?_, ?_, ?_⟩, fun e => absurd e (by simp)⟩
    all_goals simp only [registerDir_Partial, registerDir_reason, registerDir_filesScanned,
      registerDir_entriesSeen, enterEntry]
    all_goals first | assumption | omega
  · intro _ hc target _ _
    refine ⟨fun _ => ⟨?_, ?_, ?_, ?_, ?_⟩, fun e => absurd e (by simp)⟩
    all_goals simp only [visitFile_Partial, visitFile_reason, visitFile_filesScanned,
      visitFile_entriesSeen, enterEntry]
    all_goals first | assumption | omega

theorem walkStep_cap (env : ScanEnv) (cfg : ScanConfig)
    (hd : ∀ n, env.expired n = false) (frame : scanDirFrame) (rest : List scanDirFrame)
    (s : WalkState) (h : Running cfg s) :
    ((walkStep env cfg frame rest s).2 = false →
      Running cfg (walkStep env cfg frame rest s).1) ∧
    ((walkStep env cfg frame rest s).2 = true →
      StoppedAtCap cfg (walkStep env cfg frame rest s).1) := by
  apply walkStep_cases (fun r => (r.2 = false → Running cfg r.1) ∧
    (r.2 = true → StoppedAtCap cfg r.1))
  · intro hex
    rw [hd] at hex
    exact absurd hex (by simp)
  · intro _ e _
    exact ⟨fun _ => h, fun e => absurd e (by simp)⟩
  · intro _ entries _
    exact processEntries_induct (fun _ t => Running cfg t) (StoppedAtCap cfg) env cfg frame
      (fun entry _ t ht => processEntry_cap env cfg frame hd t entry ht) entries _ h

/-- Without a deadline hit the traversal ends either with no bound hit or stopped by the entry
cap at entry number `maxEntries + 1`. -/
theorem mainWalk_cap (env : ScanEnv) (cfg : ScanConfig) (cleanRoot : String)
    (hd : ∀ n, env.expired n = false) (hmax : 0 ≤ cfg.maxEntries) (w : WalkState)
    (hw : mainWalk env cfg cleanRoot = some w) : Running cfg w ∨ StoppedAtCap cfg w := by
  unfold mainWalk at hw
  refine walkLoop_induct (Running cfg) (fun t => Running cfg t ∨ StoppedAtCap cfg t) env cfg
    ?_ (fun t ht _ => Or.inl ht) _ _ w ?_ hw
  · intro frame rest s hs _
    obtain ⟨h1, h2⟩ := walkStep_cap env cfg hd frame rest s hs
    exact ⟨h1, fun e => Or.inr (h2 e)⟩
  · exact ⟨rfl, rfl, le_refl _, le_refl _, hmax⟩

/-- C10: if the deadline never passes and the traversal encounters more than maxEntries
directory entries (its counter `entriesSeen` exceeds maxEntries), then it stopped at entry
number maxEntries + 1, the response has partial = true and reason "max entries reached", and
at most maxEntries files were scanned; the entry that trips the cap is not processed: the
iteration only counts it, sets flag and reason, and leaves the loop. -/
theorem max_entries_stops_walk (env : ScanEnv) (cfg : ScanConfig) (cleanRoot : String)
    (hd : ∀ n, env.expired n = false) (hmax : 0 ≤ cfg.maxEntries) :
    ∃ w resp, mainWalk env cfg cleanRoot = some w ∧ analyzeFrom env cfg cleanRoot = some resp ∧
      (cfg.maxEntries < w.entriesSeen →
        w.entriesSeen = cfg.maxEntries + 1 ∧ resp.Partial = true ∧
        resp.Reason = "max entries reached" ∧ resp.Summary.FilesScanned ≤ cfg.maxEntries) ∧
      (∀ (frame : scanDirFrame) (s : WalkState) (entry : DirEntry),
        s.entriesSeen = cfg.maxEntries →
        processEntry env cfg frame s entry =
          ({ s with clock := s.clock + 1, entriesSeen := s.entriesSeen + 1, Partial := true,
                    reason := "max entries reached" }, true)) := by
  obtain ⟨w, t, resp, hw, hk, hresp, hp, hr, hsum, _⟩ := analyzeFrom_returns env cfg cleanRoot
  refine ⟨w, resp, hw, hresp, ?_, ?_⟩
  · intro hover
    rcases mainWalk_cap env cfg cleanRoot hd hmax w hw with hrun | hstop
    · have := hrun.2.2.2.2
      omega
    · obtain ⟨s1, s2, s3, s4⟩ := hstop
      obtain ⟨k1, _, _, _, _, _, _, _, k9, k10⟩ := hk
      refine ⟨s3, ?_, ?_, ?_⟩
      · rw [hp]
        exact k9 s1
      · rw [hr, k10 (by rw [s2]; decide), s2]
      · rw [hsum]
        simp only
        rw [k1]
        exact s4
  · intro frame s entry hs
    unfold processEntry
    rw [if_neg (by rw [hd]; simp)]
    simp only
    rw [if_pos (by omega)]

/-- Witness for C10: the sample tree scanned with maxEntries = 3; the fourth entry met stops
the traversal. -/
theorem max_entries_stops_walk_witness :
    ∃ w resp, mainWalk sampleEnv (sampleConfig 3 3) "/data" = some w ∧
      analyzeFrom sampleEnv (sampleConfig 3 3) "/data" = some resp ∧
      w.entriesSeen = 4 ∧ resp.Partial = true ∧ resp.Reason = "max entries reached" ∧
      resp.Summary.FilesScanned ≤ 3 := by
  obtain ⟨w, resp, hw, hresp, h, _⟩ :=
    max_entries_stops_walk sampleEnv (sampleConfig 3 3) "/data" (fun _ => rfl) (by decide)
  have he : (mainWalk sampleEnv (sampleConfig 3 3) "/data").map WalkState.entriesSeen =
      some 4 := by decide
  rw [hw] at he
  simp only [Option.map_some', Option.some.injEq] at he
  have := h (by rw [he]; decide)
  exact ⟨w, resp, hw, hresp, he, this.2⟩

/-! ## Paths -/

theorem slash_split_unique (d1 d2 r1 r2 : List Char) (h1 : '/' ∉ r1) (h2 : '/' ∉ r2)
    (h : d1 ++ '/' :: r1 = d2 ++ '/' :: r2) : d1 = d2 ∧ r1 = r2 := by
  have hr := congrArg List.reverse h
  simp only [List.reverse_append, List.reverse_cons, List.append_assoc, List.singleton_append]
    at hr
  have h1r : ∀ c ∈ r1.reverse, c ≠ '/' := fun c hc e => h1 (by rw [← e]; exact List.mem_reverse.1 hc)
  have h2r : ∀ c ∈ r2.reverse, c ≠ '/' := fun c hc e => h2 (by rw [← e]; exact List.mem_reverse.1 hc)
  have key : ∀ (a b x y : List Char), (∀ c ∈ a, c ≠ '/') → (∀ c ∈ b, c ≠ '/') →
      a ++ '/' :: x = b ++ '/' :: y → a = b ∧ x = y := by
    intro a
    induction a with
    | nil =>
      intro b x y _ hb e
      cases b with
      | nil => simpa using e
      | cons c cs =>
        simp only [List.nil_append, List.cons_append, List.cons.injEq] at e
        exact absurd e.1.symm (hb c (by simp))
    | cons a as ih =>
      intro b x y ha hb e
      cases b with
      | nil =>
        simp only [List.nil_append, List.cons_append, List.cons.injEq] at e
        exact absurd e.1 (ha a (by simp))
      | cons c cs =>
        simp only [List.cons_append, List.cons.injEq] at e
        obtain ⟨e1, e2⟩ := ih cs x y (fun z hz => ha z (List.mem_cons_of_mem _ hz))
          (fun z hz => hb z (List.mem_cons_of_mem _ hz)) e.2
        exact ⟨by rw [e.1, e1], e2⟩
  obtain ⟨e1, e2⟩ := key _ _ _ _ h1r h2r hr
  exact ⟨List.reverse_injective e2, List.reverse_injective e1⟩

theorem filepathJoin_data (p n : String) :
    (filepathJoin p n).data =
      if p = "" then n.data else if p = "." then n.data
      else if p = "/" then '/' :: n.data else p.data ++ '/' :: n.data := by
  unfold filepathJoin
  split
  · rfl
  · split
    · rfl
    · split
      · rfl
      · simp [String.data_append]

theorem string_eq_iff_data (a b : String) : a = b ↔ a.data = b.data :=
  ⟨fun h => by rw [h], fun h => String.ext h⟩

theorem filepathJoin_inj (p q n m : String) (hp : p ≠ "") (hq : q ≠ "") (hn : ValidName n)
    (hm : ValidName m) (h : filepathJoin p n = filepathJoin q m) : p = q ∧ n = m := by
  have hd := congrArg String.data h
  rw [filepathJoin_data, filepathJoin_data, if_neg hp, if_neg hq] at hd
  have hn3 := hn.2.2
  have hm3 := hm.2.2
  by_cases p1 : p = "."
  · rw [if_pos p1] at hd
    by_cases q1 : q = "."
    · rw [if_pos q1] at hd
      exact ⟨p1.trans q1.symm, String.ext hd⟩
    · rw [if_neg q1] at hd
      exfalso
      apply hn3
      rw [hd]
      split <;> simp
  · rw [if_neg p1] at hd
    by_cases q1 : q = "."
    · rw [if_pos q1] at hd
      exfalso
      apply hm3
      rw [← hd]
      split <;> simp
    · rw [if_neg q1] at hd
      have pd : (if p = "/" then '/' :: n.data else p.data ++ '/' :: n.data) =
          (if p = "/" then [] else p.data) ++ '/' :: n.data := by split <;> simp
      have qd : (if q = "/" then '/' :: m.data else q.data ++ '/' :: m.data) =
          (if q = "/" then [] else q.data) ++ '/' :: m.data := by split <;> simp
      rw [pd, qd] at hd
      obtain ⟨e1, e2⟩ := slash_split_unique _ _ _ _ hn3 hm3 hd
      refine ⟨?_, String.ext e2⟩
      have pne : p.data ≠ [] := fun e => hp (String.ext e)
      have qne : q.data ≠ [] := fun e => hq (String.ext e)
      by_cases p2 : p = "/"
      · by_cases q2 : q = "/"
        · exact p2.trans q2.symm
        · rw [if_pos p2, if_neg q2] at e1
          exact absurd e1.symm qne
      · by_cases q2 : q = "/"
        · rw [if_neg p2, if_pos q2] at e1
          exact absurd e1 pne
        · rw [if_neg p2, if_neg q2] at e1
          exact String.ext e1

theorem filepathJoin_rank (p n : String) (hp : p ≠ "") (hn : ValidName n) :
    pathRank p < pathRank (filepathJoin p n) := by
  obtain ⟨hn1, hn2, hn3⟩ := hn
  have nlen : 0 < n.data.length := by
    apply List.length_pos.2
    intro e
    exact hn1 (String.ext e)
  have hlen : (filepathJoin p n).length = (filepathJoin p n).data.length := rfl
  have hne : filepathJoin p n ≠ "." := by
    intro e
    have hd := congrArg String.data e
    rw [filepathJoin_data, if_neg hp] at hd
    have dot : (".":String).data = ['.'] := rfl
    rw [dot] at hd
    split at hd
    · exact hn2 (String.ext hd)
    · split at hd
      · simp at hd
      · have := congrArg List.length hd
        simp only [List.length_append, List.length_cons, List.length_nil] at this
        omega
  unfold pathRank
  rw [if_neg hne, hlen, filepathJoin_data, if_neg hp]
  by_cases p1 : p = "."
  · rw [if_pos p1, if_pos p1]
    exact nlen
  · rw [if_neg p1, if_neg p1]
    have hpl : p.length = p.data.length := rfl
    by_cases p2 : p = "/"
    · rw [if_pos p2, hpl, p2]
      simp only [List.length_cons, List.length_nil]
      omega
    · rw [if_neg p2, hpl]
      simp only [List.length_append, List.length_cons]
      omega

theorem filepathJoin_ne_empty (p n : String) (hn : ValidName n) : filepathJoin p n ≠ "" := by
  intro e
  have hd := congrArg String.data e
  rw [filepathJoin_data] at hd
  have nne : n.data ≠ [] := fun e => hn.1 (String.ext e)
  have : ("":String).data = [] := rfl
  rw [this] at hd
  split at hd
  · exact nne hd
  · split at hd
    · exact nne hd
    · split at hd
      · simp at hd
      · simp at hd

/-! ## Go maps: assignment -/

section MapSetFacts

variable {V : Type}

theorem mapSet_fresh (m : List (String × V)) (k : String) (v : V)
    (h : ∀ e ∈ m, e.1 ≠ k) : mapSet m k v = m ++ [(k, v)] := by
  have hl : m.lookup k = none := by
    rw [List.lookup_eq_none_iff]
    intro e he
    simp only [bne_iff_ne, ne_eq]
    exact fun e2 => h e he e2.symm
  unfold mapSet
  rw [hl]

theorem mapSet_present (m : List (String × V)) (k : String) (v w : V)
    (h : (k, w) ∈ m) : mapSet m k v = m.map (fun e => if e.1 = k then (k, v) else e) := by
  unfold mapSet
  cases hl : m.lookup k with
  | none => exact absurd rfl (lookup_none_not_mem m k hl _ h)
  | some _ => rfl

theorem mapSet_present_keys (m : List (String × V)) (k : String) (v w : V)
    (h : (k, w) ∈ m) : (mapSet m k v).map Prod.fst = m.map Prod.fst := by
  rw [mapSet_present m k v w h, List.map_map]
  apply List.map_congr_left
  intro e _
  simp only [Function.comp]
  split
  · rename_i h1
    exact h1.symm
  · rfl

theorem mem_mapSet_present (m : List (String × V)) (k : String) (v w : V)
    (h : (k, w) ∈ m) (k2 : String) (v2 : V) :
    (k2, v2) ∈ mapSet m k v ↔ (k2 = k ∧ v2 = v) ∨ (k2 ≠ k ∧ (k2, v2) ∈ m) := by
  rw [mapSet_present m k v w h, List.mem_map]
  constructor
  · rintro ⟨e, he, heq⟩
    by_cases hk : e.1 = k
    · rw [if_pos hk] at heq
      simp only [Prod.mk.injEq] at heq
      exact Or.inl ⟨heq.1.symm, heq.2.symm⟩
    · rw [if_neg hk] at heq
      subst heq
      exact Or.inr ⟨hk, he⟩
  · rintro (⟨h1, h2⟩ | ⟨h1, h2⟩)
    · exact ⟨(k, w), h, by simp [h1, h2]⟩
    · exact ⟨(k2, v2), h2, by simp [h1]⟩

end MapSetFacts

/-! ## The traversal of a tree-like file system -/

theorem childSum_append (total : String → Int) (l1 l2 : List fsDirAggregate) (k : String) :
    childSum total (l1 ++ l2) k = childSum total l1 k + childSum total l2 k := by
  simp [childSum, List.filter_append, List.sum_append]

theorem childSum_perm (total : String → Int) (l1 l2 : List fsDirAggregate) (k : String)
    (h : l1.Perm l2) : childSum total l1 k = childSum total l2 k := by
  unfold childSum
  exact ((h.filter _).map _).sum_eq

theorem childSum_none (total : String → Int) (l : List fsDirAggregate) (k : String)
    (h : ∀ a ∈ l, a.Parent ≠ k) : childSum total l k = 0 := by
  unfold childSum
  have : l.filter (fun a => decide (a.Parent = k)) = [] := by
    rw [List.filter_eq_nil_iff]
    intro a ha
    simpa using h a ha
  rw [this]
  rfl

theorem childSum_single (total : String → Int) (a : fsDirAggregate) (k : String) :
    childSum total [a] k = if a.Parent = k then total a.Path else 0 := by
  unfold childSum
  by_cases h : a.Parent = k
  · simp [h]
  · simp [h]

theorem mem_keys_exists {V : Type} (m : List (String × V)) (k : String)
    (h : k ∈ m.map Prod.fst) : ∃ v, (k, v) ∈ m := by
  obtain ⟨e, he, rfl⟩ := List.mem_map.1 h
  exact ⟨e.2, he⟩

theorem rollUpOne_inv (m : List (String × fsDirAggregate)) (total : String → Int)
    (hready : RollReady m)
    (hT : ∀ k a, (k, a) ∈ m → total k = a.SizeBytes + childSum total (m.map Prod.snd) k)
    (done todo : List fsDirAggregate) (a0 : fsDirAggregate)
    (hperm : (done ++ a0 :: todo).Perm (m.map Prod.snd))
    (hsorted : (a0 :: todo).Pairwise (fun x y => y.Depth ≤ x.Depth))
    (cur : List (String × fsDirAggregate)) (h : RollInv m total done cur) :
    RollInv m total (done ++ [a0]) (rollUpOne cur a0.Path) := by
  obtain ⟨hnd, hpath, hpar⟩ := hready
  obtain ⟨hkeys, hcur⟩ := h
  have hcnd : (cur.map Prod.fst).Nodup := by rw [hkeys]; exact hnd
  -- `a0` is the aggregate stored in `m` under its own path
  have ha0 : (a0.Path, a0) ∈ m := by
    have : a0 ∈ m.map Prod.snd := hperm.subset (by simp)
    obtain ⟨e, he, rfl⟩ := List.mem_map.1 this
    have := (hpath e.1 e.2 he).1
    rw [this]
    exact he
  have hvalues : ∀ y, y ∈ m.map Prod.snd → (y.Path, y) ∈ m := by
    intro y hy
    obtain ⟨e, he, rfl⟩ := List.mem_map.1 hy
    have := (hpath e.1 e.2 he).1
    rw [this]
    exact he
  -- no aggregate still to come is a child of `a0`
  have hnochild : ∀ y ∈ a0 :: todo, y.Parent ≠ a0.Path := by
    intro y hy hyp
    have hym : (y.Path, y) ∈ m := hvalues y (hperm.subset (List.mem_append_right _ hy))
    have hne : y.Parent ≠ "" := by
      rw [hyp]
      exact (hpath _ _ ha0).2
    obtain ⟨pa, hpa, hlt⟩ := hpar _ _ hym hne
    rw [hyp] at hpa
    have := mem_nodup_keys_unique _ _ _ _ hnd hpa ha0
    subst this
    rcases List.mem_cons.1 hy with rfl | hy
    · omega
    · have := (List.pairwise_cons.1 hsorted).1 y hy
      omega
  have htotal : total a0.Path = a0.SizeBytes + childSum total done a0.Path := by
    rw [hT _ _ ha0, ← childSum_perm total _ _ a0.Path hperm, childSum_append,
      childSum_none total (a0 :: todo) a0.Path hnochild, add_zero]
  -- the entry of `a0` in the current map
  obtain ⟨a2, ha2⟩ := mem_keys_exists cur a0.Path (by
    rw [hkeys]
    exact List.mem_map.2 ⟨_, ha0, rfl⟩)
  obtain ⟨a0', hm0, d0, p0, q0, s0⟩ := hcur _ _ ha2
  have := mem_nodup_keys_unique _ _ _ _ hnd hm0 ha0
  subst this
  have hget : mapGet cur a0'.Path = some a2 := lookup_of_mem_nodup _ _ _ hcnd ha2
  have hstep : ∀ k, childSum total (done ++ [a0']) k =
      childSum total done k + (if a0'.Parent = k then total a0'.Path else 0) := by
    intro k
    rw [childSum_append, childSum_single]
  unfold rollUpOne
  rw [hget]
  simp only
  by_cases hroot : a2.Parent = ""
  · rw [if_pos hroot]
    refine ⟨hkeys, ?_⟩
    intro k b hb
    obtain ⟨a, x1, x2, x3, x4, x5⟩ := hcur k b hb
    refine ⟨a, x1, x2, x3, x4, ?_⟩
    rw [x5, hstep, if_neg, add_zero]
    rw [← p0, hroot]
    exact fun e => (hpath _ _ x1).2 e.symm
  · rw [if_neg hroot]
    have hpne : a0'.Parent ≠ "" := by rw [← p0]; exact hroot
    obtain ⟨pa, hpa, _⟩ := hpar _ _ ha0 hpne
    obtain ⟨pa2, hpa2⟩ := mem_keys_exists cur a0'.Parent (by
      rw [hkeys]
      exact List.mem_map.2 ⟨_, hpa, rfl⟩)
    have hgetp : mapGet cur a2.Parent = some pa2 := by
      rw [p0]
      exact lookup_of_mem_nodup _ _ _ hcnd hpa2
    rw [hgetp]
    simp only
    rw [p0] at hgetp ⊢
    refine ⟨by rw [mapSet_present_keys _ _ _ _ hpa2]; exact hkeys, ?_⟩
    intro k b hb
    rcases (mem_mapSet_present _ _ _ _ hpa2 k b).1 hb with ⟨e1, e2⟩ | ⟨e1, e2⟩
    · subst e1
      subst e2
      obtain ⟨a, x1, x2, x3, x4, x5⟩ := hcur _ _ hpa2
      refine ⟨a, x1, x2, x3, x4, ?_⟩
      simp only
      rw [x5, hstep, if_pos rfl, s0, htotal]
      ring
    · obtain ⟨a, x1, x2, x3, x4, x5⟩ := hcur k b e2
      refine ⟨a, x1, x2, x3, x4, ?_⟩
      rw [x5, hstep, if_neg (fun e => e1 e.symm), add_zero]

theorem rollUp_fold (m : List (String × fsDirAggregate)) (total : String → Int)
    (hready : RollReady m)
    (hT : ∀ k a, (k, a) ∈ m → total k = a.SizeBytes + childSum total (m.map Prod.snd) k)
    (todo done : List fsDirAggregate)
    (hperm : (done ++ todo).Perm (m.map Prod.snd))
    (hsorted : todo.Pairwise (fun x y => y.Depth ≤ x.Depth))
    (cur : List (String × fsDirAggregate)) (h : RollInv m total done cur) :
    RollInv m total (done ++ todo) (todo.foldl (fun mc a => rollUpOne mc a.Path) cur) := by
  induction todo generalizing done cur with
  | nil => simpa using h
  | cons a0 rest ih =>
    have h1 := rollUpOne_inv m total hready hT done rest a0 hperm hsorted cur h
    have h2 := ih (done ++ [a0]) (by simpa using hperm) (List.pairwise_cons.1 hsorted).2 _ h1
    simpa using h2

theorem sampleEnv_treeLike : TreeLike sampleEnv := by
  intro path
  have hv : ∀ n : String, n ≠ "" → n ≠ "." → '/' ∉ n.data → ValidName n :=
    fun n a b c => ⟨a, b, c⟩
  unfold sampleEnv
  simp only
  split
  · refine ⟨_, rfl, by decide, ?_⟩
    intro e he
    simp only [List.mem_cons, List.mem_singleton, List.not_mem_nil, or_false] at he
    rcases he with rfl | rfl
    · exact ⟨hv _ (by decide) (by decide) (by decide), _, rfl, rfl⟩
    · exact ⟨hv _ (by decide) (by decide) (by decide), _, rfl, rfl⟩
  · split
    · refine ⟨_, rfl, by decide, ?_⟩
      intro e he
      simp only [List.mem_cons, List.mem_singleton, List.not_mem_nil, or_false] at he
      rcases he with rfl | rfl
      · exact ⟨hv _ (by decide) (by decide) (by decide), _, rfl, rfl⟩
      · exact ⟨hv _ (by decide) (by decide) (by decide), _, rfl, rfl⟩
    · split
      · refine ⟨_, rfl, by decide, ?_⟩
        intro e he
        simp only [List.mem_cons, List.mem_singleton, List.not_mem_nil, or_false] at he
        rcases he with rfl | rfl
        · exact ⟨hv _ (by decide) (by decide) (by decide), _, rfl, rfl⟩
        · exact ⟨hv _ (by decide) (by decide) (by decide), _, rfl, rfl⟩
      · exact ⟨[], rfl, by simp, by simp⟩

/-- C15: `appendScanError` with a non-nil error never lets the list grow beyond 200 entries,
adds one to the permission-denied counter exactly when the error is a permission error, also
when the list already holds 200 entries (and then leaves the list unchanged); a nil error
changes neither the list nor the counter. -/
theorem appendScanError_spec (errors : List FilesystemScanError) (path : String)
    (count : Int) :
    (∀ e : FsError,
      ((appendScanError errors path (some e) count).1.length ≤ max errors.length 200) ∧
      (errors.length < 200 →
        (appendScanError errors path (some e) count).1 = errors ++ [⟨path, e.message⟩]) ∧
      (200 ≤ errors.length → (appendScanError errors path (some e) count).1 = errors) ∧
      (e.isPermission = true → (appendScanError errors path (some e) count).2 = count + 1) ∧
      (e.isPermission = false → (appendScanError errors path (some e) count).2 = count)) ∧
    appendScanError errors path none count = (errors, count) := by
  refine ⟨?_, rfl⟩
  intro e
  unfold appendScanError maxFSErrors
  simp only
  by_cases hfull : errors.length ≥ 200
  · rw [if_pos hfull]
    refine ⟨by simp, fun h => by omega, fun _ => rfl, ?_, ?_⟩
    · intro hp
      simp [hp]
    · intro hp
      simp [hp]
  · rw [if_neg hfull]
    refine ⟨?_, fun _ => rfl, fun h => absurd h hfull, ?_, ?_⟩
    · simp only [List.length_append, List.length_singleton]
      omega
    · intro hp
      simp [hp]
    · intro hp
      simp [hp]

/-- Witness for C15: a permission error offered to a list that already holds 200 entries
leaves the list as it is and counts. -/
theorem appendScanError_spec_witness :
    appendScanError (List.replicate 200 ⟨"/p", "denied"⟩) "/q"
      (some ⟨"permission denied", true, false⟩) 7 =
      (List.replicate 200 ⟨"/p", "denied"⟩, 8) := by
  have h := (appendScanError_spec (List.replicate 200 ⟨"/p", "denied"⟩) "/q" 7).1
    ⟨"permission denied", true, false⟩
  exact Prod.ext (h.2.2.1 (by rw [List.length_replicate])) (h.2.2.2.1 rfl)

/-! ## Clamping -/

/-- C16: for bounds `lo ≤ hi`, `clampInt value lo hi` lies in `[lo, hi]`, is `value` itself
when that lies in the range and the nearest bound otherwise; so the resolved maxDepth,
topFiles, topDirs, maxEntries and timeoutSeconds lie in 1..12, 1..500, 1..200, 1000..1000000
and 5..120 whatever the request holds, and the defaults 6, 50, 30, 200000 and 20 pass
unchanged. -/
theorem clampInt_spec :
    (∀ value lo hi : Int, lo ≤ hi →
      lo ≤ clampInt value lo hi ∧ clampInt value lo hi ≤ hi ∧
      (lo ≤ value → value ≤ hi → clampInt value lo hi = value) ∧
      (value < lo → clampInt value lo hi = lo) ∧
      (hi < value → clampInt value lo hi = hi)) ∧
    (∀ payload : ScanPayload,
      (1 ≤ (resolveConfig payload).maxDepth ∧ (resolveConfig payload).maxDepth ≤ 12) ∧
      (1 ≤ (resolveConfig payload).topFilesLimit ∧
        (resolveConfig payload).topFilesLimit ≤ 500) ∧
      (1 ≤ (resolveConfig payload).topDirsLimit ∧ (resolveConfig payload).topDirsLimit ≤ 200) ∧
      (1000 ≤ (resolveConfig payload).maxEntries ∧
        (resolveConfig payload).maxEntries ≤ 1000000) ∧
      (5 ≤ (resolveConfig payload).timeoutSecs ∧ (resolveConfig payload).timeoutSecs ≤ 120)) ∧
    (clampInt defaultFSMaxDepth 1 12 = 6 ∧ clampInt defaultFSTopFiles 1 500 = 50 ∧
      clampInt defaultFSTopDirs 1 200 = 30 ∧
      clampInt defaultFSMaxEntries 1000 1000000 = 200000 ∧
      clampInt defaultFSTimeoutSecs 5 120 = 20) ∧
    resolveConfig ⟨none, none, none, none, none, none⟩ = ⟨6, 50, 30, 200000, 20, false⟩ := by
  have key : ∀ value lo hi : Int, lo ≤ hi →
      lo ≤ clampInt value lo hi ∧ clampInt value lo hi ≤ hi ∧
      (lo ≤ value → value ≤ hi → clampInt value lo hi = value) ∧
      (value < lo → clampInt value lo hi = lo) ∧
      (hi < value → clampInt value lo hi = hi) := by
    intro value lo hi h
    unfold clampInt
    by_cases h1 : value < lo
    · rw [if_pos h1]
      exact ⟨le_refl _, h, fun a _ => by omega, fun _ => rfl, fun _ => by omega⟩
    · rw [if_neg h1]
      by_cases h2 : value > hi
      · rw [if_pos h2]
        exact ⟨h, le_refl _, fun _ b => by omega, fun a => by omega, fun _ => rfl⟩
      · rw [if_neg h2]
        exact ⟨by omega, by omega, fun _ _ => rfl, fun a => by omega, fun a => by omega⟩
  refine ⟨key, ?_, by decide, by decide⟩
  intro payload
  exact ⟨⟨(key _ 1 12 (by decide)).1, (key _ 1 12 (by decide)).2.1⟩,
    ⟨(key _ 1 500 (by decide)).1, (key _ 1 500 (by decide)).2.1⟩,
    ⟨(key _ 1 200 (by decide)).1, (key _ 1 200 (by decide)).2.1⟩,
    ⟨(key _ 1000 1000000 (by decide)).1, (key _ 1000 1000000 (by decide)).2.1⟩,
    ⟨(key _ 5 120 (by decide)).1, (key _ 5 120 (by decide)).2.1⟩⟩

/-- Witness for C16: a request asking for 99 levels and 5 entries is scanned with 12 levels
and 1000 entries. -/
theorem clampInt_spec_witness :
    clampInt 99 1 12 = 12 ∧ clampInt 5 1000 1000000 = 1000 :=
  ⟨(clampInt_spec.1 99 1 12 (by decide)).2.2.2.2 (by decide),
   (clampInt_spec.1 5 1000 1000000 (by decide)).2.2.2.1 (by decide)⟩

/-! ## Normalized paths -/

theorem normalizePathForChecks_idem (path : String) :
    normalizePathForChecks (normalizePathForChecks path) = normalizePathForChecks path := by
  apply (string_eq_iff_data _ _).2
  rw [normalizePathForChecks_data, normalizePathForChecks_data, List.map_map]
  apply List.map_congr_left
  intro c _
  simp only [Function.comp]
  by_cases hc : c = '\\'
  · subst hc
    decide
  · rw [if_neg hc, if_neg (unicodeToLower_ne_backslash c hc)]
    exact unicodeToLower_idem c

theorem unicodeToLower_eq_slash (c : Char) : unicodeToLower c = '/' ↔ c = '/' := by
  rw [unicodeToLower_eq_ascii_iff c '/' (by decide) (by decide) (by decide)]
  constructor
  · intro h
    have h1 := toLower_toNat c
    rw [h] at h1
    have h2 : ('/' : Char).toNat = 47 := rfl
    rw [h2] at h1
    split at h1
    · omega
    · exact char_eq_of_toNat _ _ (by rw [h2]; exact h1.symm)
  · intro h
    rw [h]
    rfl

theorem unicodeToLower_eq_backslash (c : Char) : unicodeToLower c = '\\' ↔ c = '\\' := by
  constructor
  · intro h
    by_contra hc
    exact unicodeToLower_ne_backslash c hc h
  · intro h
    rw [h]
    rfl

theorem normal_rune_eq_iff (a b : Char) :
    unicodeToLower (if a = '\\' then '/' else a) = unicodeToLower (if b = '\\' then '/' else b) ↔
      SamePathRune a b := by
  have hs : unicodeToLower '/' = '/' := rfl
  have hb : unicodeToLower '\\' = '\\' := rfl
  unfold SamePathRune
  by_cases ha : a = '\\'
  · subst ha
    rw [if_pos rfl, hs, hb]
    by_cases hb2 : b = '\\'
    · subst hb2
      rw [if_pos rfl, hs, hb]
      simp
    · rw [if_neg hb2]
      constructor
      · intro h
        exact Or.inl ⟨Or.inr rfl, Or.inl ((unicodeToLower_eq_slash b).1 h.symm)⟩
      · rintro (⟨_, h | h⟩ | h)
        · rw [h, hs]
        · exact absurd h hb2
        · exact absurd ((unicodeToLower_eq_backslash b).1 h.symm) hb2
  · rw [if_neg ha]
    by_cases hb2 : b = '\\'
    · subst hb2
      rw [if_pos rfl, hs, hb]
      constructor
      · intro h
        exact Or.inl ⟨Or.inl ((unicodeToLower_eq_slash a).1 h), Or.inr rfl⟩
      · rintro (⟨h | h, _⟩ | h)
        · rw [h, hs]
        · exact absurd h ha
        · exact absurd ((unicodeToLower_eq_backslash a).1 h) ha
    · rw [if_neg hb2]
      constructor
      · intro h
        exact Or.inr h
      · rintro (⟨h1 | h1, h2 | h2⟩ | h)
        · rw [h1, h2]
        · exact absurd h2 hb2
        · exact absurd h1 ha
        · exact absurd h1 ha
        · exact h

theorem map_eq_map_iff_forall₂ {α β : Type} (f : α → β) (l1 l2 : List α) :
    l1.map f = l2.map f ↔ List.Forall₂ (fun a b => f a = f b) l1 l2 := by
  rw [← List.forall₂_eq_eq_eq, List.forall₂_map_left_iff, List.forall₂_map_right_iff]

/-- Two paths have the same normalized form exactly when they have the same length and, rune
by rune, hold a slash or backslash each or runes with the same lower-case form. -/
theorem normalizePathForChecks_eq_iff (p q : String) :
    normalizePathForChecks p = normalizePathForChecks q ↔
      List.Forall₂ SamePathRune p.data q.data := by
  rw [string_eq_iff_data, normalizePathForChecks_data, normalizePathForChecks_data,
    map_eq_map_iff_forall₂]
  constructor
  · intro h
    exact h.imp (fun a b hab => (normal_rune_eq_iff a b).1 hab)
  · intro h
    exact h.imp (fun a b hab => (normal_rune_eq_iff a b).2 hab)

theorem normalizePathForChecks_toLower (p : String) :
    normalizePathForChecks (stringsToLower p) = normalizePathForChecks p := by
  rw [normalizePathForChecks_eq_iff]
  show List.Forall₂ SamePathRune (p.data.map unicodeToLower) p.data
  rw [List.forall₂_map_left_iff, List.forall₂_same]
  intro c _
  exact Or.inr (unicodeToLower_idem c)

theorem normalizePathForChecks_slashes (p : String) :
    normalizePathForChecks (stringsReplaceAll p "\\" "/") = normalizePathForChecks p ∧
    normalizePathForChecks (stringsReplaceAll p "/" "\\") = normalizePathForChecks p := by
  have h1 : ("\\" : String).data = ['\\'] := rfl
  have h2 : ("/" : String).data = ['/'] := rfl
  constructor
  · rw [normalizePathForChecks_eq_iff]
    show List.Forall₂ SamePathRune (replaceAllChars "\\".data "/".data 0 p.data) p.data
    rw [h1, h2, replaceAllChars_single, List.forall₂_map_left_iff, List.forall₂_same]
    intro c _
    by_cases hc : c = '\\'
    · rw [if_pos hc]
      exact Or.inl ⟨Or.inl rfl, Or.inr hc⟩
    · rw [if_neg hc]
      exact Or.inr rfl
  · rw [normalizePathForChecks_eq_iff]
    show List.Forall₂ SamePathRune (replaceAllChars "/".data "\\".data 0 p.data) p.data
    rw [h1, h2, replaceAllChars_single, List.forall₂_map_left_iff, List.forall₂_same]
    intro c _
    by_cases hc : c = '/'
    · rw [if_pos hc]
      exact Or.inl ⟨Or.inr rfl, Or.inl hc⟩
    · rw [if_neg hc]
      exact Or.inr rfl

/-- C17: two paths with the same normalized form get the same result from
`classifyCleanupCategory`, `isOldDownload` and `isUnrotatedLog`, and `normalizePathForChecks`
is idempotent.  Two paths have the same normalized form exactly when they differ only in
letter case and in backslashes against forward slashes: rune by rune they hold a slash or
backslash each, or runes with the same lower-case form (`unicode.ToLower`).  In particular a
path, its lower-case form and its spellings with only slashes or only backslashes share one
normalized form. -/
theorem path_checks_use_normal_form :
    (∀ p q : String, normalizePathForChecks p = normalizePathForChecks q →
      classifyCleanupCategory p = classifyCleanupCategory q ∧
      (∀ modifiedAt threshold : Int,
        isOldDownload p modifiedAt threshold = isOldDownload q modifiedAt threshold) ∧
      (∀ sizeBytes : Int, isUnrotatedLog p sizeBytes = isUnrotatedLog q sizeBytes)) ∧
    (∀ p : String,
      normalizePathForChecks (normalizePathForChecks p) = normalizePathForChecks p) ∧
    (∀ p q : String, normalizePathForChecks p = normalizePathForChecks q ↔
      List.Forall₂ SamePathRune p.data q.data) ∧
    (∀ p : String,
      normalizePathForChecks (stringsToLower p) = normalizePathForChecks p ∧
      normalizePathForChecks (stringsReplaceAll p "\\" "/") = normalizePathForChecks p ∧
      normalizePathForChecks (stringsReplaceAll p "/" "\\") = normalizePathForChecks p) := by
  refine ⟨?_, normalizePathForChecks_idem, normalizePathForChecks_eq_iff,
    fun p => ⟨normalizePathForChecks_toLower p, normalizePathForChecks_slashes p⟩⟩
  intro p q h
  refine ⟨?_, ?_, ?_⟩
  · unfold classifyCleanupCategory
    rw [h]
  · intro modifiedAt threshold
    unfold isOldDownload
    rw [h]
  · intro sizeBytes
    unfold isUnrotatedLog
    rw [h]

/-- Witness for C17: a Windows spelling and a lower-case spelling of one path; and a spelling
with the Kelvin sign (U+212A), whose lower-case form is the letter `k`. -/
theorem path_checks_use_normal_form_witness :
    classifyCleanupCategory "C:\\Users\\Bob\\AppData\\Local\\Temp\\x.LOG" =
      classifyCleanupCategory "c:/users/bob/appdata/local/temp/x.log" ∧
    classifyCleanupCategory "c:/users/bob/appdata/local/temp/x.log" = "temp_files" ∧
    normalizePathForChecks "C:\\Users\\Bob\\AppData\\Local\\PAC\u212AAGES\\É" =
      "c:/users/bob/appdata/local/packages/é" ∧
    classifyCleanupCategory "C:\\Users\\Bob\\AppData\\Local\\PAC\u212AAGES\\É" =
      "package_cache" :=
  ⟨(path_checks_use_normal_form.1 "C:\\Users\\Bob\\AppData\\Local\\Temp\\x.LOG"
      "c:/users/bob/appdata/local/temp/x.log" (by decide)).1, by decide, by decide, by decide⟩

/-! ## Cleanup candidates -/

theorem lookup_append_single {V : Type} (m : List (String × V)) (k k2 : String) (v : V) :
    (m ++ [(k, v)]).lookup k2 =
      match m.lookup k2 with
      | some x => some x
      | none => if k2 = k then some v else none := by
  induction m with
  | nil =>
    simp only [List.nil_append, List.lookup_nil]
    rw [lookup_cons_eq]
    simp
  | cons e rest ih =>
    obtain ⟨ek, ev⟩ := e
    rw [List.cons_append, lookup_cons_eq, lookup_cons_eq]
    by_cases h : k2 = ek
    · simp [h]
    · simp only [if_neg h]
      exact ih

theorem lookup_map_replace {V : Type} (m : List (String × V)) (k k2 : String) (v : V) :
    (m.map (fun e => if e.1 = k then (k, v) else e)).lookup k2 =
      if k2 = k then (m.lookup k).map (fun _ => v) else m.lookup k2 := by
  induction m with
  | nil => simp
  | cons e rest ih =>
    obtain ⟨ek, ev⟩ := e
    rw [List.map_cons]
    by_cases hek : ek = k
    · simp only [hek, if_true]
      rw [lookup_cons_eq, lookup_cons_eq, lookup_cons_eq]
      by_cases h : k2 = k
      · simp [h]
      · simp only [if_neg h]
        rw [ih, if_neg h]
    · simp only [if_neg hek]
      rw [lookup_cons_eq, lookup_cons_eq, lookup_cons_eq]
      by_cases h : k2 = k
      · subst h
        have hne : ¬ k2 = ek := fun e => hek e.symm
        simp only [if_neg hne, if_true]
        rw [ih, if_pos rfl]
      · simp only [if_neg h]
        by_cases h2 : k2 = ek
        · simp [h2]
        · simp only [if_neg h2]
          rw [ih, if_neg h]

/-- Reading a map after an assignment. -/
theorem mapGet_mapSet {V : Type} (m : List (String × V)) (k k2 : String) (v : V) :
    mapGet (mapSet m k v) k2 = if k2 = k then some v else mapGet m k2 := by
  unfold mapGet mapSet
  cases h : m.lookup k with
  | none =>
    simp only
    rw [lookup_append_single]
    by_cases h2 : k2 = k
    · subst h2
      simp [h]
    · simp only [if_neg h2]
      cases m.lookup k2 <;> rfl
  | some w =>
    simp only
    rw [lookup_map_replace, h]
    rfl

theorem mapSet_length_present {V : Type} (m : List (String × V)) (k : String) (v w : V)
    (h : mapGet m k = some w) : (mapSet m k v).length = m.length := by
  unfold mapGet at h
  unfold mapSet
  rw [h]
  simp

theorem addCleanupCandidate_full (existing : List (String × FilesystemCleanupCandidate))
    (candidate : FilesystemCleanupCandidate) (maxItems : Nat)
    (h : maxItems ≤ existing.length) :
    addCleanupCandidate existing candidate maxItems = existing := by
  unfold addCleanupCandidate
  rw [if_pos h]

/-- C13, as amended: in a map that holds fewer than `maxItems` entries, a candidate with a
non-empty path and positive size whose path is present with a strictly smaller size replaces
the stored entry and nothing else, and one that is not larger leaves the map unchanged; a map
that already holds `maxItems` entries is left unchanged whatever the candidate. -/
theorem addCleanupCandidate_replaces (existing : List (String × FilesystemCleanupCandidate))
    (candidate prev : FilesystemCleanupCandidate) (maxItems : Nat)
    (hpath : candidate.Path ≠ "") (hsize : 0 < candidate.SizeBytes)
    (hprev : mapGet existing candidate.Path = some prev) :
    (existing.length < maxItems →
      (prev.SizeBytes < candidate.SizeBytes →
        mapGet (addCleanupCandidate existing candidate maxItems) candidate.Path =
          some candidate ∧
        (∀ k, k ≠ candidate.Path →
          mapGet (addCleanupCandidate existing candidate maxItems) k = mapGet existing k) ∧
        (addCleanupCandidate existing candidate maxItems).length = existing.length) ∧
      (candidate.SizeBytes ≤ prev.SizeBytes →
        addCleanupCandidate existing candidate maxItems = existing)) ∧
    (maxItems ≤ existing.length →
      addCleanupCandidate existing candidate maxItems = existing) := by
  refine ⟨?_, addCleanupCandidate_full existing candidate maxItems⟩
  intro hroom
  have hstep : addCleanupCandidate existing candidate maxItems =
      if candidate.SizeBytes > prev.SizeBytes then mapSet existing candidate.Path candidate
      else existing := by
    unfold addCleanupCandidate
    rw [if_neg (by omega), if_neg (by
      intro h
      rcases h with h | h
      · exact hpath h
      · omega), hprev]
  constructor
  · intro hlarger
    rw [hstep, if_pos hlarger]
    refine ⟨?_, ?_, mapSet_length_present existing _ candidate prev hprev⟩
    · rw [mapGet_mapSet, if_pos rfl]
    · intro k hk
      rw [mapGet_mapSet, if_neg hk]
  · intro hsmaller
    rw [hstep, if_neg (by omega)]

/-- Witness for C13 as amended: a second observation of 5 bytes replaces one of 1 byte. -/
theorem addCleanupCandidate_replaces_witness :
    mapGet (addCleanupCandidate (smallCandidateMap 2) (tempCandidate (tempPath 0) 5) 1000)
      (tempPath 0) = some (tempCandidate (tempPath 0) 5) :=
  (((addCleanupCandidate_replaces (smallCandidateMap 2) (tempCandidate (tempPath 0) 5)
    (tempCandidate (tempPath 0) 1) 1000 (by decide) (by decide) (by decide)).1
      (by decide)).1 (by decide)).1

theorem smallCandidateMap_length (n : Nat) : (smallCandidateMap n).length = n := by
  unfold smallCandidateMap
  rw [List.length_map, List.length_range]

theorem smallCandidateMap_head (n : Nat) :
    mapGet (smallCandidateMap (n + 1)) (tempPath 0) = some (tempCandidate (tempPath 0) 1) := by
  unfold smallCandidateMap mapGet
  rw [List.range_succ_eq_map, List.map_cons, lookup_cons_eq, if_pos rfl]

/-- C13, the claim as stated fails: in a map that holds 1000 entries, the path `tempPath 0`
is present with size 1, a candidate for the same path with size 5 is offered, and the map
still holds the entry of size 1 afterwards. -/
theorem cleanup_full_map_keeps_smaller :
    mapGet (smallCandidateMap 1000) (tempPath 0) = some (tempCandidate (tempPath 0) 1) ∧
    (tempCandidate (tempPath 0) 5).Path = tempPath 0 ∧
    (tempCandidate (tempPath 0) 1).SizeBytes < (tempCandidate (tempPath 0) 5).SizeBytes ∧
    mapGet (addCleanupCandidate (smallCandidateMap 1000) (tempCandidate (tempPath 0) 5)
      maxFSCleanupCandidates) (tempPath 0) = some (tempCandidate (tempPath 0) 1) := by
  have h := smallCandidateMap_head 999
  refine ⟨h, rfl, by decide, ?_⟩
  rw [addCleanupCandidate_full _ _ _ (by
    rw [smallCandidateMap_length]
    decide)]
  exact h

theorem pathMaximum_append (seen : List FilesystemCleanupCandidate)
    (c : FilesystemCleanupCandidate) (p : String) :
    pathMaximum (seen ++ [c]) p =
      if validCleanup c = true ∧ c.Path = p then max (pathMaximum seen p) c.SizeBytes
      else pathMaximum seen p := by
  unfold pathMaximum
  rw [List.filter_append, List.map_append, List.foldl_append]
  by_cases h : validCleanup c = true ∧ c.Path = p
  · rw [if_pos h]
    have : List.filter (fun c => validCleanup c && decide (c.Path = p)) [c] = [c] := by
      simp [List.filter, h.1, h.2]
    rw [this]
    rfl
  · rw [if_neg h]
    have : List.filter (fun c => validCleanup c && decide (c.Path = p)) [c] = [] := by
      simp only [List.filter_eq_nil_iff, List.mem_singleton, forall_eq, Bool.and_eq_true,
        decide_eq_true_eq]
      exact h
    rw [this]
    rfl

theorem mem_validPaths (seen : List FilesystemCleanupCandidate) (p : String) :
    p ∈ validPaths seen ↔ ∃ c ∈ seen, validCleanup c = true ∧ c.Path = p := by
  unfold validPaths
  rw [List.mem_dedup, List.mem_map]
  constructor
  · rintro ⟨c, hc, rfl⟩
    rw [List.mem_filter] at hc
    exact ⟨c, hc.1, hc.2, rfl⟩
  · rintro ⟨c, hc, hv, rfl⟩
    exact ⟨c, List.mem_filter.2 ⟨hc, hv⟩, rfl⟩

theorem pathMaximum_absent (seen : List FilesystemCleanupCandidate) (p : String)
    (h : p ∉ validPaths seen) : pathMaximum seen p = 0 := by
  unfold pathMaximum
  have : seen.filter (fun c => validCleanup c && decide (c.Path = p)) = [] := by
    rw [List.filter_eq_nil_iff]
    intro c hc hv
    simp only [Bool.and_eq_true, decide_eq_true_eq] at hv
    exact h ((mem_validPaths seen p).2 ⟨c, hc, hv.1, hv.2⟩)
  rw [this]
  rfl

theorem validPaths_nodup (seen : List FilesystemCleanupCandidate) : (validPaths seen).Nodup :=
  List.nodup_dedup _

theorem validPaths_length_mono (seen rest : List FilesystemCleanupCandidate) :
    (validPaths seen).length ≤ (validPaths (seen ++ rest)).length := by
  apply List.Subperm.length_le
  apply List.subperm_of_subset (validPaths_nodup seen)
  intro p hp
  obtain ⟨c, hc, hv⟩ := (mem_validPaths seen p).1 hp
  exact (mem_validPaths _ p).2 ⟨c, List.mem_append_left _ hc, hv⟩

theorem cleanInv_length (m : List (String × FilesystemCleanupCandidate))
    (seen : List FilesystemCleanupCandidate) (h : CleanInv m seen) :
    m.length = (validPaths seen).length := by
  have hp : (m.map Prod.fst).Perm (validPaths seen) :=
    (List.perm_ext_iff_of_nodup h.1 (validPaths_nodup seen)).2 h.2.1
  rw [← hp.length_eq, List.length_map]

theorem cleanInv_step (m : List (String × FilesystemCleanupCandidate))
    (seen : List FilesystemCleanupCandidate) (c : FilesystemCleanupCandidate) (maxItems : Nat)
    (h : CleanInv m seen) (hroom : m.length < maxItems) :
    CleanInv (addCleanupCandidate m c maxItems) (seen ++ [c]) := by
  obtain ⟨hnd, hkeys, hval⟩ := h
  have hmemApp : ∀ p, p ∈ validPaths (seen ++ [c]) ↔
      p ∈ validPaths seen ∨ (validCleanup c = true ∧ c.Path = p) := by
    intro p
    rw [mem_validPaths, mem_validPaths]
    constructor
    · rintro ⟨d, hd, hv⟩
      rcases List.mem_append.1 hd with hd | hd
      · exact Or.inl ⟨d, hd, hv⟩
      · rw [List.mem_singleton] at hd
        subst hd
        exact Or.inr hv
    · rintro (⟨d, hd, hv⟩ | hv)
      · exact ⟨d, List.mem_append_left _ hd, hv⟩
      · exact ⟨c, List.mem_append_right _ (List.mem_singleton.2 rfl), hv⟩
  unfold addCleanupCandidate
  rw [if_neg (by omega)]
  by_cases hbad : c.Path = "" ∨ c.SizeBytes ≤ 0
  · rw [if_pos hbad]
    have hinv : ¬ validCleanup c = true := by
      unfold validCleanup
      simp only [decide_eq_true_eq, not_and, not_lt]
      intro hp
      rcases hbad with hb | hb
      · exact absurd hb hp
      · exact hb
    refine ⟨hnd, ?_, ?_⟩
    · intro p
      rw [hmemApp, hkeys]
      constructor
      · exact Or.inl
      · rintro (h1 | h1)
        · exact h1
        · exact absurd h1.1 hinv
    · intro p d hd
      rw [pathMaximum_append, if_neg (fun h1 => hinv h1.1)]
      exact hval p d hd
  · rw [if_neg hbad]
    have hvalid : validCleanup c = true := by
      unfold validCleanup
      simp only [decide_eq_true_eq]
      constructor
      · exact fun hp => hbad (Or.inl hp)
      · by_contra hn
        exact hbad (Or.inr (by omega))
    have hpos : 0 < c.SizeBytes := by
      by_contra hn
      exact hbad (Or.inr (by omega))
    cases hget : mapGet m c.Path with
    | none =>
      simp only
      have hfresh : ∀ e ∈ m, e.1 ≠ c.Path := lookup_none_not_mem m c.Path hget
      rw [mapSet_fresh m c.Path c hfresh]
      have hnot : c.Path ∉ validPaths seen := by
        intro hin
        obtain ⟨v, hv⟩ := mem_keys_exists m c.Path ((hkeys c.Path).2 hin)
        exact hfresh _ hv rfl
      refine ⟨?_, ?_, ?_⟩
      · rw [List.map_append, List.map_singleton]
        apply List.Nodup.append hnd (List.nodup_singleton _)
        intro p hp1 hp2
        rw [List.mem_singleton] at hp2
        subst hp2
        obtain ⟨v, hv⟩ := mem_keys_exists m _ hp1
        exact hfresh _ hv rfl
      · intro p
        rw [hmemApp, List.map_append, List.mem_append, hkeys, List.map_singleton,
          List.mem_singleton]
        constructor
        · rintro (h1 | h1)
          · exact Or.inl h1
          · exact Or.inr ⟨hvalid, h1.symm⟩
        · rintro (h1 | h1)
          · exact Or.inl h1
          · exact Or.inr h1.2.symm
      · intro p d hd
        rcases List.mem_append.1 hd with hd | hd
        · obtain ⟨e1, e2⟩ := hval p d hd
          have hne : c.Path ≠ p := fun e => hfresh _ hd e.symm
          rw [pathMaximum_append, if_neg (fun h1 => hne h1.2)]
          exact ⟨e1, e2⟩
        · rw [List.mem_singleton] at hd
          obtain ⟨rfl, rfl⟩ := Prod.mk.inj hd
          rw [pathMaximum_append, if_pos ⟨hvalid, rfl⟩, pathMaximum_absent seen _ hnot]
          exact ⟨rfl, (max_eq_right (le_of_lt hpos)).symm⟩
    | some prev =>
      simp only
      have hmem : (c.Path, prev) ∈ m := lookup_some_mem m c.Path prev hget
      obtain ⟨_, hprevsize⟩ := hval _ _ hmem
      have hin : c.Path ∈ validPaths seen :=
        (hkeys c.Path).1 (List.mem_map.2 ⟨(c.Path, prev), hmem, rfl⟩)
      have hkeys2 : ∀ p, p ∈ m.map Prod.fst ↔ p ∈ validPaths (seen ++ [c]) := by
        intro p
        rw [hmemApp, hkeys]
        constructor
        · exact Or.inl
        · rintro (h1 | h1)
          · exact h1
          · rw [← h1.2]
            exact hin
      by_cases hlarger : c.SizeBytes > prev.SizeBytes
      · rw [if_pos hlarger]
        refine ⟨?_, ?_, ?_⟩
        · rw [mapSet_present_keys m c.Path c prev hmem]
          exact hnd
        · intro p
          rw [mapSet_present_keys m c.Path c prev hmem]
          exact hkeys2 p
        · intro p d hd
          rcases (mem_mapSet_present m c.Path c prev hmem p d).1 hd with ⟨rfl, rfl⟩ | ⟨hne, hd⟩
          · rw [pathMaximum_append, if_pos ⟨hvalid, rfl⟩, ← hprevsize]
            exact ⟨rfl, (max_eq_right (le_of_lt hlarger)).symm⟩
          · obtain ⟨e1, e2⟩ := hval p d hd
            rw [pathMaximum_append, if_neg (fun h1 => hne h1.2.symm)]
            exact ⟨e1, e2⟩
      · rw [if_neg hlarger]
        refine ⟨hnd, hkeys2, ?_⟩
        intro p d hd
        obtain ⟨e1, e2⟩ := hval p d hd
        rw [pathMaximum_append]
        by_cases hp : validCleanup c = true ∧ c.Path = p
        · rw [if_pos hp]
          obtain ⟨_, rfl⟩ := hp
          have : d = prev := mem_nodup_keys_unique m _ d prev hnd hd hmem
          subst this
          rw [← e2]
          exact ⟨e1, (max_eq_left (by omega)).symm⟩
        · rw [if_neg hp]
          exact ⟨e1, e2⟩

theorem cleanInv_fold (maxItems : Nat) (rest seen : List FilesystemCleanupCandidate)
    (m : List (String × FilesystemCleanupCandidate)) (h : CleanInv m seen)
    (hfew : (validPaths (seen ++ rest)).length < maxItems) :
    CleanInv (rest.foldl (fun m c => addCleanupCandidate m c maxItems) m) (seen ++ rest) := by
  induction rest generalizing seen m with
  | nil =>
    rw [List.append_nil]
    exact h
  | cons c rest ih =>
    rw [List.foldl_cons]
    have e : seen ++ c :: rest = (seen ++ [c]) ++ rest := by simp
    rw [e] at hfew ⊢
    apply ih _ _ _ hfew
    apply cleanInv_step m seen c maxItems h
    have h1 := cleanInv_length m seen h
    have h2 := validPaths_length_mono seen ([c] ++ rest)
    rw [← List.append_assoc] at h2
    omega

theorem addCleanupCandidate_length_le (m : List (String × FilesystemCleanupCandidate))
    (c : FilesystemCleanupCandidate) (maxItems : Nat) (h : m.length ≤ maxItems) :
    (addCleanupCandidate m c maxItems).length ≤ maxItems := by
  unfold addCleanupCandidate
  split
  · exact h
  · rename_i hroom
    split
    · exact h
    · cases hget : mapGet m c.Path with
      | none =>
        simp only
        rw [mapSet_fresh m c.Path c (lookup_none_not_mem m c.Path hget)]
        simp only [List.length_append, List.length_singleton]
        omega
      | some prev =>
        simp only
        split
        · rw [mapSet_length_present m c.Path c prev hget]
          exact h
        · exact h

theorem cleanupFeed_length_le (offered : List FilesystemCleanupCandidate) (maxItems : Nat) :
    (cleanupFeed offered maxItems).length ≤ maxItems := by
  unfold cleanupFeed
  have key : ∀ (l : List FilesystemCleanupCandidate)
      (m : List (String × FilesystemCleanupCandidate)), m.length ≤ maxItems →
      (l.foldl (fun m c => addCleanupCandidate m c maxItems) m).length ≤ maxItems := by
    intro l
    induction l with
    | nil => exact fun m h => h
    | cons c rest ih =>
      intro m h
      rw [List.foldl_cons]
      exact ih _ (addCleanupCandidate_length_le m c maxItems h)
  exact key offered [] (Nat.zero_le _)

theorem mapCleanupCandidates_perm
    (sortSlice : {α : Type} → (α → α → Bool) → List α → List α)
    (mapRange : {V : Type} → List (String × V) → List (String × V))
    (hs : SortSliceSpec sortSlice) (hm : MapRangeSpec mapRange)
    (m : List (String × FilesystemCleanupCandidate)) (limit : Nat) (h : m.length ≤ limit) :
    (mapCleanupCandidates sortSlice mapRange m limit).Perm (m.map Prod.snd) := by
  unfold mapCleanupCandidates
  simp only
  have hp : (sortSlice (fun a b : FilesystemCleanupCandidate =>
      decide (a.SizeBytes > b.SizeBytes)) ((mapRange m).map Prod.snd)).Perm
      (m.map Prod.snd) := ((hs _ _).1).trans ((hm m).map Prod.snd)
  rw [if_neg (by
    rw [hp.length_eq, List.length_map]
    omega)]
  exact hp

theorem mapCleanupCandidates_sorted
    (sortSlice : {α : Type} → (α → α → Bool) → List α → List α)
    (mapRange : {V : Type} → List (String × V) → List (String × V))
    (hs : SortSliceSpec sortSlice)
    (m : List (String × FilesystemCleanupCandidate)) (limit : Nat) :
    ((mapCleanupCandidates sortSlice mapRange m limit).map
      FilesystemCleanupCandidate.SizeBytes).Sorted (fun a b => a ≥ b) := by
  unfold mapCleanupCandidates
  simp only
  have h := sortSlice_sizes_sorted FilesystemCleanupCandidate.SizeBytes sortSlice hs
    ((mapRange m).map Prod.snd)
  split
  · rw [List.map_take]
    exact List.Pairwise.sublist (List.take_sublist _ _) h
  · exact h

theorem mapCleanupCandidates_length_le
    (sortSlice : {α : Type} → (α → α → Bool) → List α → List α)
    (mapRange : {V : Type} → List (String × V) → List (String × V))
    (m : List (String × FilesystemCleanupCandidate)) (limit : Nat) :
    (mapCleanupCandidates sortSlice mapRange m limit).length ≤ limit := by
  unfold mapCleanupCandidates
  simp only
  split
  · rw [List.length_take]
    omega
  · omega

/-- C14, as amended: the emitted list has at most 1000 entries, is sorted by size descending
and holds exactly the entries of the map (the truncation after sorting removes nothing);
when fewer than 1000 different valid paths are offered its sizes are the per-path maxima of
all valid candidates offered; a map that holds 1000 entries takes no further candidate, so
the cap is applied on insertion, before sorting. -/
theorem cleanup_cap_on_insertion
    (sortSlice : {α : Type} → (α → α → Bool) → List α → List α)
    (mapRange : {V : Type} → List (String × V) → List (String × V))
    (hs : SortSliceSpec sortSlice) (hm : MapRangeSpec mapRange)
    (offered : List FilesystemCleanupCandidate) :
    (mapCleanupCandidates sortSlice mapRange (cleanupFeed offered maxFSCleanupCandidates)
      maxFSCleanupCandidates).length ≤ 1000 ∧
    ((mapCleanupCandidates sortSlice mapRange (cleanupFeed offered maxFSCleanupCandidates)
      maxFSCleanupCandidates).map FilesystemCleanupCandidate.SizeBytes).Sorted
        (fun a b => a ≥ b) ∧
    (mapCleanupCandidates sortSlice mapRange (cleanupFeed offered maxFSCleanupCandidates)
      maxFSCleanupCandidates).Perm
        ((cleanupFeed offered maxFSCleanupCandidates).map Prod.snd) ∧
    ((validPaths offered).length < 1000 →
      ((mapCleanupCandidates sortSlice mapRange (cleanupFeed offered maxFSCleanupCandidates)
        maxFSCleanupCandidates).map FilesystemCleanupCandidate.SizeBytes).Perm
          (perPathMaxima offered)) ∧
    (∀ (m : List (String × FilesystemCleanupCandidate)) (c : FilesystemCleanupCandidate),
      1000 ≤ m.length → addCleanupCandidate m c maxFSCleanupCandidates = m) := by
  have hperm := mapCleanupCandidates_perm sortSlice mapRange hs hm
    (cleanupFeed offered maxFSCleanupCandidates) maxFSCleanupCandidates
    (cleanupFeed_length_le offered maxFSCleanupCandidates)
  refine ⟨mapCleanupCandidates_length_le sortSlice mapRange _ _,
    mapCleanupCandidates_sorted sortSlice mapRange hs _ _, hperm, ?_,
    fun m c h => addCleanupCandidate_full m c _ h⟩
  intro hfew
  have hinv : CleanInv (cleanupFeed offered maxFSCleanupCandidates) ([] ++ offered) :=
    cleanInv_fold maxFSCleanupCandidates offered [] []
      ⟨List.nodup_nil, fun p => by simp [validPaths], fun p c h => by simp at h⟩ hfew
  rw [List.nil_append] at hinv
  obtain ⟨hnd, hkeys, hval⟩ := hinv
  refine (hperm.map _).trans ?_
  rw [List.map_map]
  have e1 : (cleanupFeed offered maxFSCleanupCandidates).map
      (FilesystemCleanupCandidate.SizeBytes ∘ Prod.snd) =
      ((cleanupFeed offered maxFSCleanupCandidates).map Prod.fst).map
        (pathMaximum offered) := by
    rw [List.map_map]
    apply List.map_congr_left
    intro e he
    exact (hval e.1 e.2 he).2
  rw [e1]
  unfold perPathMaxima
  exact ((List.perm_ext_iff_of_nodup hnd (validPaths_nodup offered)).2 hkeys).map _

/-- Witness for C14 as amended: two observations of one path, one of another and an empty
path; the list holds the larger observation of the first path and the second path. -/
theorem cleanup_cap_on_insertion_witness :
    ((mapCleanupCandidates (fun {α : Type} => @insertionSortFunc α)
      (fun {V : Type} => @mapRangeInsertion V)
      (cleanupFeed [tempCandidate (tempPath 0) 1, tempCandidate (tempPath 1) 7,
        tempCandidate (tempPath 0) 5, tempCandidate "" 9] maxFSCleanupCandidates)
      maxFSCleanupCandidates).map FilesystemCleanupCandidate.SizeBytes).Perm
        (perPathMaxima [tempCandidate (tempPath 0) 1, tempCandidate (tempPath 1) 7,
          tempCandidate (tempPath 0) 5, tempCandidate "" 9]) ∧
    perPathMaxima [tempCandidate (tempPath 0) 1, tempCandidate (tempPath 1) 7,
      tempCandidate (tempPath 0) 5, tempCandidate "" 9] = [7, 5] :=
  ⟨(cleanup_cap_on_insertion (fun {α : Type} => @insertionSortFunc α)
    (fun {V : Type} => @mapRangeInsertion V) insertionSortFunc_spec
    (fun {V : Type} m => List.Perm.refl m)
    [tempCandidate (tempPath 0) 1, tempCandidate (tempPath 1) 7,
      tempCandidate (tempPath 0) 5, tempCandidate "" 9]).2.2.2.1 (by decide), by decide⟩

theorem tempPath_inj (i j : Nat) (h : tempPath i = tempPath j) : i = j := by
  have h1 := congrArg (fun s : String => s.data.length) h
  simp only [tempPath, List.length_append, List.length_replicate] at h1
  omega

theorem smallCandidateMap_fresh (n : Nat) : ∀ e ∈ smallCandidateMap n, e.1 ≠ tempPath n := by
  intro e he
  unfold smallCandidateMap at he
  obtain ⟨i, hi, rfl⟩ := List.mem_map.1 he
  intro h
  have := tempPath_inj i n h
  rw [List.mem_range] at hi
  omega

theorem tempPath_ne_empty (n : Nat) : tempPath n ≠ "" := by
  intro h
  have h1 := congrArg (fun s : String => s.data.length) h
  simp [tempPath] at h1

theorem cleanupFeed_small (maxItems n : Nat) (h : n ≤ maxItems) :
    cleanupFeed (smallCandidates n) maxItems = smallCandidateMap n := by
  induction n with
  | zero => rfl
  | succ n ih =>
    have ih2 := ih (by omega)
    unfold cleanupFeed at ih2 ⊢
    unfold smallCandidates at ih2 ⊢
    rw [List.range_succ, List.map_append, List.foldl_append, ih2]
    simp only [List.map_singleton, List.foldl_cons, List.foldl_nil]
    have hfresh := smallCandidateMap_fresh n
    have hget : mapGet (smallCandidateMap n) (tempCandidate (tempPath n) 1).Path = none := by
      cases hl : mapGet (smallCandidateMap n) (tempCandidate (tempPath n) 1).Path with
      | none => rfl
      | some v => exact absurd rfl (hfresh _ (lookup_some_mem _ _ v hl))
    unfold addCleanupCandidate
    rw [if_neg (by rw [smallCandidateMap_length]; omega), if_neg (by
      intro hbad
      rcases hbad with hb | hb
      · exact tempPath_ne_empty n hb
      · have hb2 : (1 : Int) ≤ 0 := hb
        omega), hget]
    show mapSet (smallCandidateMap n) (tempPath n) _ = _
    rw [mapSet_fresh _ _ _ hfresh]
    unfold smallCandidateMap
    rw [List.range_succ, List.map_append]
    rfl

/-- C14, the claim as stated fails: 1000 candidates of one byte each with different paths
are offered, then one of 100 bytes for a further path; the sizes emitted are 1000 times 1,
and the largest per-path maximum, 100, is not among them. -/
theorem cleanup_cap_drops_largest :
    (mapCleanupCandidates (fun {α : Type} => @insertionSortFunc α)
      (fun {V : Type} => @mapRangeInsertion V)
      (cleanupFeed (smallCandidates 1000 ++ [tempCandidate "/tmp/big" 100])
        maxFSCleanupCandidates)
      maxFSCleanupCandidates).map FilesystemCleanupCandidate.SizeBytes =
        List.replicate 1000 1 ∧
    validCleanup (tempCandidate "/tmp/big" 100) = true ∧
    pathMaximum (smallCandidates 1000 ++ [tempCandidate "/tmp/big" 100]) "/tmp/big" = 100 := by
  have hfeed : cleanupFeed (smallCandidates 1000 ++ [tempCandidate "/tmp/big" 100])
      maxFSCleanupCandidates = smallCandidateMap 1000 := by
    have h1 := cleanupFeed_small maxFSCleanupCandidates 1000 (le_refl _)
    unfold cleanupFeed at h1 ⊢
    rw [List.foldl_append, h1]
    simp only [List.foldl_cons, List.foldl_nil]
    exact addCleanupCandidate_full _ _ _ (by rw [smallCandidateMap_length]; exact le_refl _)
  refine ⟨?_, by decide, ?_⟩
  · rw [hfeed]
    have hperm := mapCleanupCandidates_perm (fun {α : Type} => @insertionSortFunc α)
      (fun {V : Type} => @mapRangeInsertion V) insertionSortFunc_spec
      (fun {V : Type} m => List.Perm.refl m) (smallCandidateMap 1000) maxFSCleanupCandidates
      (by rw [smallCandidateMap_length]; exact le_refl _)
    rw [List.eq_replicate_iff]
    constructor
    · rw [List.length_map, hperm.length_eq, List.length_map, smallCandidateMap_length]
    · intro b hb
      obtain ⟨c, hc, rfl⟩ := List.mem_map.1 hb
      have hc2 := hperm.subset hc
      obtain ⟨e, he, rfl⟩ := List.mem_map.1 hc2
      unfold smallCandidateMap at he
      obtain ⟨i, _, rfl⟩ := List.mem_map.1 he
      rfl
  · rw [pathMaximum_append, if_pos ⟨by decide, rfl⟩, pathMaximum_absent]
    · rfl
    · intro hin
      obtain ⟨c, hc, _, hp⟩ := (mem_validPaths _ _).1 hin
      unfold smallCandidates at hc
      obtain ⟨i, _, rfl⟩ := List.mem_map.1 hc
      have h1 := congrArg (fun s : String => s.data.length) hp
      simp only [tempCandidate, tempPath, List.length_append, List.length_replicate] at h1
      have h2 : "/tmp/big".data.length = 8 := rfl
      have h3 : "/tmp/".data.length = 5 := rfl
      rw [h2, h3] at h1
      have hi : i = 2 := by omega
      subst hi
      revert hp
      decide

/-! ## The sub-scan of a trash directory -/

theorem estimateChildren_bound (env : ScanEnv) (cap : Int) (current : String)
    (children : List DirEntry) (s : EstimateState) (h : EstimateInv cap s) :
    ((estimateChildren env cap current children s).2 = false →
      EstimateInv cap (estimateChildren env cap current children s).1) ∧
    ((estimateChildren env cap current children s).2 = true →
      (0 ≤ cap → 0 ≤ (estimateChildren env cap current children s).1.entries ∧
        (estimateChildren env cap current children s).1.entries ≤ cap + 1) ∧
      ((∀ n, env.expired n = false) →
        cap < (estimateChildren env cap current children s).1.entries)) := by
  induction children generalizing s with
  | nil =>
    simp only [estimateChildren]
    exact ⟨fun _ => h, fun e => absurd e (by simp)⟩
  | cons child rest ih =>
    unfold estimateChildren
    simp only
    have key : ((estimateChild env cap current s child).2 = false →
        EstimateInv cap (estimateChild env cap current s child).1) ∧
      ((estimateChild env cap current s child).2 = true →
        (0 ≤ cap → 0 ≤ (estimateChild env cap current s child).1.entries ∧
          (estimateChild env cap current s child).1.entries ≤ cap + 1) ∧
        ((∀ n, env.expired n = false) →
          cap < (estimateChild env cap current s child).1.entries)) := by
      apply estimateChild_cases (fun r => (r.2 = false → EstimateInv cap r.1) ∧
        (r.2 = true → (0 ≤ cap → 0 ≤ r.1.entries ∧ r.1.entries ≤ cap + 1) ∧
          ((∀ n, env.expired n = false) → cap < r.1.entries)))
      · intro hc
        refine ⟨fun e => absurd e (by simp), fun _ => ⟨fun h0 => ?_, fun _ => hc⟩⟩
        have := h h0
        simp only
        omega
      · intro hc hex
        refine ⟨fun e => absurd e (by simp), fun _ => ⟨fun h0 => ?_, fun hd => ?_⟩⟩
        · have := h h0
          simp only
          omega
        · rw [hd] at hex
          exact absurd hex (by simp)
      · intro hc _ t ht _ _
        refine ⟨fun _ h0 => ?_, fun e => absurd e (by simp)⟩
        have := h h0
        simp only
        omega
    by_cases hstop : (estimateChild env cap current s child).2 = true
    · rw [if_pos hstop]
      exact ⟨fun e => absurd hstop (by rw [e]; simp), fun _ => key.2 hstop⟩
    · rw [if_neg hstop]
      exact ih _ (key.1 (by simpa using hstop))

theorem estimateLoop_ok (env : ScanEnv) (cap : Int) (fuel : Nat) (s : EstimateState)
    (r : EstimateResult) (h : EstimateInv cap s) (hr : estimateLoop env cap fuel s = some r) :
    EstimateOK env cap r := by
  induction fuel generalizing s with
  | zero =>
    unfold estimateLoop at hr
    exact absurd hr (by simp)
  | succ fuel ih =>
    unfold estimateLoop at hr
    cases hstack : s.stack with
    | nil =>
      rw [hstack] at hr
      simp only [Option.some.injEq] at hr
      subst hr
      refine ⟨fun h0 => ?_, fun e => absurd e (by simp), fun e he => absurd he (by simp),
        fun _ e => absurd e (by simp)⟩
      have := h h0
      simp only
      exact ⟨this.1, by omega, fun hlt => by omega⟩
    | cons current rest =>
      rw [hstack] at hr
      simp only at hr
      by_cases hex : env.expired s.clock = true
      · rw [if_pos hex] at hr
        simp only [Option.some.injEq] at hr
        subst hr
        refine ⟨fun h0 => ?_, fun _ => rfl, fun e he => absurd he (by simp), fun hd _ => ?_⟩
        · have := h h0
          simp only
          exact ⟨this.1, by omega, fun _ => trivial⟩
        · rw [hd] at hex
          exact absurd hex (by simp)
      · rw [if_neg hex] at hr
        have hpop : EstimateInv cap { s with clock := s.clock + 1, stack := rest } := h
        cases hread : env.readDir current with
        | error e =>
          rw [hread] at hr
          simp only at hr
          by_cases hperm : e.isPermission = true
          · rw [if_pos hperm] at hr
            exact ih _ hpop hr
          · rw [if_neg hperm] at hr
            simp only [Option.some.injEq] at hr
            subst hr
            refine ⟨fun h0 => ?_, fun e => absurd e (by simp), fun e2 he => ?_,
              fun _ e => absurd e (by simp)⟩
            · have := h h0
              simp only
              exact ⟨this.1, by omega, fun hlt => by omega⟩
            · simp only [Option.some.injEq] at he
              subst he
              simpa using hperm
        | ok children =>
          rw [hread] at hr
          simp only at hr
          obtain ⟨k1, k2⟩ := estimateChildren_bound env cap current children _ hpop
          by_cases hstop : (estimateChildren env cap current children
              { s with clock := s.clock + 1, stack := rest }).2 = true
          · rw [if_pos hstop] at hr
            simp only [Option.some.injEq] at hr
            subst hr
            obtain ⟨b1, b2⟩ := k2 hstop
            refine ⟨fun h0 => ?_, fun _ => rfl, fun e he => absurd he (by simp), fun hd _ => b2 hd⟩
            have := b1 h0
            exact ⟨this.1, this.2, fun _ => rfl⟩
          · rw [if_neg hstop] at hr
            exact ih _ (k1 (by simpa using hstop)) hr

/-- The sub-scan returns; an error it hands back is the error of `os.Stat` on its root or is
no permission error, and an error of `os.Stat` is always handed back. -/
theorem estimateDirectorySize_ok (env : ScanEnv) (root : String) (cap : Int) (clock : Nat) :
    ∃ r, estimateDirectorySize env root cap clock = some r ∧
      (0 ≤ cap → 0 ≤ r.entries ∧ r.entries ≤ cap + 1 ∧ (cap < r.entries → r.timedOut = true)) ∧
      (r.timedOut = true → r.err = none) ∧
      ((∀ n, env.expired n = false) → r.timedOut = true → cap < r.entries) ∧
      deniedBy r = if statDenied env root then 1 else 0 := by
  obtain ⟨r, hr⟩ := estimateDirectorySize_terminates env root cap clock
  refine ⟨r, hr, ?_⟩
  unfold estimateDirectorySize at hr
  unfold statDenied deniedBy
  cases hstat : env.stat root with
  | error e =>
    rw [hstat] at hr
    simp only [Option.some.injEq] at hr
    subst hr
    simp only
    refine ⟨fun h0 => ⟨le_refl _, by omega, fun hlt => by omega⟩, fun e => absurd e (by simp),
      fun _ e => absurd e (by simp), ?_⟩
    cases h : (!e.isNotExist && e.isPermission) <;> simp [h]
  | ok info =>
    rw [hstat] at hr
    simp only at hr
    by_cases hdir : (!info.isDir) = true
    · rw [if_pos hdir] at hr
      simp only [Option.some.injEq] at hr
      subst hr
      simp only
      exact ⟨fun h0 => ⟨le_refl _, by omega, fun hlt => by omega⟩, fun e => absurd e (by simp),
        fun _ e => absurd e (by simp), by simp⟩
    · rw [if_neg hdir] at hr
      obtain ⟨o1, o2, o3, o4⟩ := estimateLoop_ok env cap _ _ r
        (fun _ => ⟨le_refl _, by assumption⟩) hr
      refine ⟨o1, o2, o4, ?_⟩
      cases herr : r.err with
      | none => simp
      | some e =>
        simp only
        rw [o3 e herr]
        simp

/-! ## The trash loop and the bounds -/

/-- What one iteration of the trash loop does to the flag, the reason and the
permission-denied counter, in terms of the result `r` of its sub-scan. -/
theorem trashStep_effect (env : ScanEnv) (cfg : ScanConfig) (s : WalkState)
    (usage : List FilesystemTrashUsage) (trashPath : String) :
    ∃ r t usage2,
      estimateDirectorySize env trashPath (Int.tdiv cfg.maxEntries 2) s.clock = some r ∧
      trashStep env cfg (some (s, usage)) trashPath = some (t, usage2) ∧
      (r.timedOut = false → t.Partial = s.Partial ∧ t.reason = s.reason) ∧
      (r.timedOut = true → t.Partial = true) ∧
      t.permissionDeniedCount = s.permissionDeniedCount + deniedBy r ∧
      (∀ seen, trashStep env cfg (some ({ s with entriesSeen := seen }, usage)) trashPath =
        some ({ t with entriesSeen := seen }, usage2)) := by
  obtain ⟨r, hr, _, herrnone, _, _⟩ :=
    estimateDirectorySize_ok env trashPath (Int.tdiv cfg.maxEntries 2) s.clock
  suffices key : ∃ t usage2,
      trashStep env cfg (some (s, usage)) trashPath = some (t, usage2) ∧
      (r.timedOut = false → t.Partial = s.Partial ∧ t.reason = s.reason) ∧
      (r.timedOut = true → t.Partial = true) ∧
      t.permissionDeniedCount = s.permissionDeniedCount + deniedBy r ∧
      (∀ seen, trashStep env cfg (some ({ s with entriesSeen := seen }, usage)) trashPath =
        some ({ t with entriesSeen := seen }, usage2)) by
    obtain ⟨t, usage2, h⟩ := key
    exact ⟨r, t, usage2, hr, h⟩
  unfold trashStep deniedBy
  simp only [hr]
  cases herr : r.err with
  | some e =>
    have hnt : r.timedOut = false := by
      cases ht : r.timedOut with
      | false => rfl
      | true =>
        rw [herrnone ht] at herr
        exact absurd herr (by simp)
    simp only
    by_cases hne : (!e.isNotExist) = true
    · simp only [hne, if_true, Bool.true_and]
      refine ⟨_, _, rfl, fun _ => ⟨rfl, rfl⟩, fun h => ?_, ?_, fun _ => rfl⟩
      · rw [hnt] at h
        exact absurd h (by simp)
      · unfold recordError appendScanError
        simp only
        by_cases hp : e.isPermission = true
        · simp only [hp, if_true]
          split <;> rfl
        · simp only [hp, if_false, Bool.false_eq_true, add_zero]
          split <;> rfl
    · simp only [hne, if_false, Bool.false_eq_true, Bool.false_and, add_zero]
      refine ⟨_, _, rfl, fun _ => ⟨rfl, rfl⟩, fun h => ?_, rfl, fun _ => rfl⟩
      rw [hnt] at h
      exact absurd h (by simp)
  | none =>
    simp only [add_zero]
    by_cases ht : r.timedOut = true
    · simp only [ht, if_true]
      split
      · exact ⟨_, _, rfl, fun h => absurd h (by simp), fun _ => rfl, rfl, fun _ => rfl⟩
      · exact ⟨_, _, rfl, fun h => absurd h (by simp), fun _ => rfl, rfl, fun _ => rfl⟩
    · simp only [ht, if_false, Bool.false_eq_true]
      split
      · exact ⟨_, _, rfl, fun _ => ⟨rfl, rfl⟩, fun h => absurd h (by simp), rfl,
          fun _ => rfl⟩
      · exact ⟨_, _, rfl, fun _ => ⟨rfl, rfl⟩, fun h => absurd h (by simp), rfl,
          fun _ => rfl⟩


theorem trashFold_bounds (env : ScanEnv) (cfg : ScanConfig) (paths : List String)
    (s : WalkState) (usage : List FilesystemTrashUsage) :
    ∃ t usage2, paths.foldl (trashStep env cfg) (some (s, usage)) = some (t, usage2) ∧
      t.permissionDeniedCount =
        s.permissionDeniedCount + (paths.countP (statDenied env) : Int) ∧
      ((∀ p ∈ paths, ∀ clock r,
          estimateDirectorySize env p (Int.tdiv cfg.maxEntries 2) clock = some r →
          r.timedOut = false) →
        t.Partial = s.Partial ∧ t.reason = s.reason) := by
  induction paths generalizing s usage with
  | nil => exact ⟨s, usage, rfl, by simp, fun _ => ⟨rfl, rfl⟩⟩
  | cons path rest ih =>
    obtain ⟨r, t, usage2, hr, h1, hquiet, _, hcount, _⟩ :=
      trashStep_effect env cfg s usage path
    obtain ⟨r2, hr2, _, _, _, hden⟩ :=
      estimateDirectorySize_ok env path (Int.tdiv cfg.maxEntries 2) s.clock
    have hrr : r2 = r := Option.some.inj (hr2.symm.trans hr)
    subst hrr
    obtain ⟨u, usage3, h2, hc2, hq2⟩ := ih t usage2
    refine ⟨u, usage3, ?_, ?_, ?_⟩
    · rw [List.foldl_cons, h1, h2]
    · rw [hc2, hcount, hden, List.countP_cons]
      by_cases hsd : statDenied env path = true
      · simp only [hsd, if_true]
        push_cast
        omega
      · simp only [hsd, if_false, Bool.false_eq_true]
        push_cast
        omega
    · intro hall
      have hhere := hquiet (hall path (List.mem_cons_self _ _) s.clock r2 hr)
      have hrest := hq2 (fun p hp => hall p (List.mem_cons_of_mem _ hp))
      exact ⟨hrest.1.trans hhere.1, hrest.2.trans hhere.2⟩

/-- The scan always returns a response; its flag, reason and summary are those of the state
`t` the trash loop leaves. -/
theorem analyzeFrom_parts (env : ScanEnv) (cfg : ScanConfig) (cleanRoot : String) :
    ∃ w t usage resp, mainWalk env cfg cleanRoot = some w ∧
      trashScan env cfg w = some (t, usage) ∧
      analyzeFrom env cfg cleanRoot = some resp ∧
      resp.Partial = t.Partial ∧ resp.Reason = t.reason ∧
      resp.Summary = ⟨t.filesScanned, t.dirsScanned, t.bytesScanned, t.maxDepthReached,
        t.permissionDeniedCount⟩ := by
  obtain ⟨w, hw⟩ := mainWalk_terminates env cfg cleanRoot
  obtain ⟨t, usage, ht, _⟩ := trashScan_keeps env cfg w
  have h1 : analyzeFrom env cfg cleanRoot = assemble env cfg cleanRoot w := by
    unfold analyzeFrom
    rw [hw]
  cases hasm : assemble env cfg cleanRoot w with
  | none =>
    unfold assemble at hasm
    simp only [ht] at hasm
    exact absurd hasm (by simp)
  | some resp =>
    refine ⟨w, t, usage, resp, hw, ht, h1.trans hasm, ?_⟩
    unfold assemble at hasm
    simp only [ht, Option.some.injEq] at hasm
    subst hasm
    exact ⟨rfl, rfl, rfl⟩

theorem processEntry_unbounded (env : ScanEnv) (cfg : ScanConfig) (frame : scanDirFrame)
    (hd : ∀ n, env.expired n = false) (s : WalkState) (entry : DirEntry)
    (h : Unbounded s) :
    ((processEntry env cfg frame s entry).2 = false →
      Unbounded (processEntry env cfg frame s entry).1) ∧
    ((processEntry env cfg frame s entry).2 = true →
      cfg.maxEntries < (processEntry env cfg frame s entry).1.entriesSeen) := by
  obtain ⟨hp, hr⟩ := h
  apply processEntry_cases (fun r => (r.2 = false → Unbounded r.1) ∧
    (r.2 = true → cfg.maxEntries < r.1.entriesSeen))
  · intro hex
    rw [hd] at hex
    exact absurd hex (by simp)
  · intro _ hc
    exact ⟨fun e => absurd e (by simp), fun _ => hc⟩
  · intro _ _ e _
    exact ⟨fun _ => ⟨hp, hr⟩, fun e => absurd e (by simp)⟩
  · intro _ _ info _ _ _
    exact ⟨fun _ => ⟨hp, hr⟩, fun e => absurd e (by simp)⟩
  · intro _ _ target _ _
    refine ⟨fun _ => ⟨?_, ?_⟩, fun e => absurd e (by simp)⟩
    · rw [registerDir_Partial]
      exact hp
    · rw [registerDir_reason]
      exact hr
  · intro _ _ target _ _
    refine ⟨fun _ => ⟨?_, ?_⟩, fun e => absurd e (by simp)⟩
    · rw [visitFile_Partial]
      exact hp
    · rw [visitFile_reason]
      exact hr

/-- Without a deadline hit the traversal ends with no bound hit unless it met more than
`maxEntries` entries. -/
theorem mainWalk_unbounded (env : ScanEnv) (cfg : ScanConfig) (cleanRoot : String)
    (hd : ∀ n, env.expired n = false) (w : WalkState)
    (hw : mainWalk env cfg cleanRoot = some w) :
    Unbounded w ∨ cfg.maxEntries < w.entriesSeen := by
  unfold mainWalk at hw
  refine walkLoop_induct Unbounded (fun t => Unbounded t ∨ cfg.maxEntries < t.entriesSeen)
    env cfg ?_ (fun t ht _ => Or.inl ht) _ _ w ⟨rfl, rfl⟩ hw
  intro frame rest s hs _
  have key : ((walkStep env cfg frame rest s).2 = false →
      Unbounded (walkStep env cfg frame rest s).1) ∧
      ((walkStep env cfg frame rest s).2 = true →
        cfg.maxEntries < (walkStep env cfg frame rest s).1.entriesSeen) := by
    apply walkStep_cases (fun r => (r.2 = false → Unbounded r.1) ∧
      (r.2 = true → cfg.maxEntries < r.1.entriesSeen))
    · intro hex
      rw [hd] at hex
      exact absurd hex (by simp)
    · intro _ e _
      exact ⟨fun _ => hs, fun e => absurd e (by simp)⟩
    · intro _ entries _
      exact processEntries_induct (fun _ t => Unbounded t)
        (fun t => cfg.maxEntries < t.entriesSeen) env cfg frame
        (fun entry _ t ht => processEntry_unbounded env cfg frame hd t entry ht) entries _ hs
  exact ⟨key.1, fun e => Or.inr (key.2 e)⟩

theorem estimateChild_clock (env : ScanEnv) (cap : Int) (current : String)
    (hd : ∀ n, env.expired n = false) (s t : EstimateState) (child : DirEntry)
    (h1 : s.stack = t.stack) (h2 : s.entries = t.entries) :
    (estimateChild env cap current s child).2 = (estimateChild env cap current t child).2 ∧
    (estimateChild env cap current s child).1.stack =
      (estimateChild env cap current t child).1.stack ∧
    (estimateChild env cap current s child).1.entries =
      (estimateChild env cap current t child).1.entries := by
  unfold estimateChild
  simp only [hd, h1, h2]
  split
  · exact ⟨rfl, rfl, rfl⟩
  · simp only [Bool.false_eq_true, if_false]
    cases child.info with
    | error e => exact ⟨rfl, rfl, rfl⟩
    | ok info =>
      simp only
      split
      · exact ⟨rfl, rfl, rfl⟩
      · split
        · exact ⟨rfl, rfl, rfl⟩
        · exact ⟨rfl, rfl, rfl⟩

theorem estimateChildren_clock (env : ScanEnv) (cap : Int) (current : String)
    (hd : ∀ n, env.expired n = false) (children : List DirEntry) (s t : EstimateState)
    (h1 : s.stack = t.stack) (h2 : s.entries = t.entries) :
    (estimateChildren env cap current children s).2 =
      (estimateChildren env cap current children t).2 ∧
    (estimateChildren env cap current children s).1.stack =
      (estimateChildren env cap current children t).1.stack ∧
    (estimateChildren env cap current children s).1.entries =
      (estimateChildren env cap current children t).1.entries := by
  induction children generalizing s t with
  | nil => exact ⟨rfl, h1, h2⟩
  | cons child rest ih =>
    unfold estimateChildren
    simp only
    obtain ⟨k1, k2, k3⟩ := estimateChild_clock env cap current hd s t child h1 h2
    rw [← k1]
    split
    · exact ⟨k1, k2, k3⟩
    · exact ih _ _ k2 k3

theorem estimateLoop_clock (env : ScanEnv) (cap : Int) (hd : ∀ n, env.expired n = false)
    (fuel : Nat) (s t : EstimateState) (h1 : s.stack = t.stack) (h2 : s.entries = t.entries) :
    (estimateLoop env cap fuel s).map EstimateResult.entries =
      (estimateLoop env cap fuel t).map EstimateResult.entries := by
  induction fuel generalizing s t with
  | zero => rfl
  | succ fuel ih =>
    unfold estimateLoop
    rw [← h1]
    cases s.stack with
    | nil => simp only [Option.map_some', h2]
    | cons current rest =>
      simp only [hd, Bool.false_eq_true, if_false]
      cases env.readDir current with
      | error e =>
        simp only
        split
        · exact ih _ _ rfl h2
        · simp only [Option.map_some', h2]
      | ok children =>
        simp only
        obtain ⟨k1, k2, k3⟩ := estimateChildren_clock env cap current hd children
          { s with clock := s.clock + 1, stack := rest }
          { t with clock := t.clock + 1, stack := rest } rfl h2
        rw [← k1]
        split
        · simp only [Option.map_some', k3]
        · exact ih _ _ k2 k3

/-- Without a deadline hit, the number of entries a sub-scan counts does not depend on the
number of deadline checks made before it starts. -/
theorem estimateDirectorySize_clock (env : ScanEnv) (root : String) (cap : Int)
    (hd : ∀ n, env.expired n = false) (clock : Nat) :
    (estimateDirectorySize env root cap clock).map EstimateResult.entries =
      (estimateDirectorySize env root cap 0).map EstimateResult.entries := by
  unfold estimateDirectorySize
  cases env.stat root with
  | error e => rfl
  | ok info =>
    simp only
    split
    · rfl
    · exact estimateLoop_clock env cap hd _ _ _ rfl rfl

/-- C11: in a scan in which the deadline never passes, the traversal does not meet more than
`maxEntries` entries and no sub-scan of a trash directory counts more entries than its cap,
the response has partial = false and reason "". -/
theorem no_bound_hit_not_partial (env : ScanEnv) (cfg : ScanConfig) (cleanRoot : String)
    (hd : ∀ n, env.expired n = false) :
    ∃ w resp, mainWalk env cfg cleanRoot = some w ∧
      analyzeFrom env cfg cleanRoot = some resp ∧
      (w.entriesSeen ≤ cfg.maxEntries →
        (∀ p ∈ env.trashPaths, ∀ clock r,
          estimateDirectorySize env p (Int.tdiv cfg.maxEntries 2) clock = some r →
          r.entries ≤ Int.tdiv cfg.maxEntries 2) →
        resp.Partial = false ∧ resp.Reason = "") := by
  obtain ⟨w, t, usage, resp, hw, ht, hresp, hp, hr, _⟩ := analyzeFrom_parts env cfg cleanRoot
  refine ⟨w, resp, hw, hresp, ?_⟩
  intro hwalk htrash
  rcases mainWalk_unbounded env cfg cleanRoot hd w hw with hu | hover
  · obtain ⟨t2, usage2, ht2, _, hquiet⟩ := trashFold_bounds env cfg env.trashPaths w []
    have e : (t2, usage2) = (t, usage) := Option.some.inj (ht2.symm.trans ht)
    obtain ⟨rfl, rfl⟩ := Prod.mk.inj e
    have hq := hquiet (by
      intro p hp clock r hrun
      obtain ⟨r2, hr2, _, _, hcap, _⟩ :=
        estimateDirectorySize_ok env p (Int.tdiv cfg.maxEntries 2) clock
      have hrr : r2 = r := Option.some.inj (hr2.symm.trans hrun)
      subst hrr
      cases hto : r2.timedOut with
      | false => rfl
      | true =>
        have := hcap hd hto
        have := htrash p hp clock r2 hrun
        omega)
    rw [hp, hr, hq.1, hq.2]
    exact hu
  · omega

/-- Witness for C11: the sample tree with a trash directory of three files, scanned with
room for 1000 entries. -/
theorem no_bound_hit_not_partial_witness :
    ∃ resp, analyzeFrom (trashEnv 3) (sampleConfig 6 1000) "/data" = some resp ∧
      resp.Partial = false ∧ resp.Reason = "" := by
  obtain ⟨w, resp, hw, hresp, h⟩ :=
    no_bound_hit_not_partial (trashEnv 3) (sampleConfig 6 1000) "/data" (fun _ => rfl)
  have he : (mainWalk (trashEnv 3) (sampleConfig 6 1000) "/data").map WalkState.entriesSeen =
      some 6 := by decide
  rw [hw] at he
  simp only [Option.map_some', Option.some.injEq] at he
  refine ⟨resp, hresp, h (by rw [he]; decide) ?_⟩
  intro p hp clock r hr
  have hp2 : p = "/trash" := List.mem_singleton.1 hp
  subst hp2
  have hc := estimateDirectorySize_clock (trashEnv 3) "/trash"
    (Int.tdiv (sampleConfig 6 1000).maxEntries 2) (fun _ => rfl) clock
  have h0 : (estimateDirectorySize (trashEnv 3) "/trash"
      (Int.tdiv (sampleConfig 6 1000).maxEntries 2) 0).map EstimateResult.entries =
      some 3 := by decide
  rw [hr, h0] at hc
  simp only [Option.map_some', Option.some.injEq] at hc
  rw [hc]
  decide

theorem mainWalk_expired (env : ScanEnv) (cfg : ScanConfig) (cleanRoot : String)
    (h : env.expired 0 = true) :
    mainWalk env cfg cleanRoot =
      some { initialState cleanRoot with
        clock := 1, Partial := true, reason := "timeout reached" } := by
  unfold mainWalk
  show walkLoop env cfg ((cfg.maxEntries.toNat + 2) + 1) _ = _
  unfold walkLoop walkStep
  simp [initialState, h]

/-- The response of a scan whose first deadline check fails. -/
theorem analyzeFrom_expired (env : ScanEnv) (cfg : ScanConfig) (cleanRoot : String)
    (h : env.expired 0 = true) :
    ∃ resp, analyzeFrom env cfg cleanRoot = some resp ∧
      resp.Partial = true ∧ resp.Reason = "timeout reached" ∧
      resp.Summary.FilesScanned = 0 ∧ resp.Summary.DirsScanned = 0 ∧
      resp.Summary.BytesScanned = 0 ∧ resp.Summary.MaxDepthReached = 0 ∧
      resp.Summary.PermissionDeniedCount = (env.trashPaths.countP (statDenied env) : Int) := by
  obtain ⟨w, t, usage, resp, hw, ht, hresp, hp, hr, hsum⟩ := analyzeFrom_parts env cfg cleanRoot
  rw [mainWalk_expired env cfg cleanRoot h] at hw
  have hw2 := Option.some.inj hw
  obtain ⟨t1, usage1, ht1, hkeep⟩ := trashScan_keeps env cfg w
  obtain ⟨t2, usage2, ht2, hcount, _⟩ := trashFold_bounds env cfg env.trashPaths w []
  have e1 : (t1, usage1) = (t, usage) := Option.some.inj (ht1.symm.trans ht)
  have e2 : (t2, usage2) = (t, usage) := Option.some.inj (ht2.symm.trans ht)
  obtain ⟨rfl, rfl⟩ := Prod.mk.inj e1
  obtain ⟨rfl, rfl⟩ := Prod.mk.inj e2
  obtain ⟨k1, k2, k3, k4, _, _, _, _, k9, k10⟩ := hkeep
  subst hw2
  refine ⟨resp, hresp, ?_, ?_, ?_, ?_, ?_, ?_, ?_⟩
  · rw [hp]
    exact k9 rfl
  · rw [hr]
    exact k10 (fun e => absurd e (show "timeout reached" ≠ "" by decide))
  · rw [hsum]
    exact k1
  · rw [hsum]
    exact k2
  · rw [hsum]
    exact k3
  · rw [hsum]
    exact k4
  · rw [hsum]
    simp only
    rw [hcount]
    simp [initialState]

/-- C12, as amended: when the first deadline check of the traversal loop already fails, the
response has partial = true and reason "timeout reached"; files scanned, dirs scanned, bytes
scanned and max depth reached are zero, and the permission-denied count is the number of
trash paths on which `os.Stat` fails with a permission error. -/
theorem expired_deadline_scan (env : ScanEnv) (cfg : ScanConfig) (cleanRoot : String)
    (h : env.expired 0 = true) :
    ∃ resp, analyzeFrom env cfg cleanRoot = some resp ∧
      resp.Partial = true ∧ resp.Reason = "timeout reached" ∧
      resp.Summary.FilesScanned = 0 ∧ resp.Summary.DirsScanned = 0 ∧
      resp.Summary.BytesScanned = 0 ∧ resp.Summary.MaxDepthReached = 0 ∧
      resp.Summary.PermissionDeniedCount = (env.trashPaths.countP (statDenied env) : Int) :=
  analyzeFrom_expired env cfg cleanRoot h


/-- Witness for C12 as amended: the sample tree scanned after the deadline. -/
theorem expired_deadline_scan_witness :
    ∃ resp, analyzeFrom { sampleEnv with expired := fun _ => true } (sampleConfig 6 200000)
        "/data" = some resp ∧
      resp.Partial = true ∧ resp.Reason = "timeout reached" ∧
      resp.Summary = ⟨0, 0, 0, 0, 0⟩ := by
  obtain ⟨resp, h1, h2, h3, h4, h5, h6, h7, h8⟩ :=
    expired_deadline_scan { sampleEnv with expired := fun _ => true } (sampleConfig 6 200000)
      "/data" rfl
  refine ⟨resp, h1, h2, h3, ?_⟩
  cases hs : resp.Summary with
  | mk a b c d e =>
    rw [hs] at h4 h5 h6 h7 h8
    simp only at h4 h5 h6 h7 h8
    rw [h4, h5, h6, h7, h8]
    rfl

/-- C12, the claim as stated fails: the deadline is past before the traversal starts and
`os.Stat` of the trash directory fails with a permission error; the response is partial with
reason "timeout reached", yet its permission-denied count is 1, not 0. -/
theorem expired_scan_counts_denied_trash :
    (analyzeFrom deniedTrashEnv (sampleConfig 6 200000) "/data").map
      (fun r => (r.Partial, r.Reason, r.Summary)) =
      some (true, "timeout reached", ⟨0, 0, 0, 0, 1⟩) := by
  decide

theorem tdiv_two_nonneg (n : Int) (h : 0 ≤ n) : 0 ≤ Int.tdiv n 2 :=
  Int.tdiv_nonneg h (by decide)

/-- C20, as amended: the entry cap passed to every sub-scan of a trash directory is half of
the configured entry budget, `maxEntries / 2`, whatever number of entries the traversal has
seen; the sub-scan stops at the first entry beyond that cap and reports the bound hit, which
makes the scan partial. -/
theorem trash_cap_is_half_of_maxEntries (env : ScanEnv) (cfg : ScanConfig) (s : WalkState)
    (usage : List FilesystemTrashUsage) (trashPath : String) (hmax : 0 ≤ cfg.maxEntries) :
    ∃ r t usage2,
      estimateDirectorySize env trashPath (Int.tdiv cfg.maxEntries 2) s.clock = some r ∧
      trashStep env cfg (some (s, usage)) trashPath = some (t, usage2) ∧
      (∀ seen, trashStep env cfg (some ({ s with entriesSeen := seen }, usage)) trashPath =
        some ({ t with entriesSeen := seen }, usage2)) ∧
      r.entries ≤ Int.tdiv cfg.maxEntries 2 + 1 ∧
      (Int.tdiv cfg.maxEntries 2 < r.entries → r.timedOut = true ∧ t.Partial = true) ∧
      ((∀ n, env.expired n = false) → r.timedOut = true →
        Int.tdiv cfg.maxEntries 2 < r.entries) ∧
      (∀ (current : String) (st : EstimateState) (child : DirEntry),
        st.entries = Int.tdiv cfg.maxEntries 2 →
        estimateChild env (Int.tdiv cfg.maxEntries 2) current st child =
          ({ st with entries := st.entries + 1 }, true)) := by
  obtain ⟨r, t, usage2, hr, ht, _, hpartial, _, hseen⟩ :=
    trashStep_effect env cfg s usage trashPath
  obtain ⟨r2, hr2, hbound, _, hcap, _⟩ :=
    estimateDirectorySize_ok env trashPath (Int.tdiv cfg.maxEntries 2) s.clock
  have hrr : r2 = r := Option.some.inj (hr2.symm.trans hr)
  subst hrr
  obtain ⟨_, b2, b3⟩ := hbound (tdiv_two_nonneg _ hmax)
  refine ⟨r2, t, usage2, hr, ht, hseen, b2, fun h => ⟨b3 h, hpartial (b3 h)⟩, hcap, ?_⟩
  intro current st child hst
  unfold estimateChild
  simp only
  rw [if_pos (by omega)]

/-- Witness for C20 as amended: a trash directory of three files scanned with a budget of
1000 entries, after a traversal or before it. -/
theorem trash_cap_is_half_of_maxEntries_witness :
    ∃ r, estimateDirectorySize (trashEnv 3) "/trash" (Int.tdiv 1000 2) 0 = some r ∧
      r.entries ≤ 501 := by
  obtain ⟨r, _, _, h1, _, _, h4, _⟩ :=
    trash_cap_is_half_of_maxEntries (trashEnv 3) (sampleConfig 6 1000) (initialState "/data")
      [] "/trash" (by decide)
  exact ⟨r, h1, h4⟩

/-- C20, the claim as stated fails: the traversal of the sample tree sees 6 entries of a
budget of 1000, so half of the remaining budget is 497; a sub-scan with that cap would report
a bound hit at entry 498 of the trash directory of 500 files, but the scan passes the cap 500
and ends with no bound hit. -/
theorem trash_cap_ignores_entries_seen :
    (mainWalk (trashEnv 500) (sampleConfig 6 1000) "/data").map
      (fun w => (w.entriesSeen, w.clock)) = some (6, 10) ∧
    (estimateDirectorySize (trashEnv 500) "/trash" (Int.tdiv (1000 - 6) 2) 10).map
      (fun r => (r.timedOut, r.entries)) = some (true, 498) ∧
    (analyzeFrom (trashEnv 500) (sampleConfig 6 1000) "/data").map
      (fun r => (r.Partial, r.Reason)) = some (false, "") := by
  refine ⟨by decide, ?_, ?_⟩
  · set_option maxRecDepth 100000 in decide
  · set_option maxRecDepth 100000 in decide

/-! ## The roll-up gives subtree totals -/

theorem countP_lt_of_imp {α : Type} (p q : α → Bool) (l : List α)
    (himp : ∀ x ∈ l, p x = true → q x = true) (x : α) (hx : x ∈ l) (hq : q x = true)
    (hp : p x = false) : l.countP p < l.countP q := by
  induction l with
  | nil => exact absurd hx (List.not_mem_nil _)
  | cons y rest ih =>
    have hmono : rest.countP p ≤ rest.countP q :=
      List.countP_mono_left (fun z hz => himp z (List.mem_cons_of_mem _ hz))
    rw [List.countP_cons, List.countP_cons]
    rcases List.mem_cons.1 hx with rfl | hx
    · simp only [hq, hp, if_true, Bool.false_eq_true, if_false]
      omega
    · have := ih (fun z hz => himp z (List.mem_cons_of_mem _ hz)) hx
      by_cases hpy : p y = true
      · rw [if_pos hpy, if_pos (himp y (List.mem_cons_self _ _) hpy)]
        omega
      · rw [if_neg hpy]
        by_cases hqy : q y = true
        · rw [if_pos hqy]
          omega
        · rw [if_neg hqy]
          omega

theorem subtreeTotal_no_children (own : fsDirAggregate → Int) (l : List fsDirAggregate)
    (n : Nat) (k : String) (h : ∀ c ∈ l, c.Parent ≠ k) : subtreeTotal own l n k = 0 := by
  cases n with
  | zero => rfl
  | succ n =>
    unfold subtreeTotal
    have : l.filter (fun a => decide (a.Parent = k)) = [] := by
      rw [List.filter_eq_nil_iff]
      intro a ha
      simpa using h a ha
    rw [this]
    rfl

theorem rollReady_values (m : List (String × fsDirAggregate)) (h : RollReady m)
    (c : fsDirAggregate) (hc : c ∈ m.map Prod.snd) : (c.Path, c) ∈ m := by
  obtain ⟨e, he, rfl⟩ := List.mem_map.1 hc
  have := (h.2.1 e.1 e.2 he).1
  rw [this]
  exact he

theorem rollReady_child (m : List (String × fsDirAggregate)) (h : RollReady m)
    (k : String) (a c : fsDirAggregate) (hk : (k, a) ∈ m) (hc : c ∈ m.map Prod.snd)
    (hpar : c.Parent = k) :
    (c.Path, c) ∈ m ∧ deeperCount (m.map Prod.snd) c.Depth < deeperCount (m.map Prod.snd) a.Depth := by
  have hcm := rollReady_values m h c hc
  refine ⟨hcm, ?_⟩
  have hne : c.Parent ≠ "" := by
    rw [hpar]
    exact (h.2.1 k a hk).2
  obtain ⟨pa, hpa, hlt⟩ := h.2.2 _ _ hcm hne
  rw [hpar] at hpa
  have := mem_nodup_keys_unique _ _ _ _ h.1 hpa hk
  subst this
  unfold deeperCount
  apply countP_lt_of_imp _ _ _ _ c hc
  · simpa using hlt
  · simp
  · intro x _ hx
    simp only [decide_eq_true_eq] at hx ⊢
    omega

theorem subtreeTotal_stable (own : fsDirAggregate → Int) (m : List (String × fsDirAggregate))
    (h : RollReady m) (n : Nat) :
    ∀ (n2 : Nat) (k : String) (a : fsDirAggregate), (k, a) ∈ m →
      deeperCount (m.map Prod.snd) a.Depth ≤ n → deeperCount (m.map Prod.snd) a.Depth ≤ n2 →
      subtreeTotal own (m.map Prod.snd) n k = subtreeTotal own (m.map Prod.snd) n2 k := by
  induction n with
  | zero =>
    intro n2 k a hk h1 _
    have hnone : ∀ c ∈ m.map Prod.snd, c.Parent ≠ k := by
      intro c hc hpar
      have := (rollReady_child m h k a c hk hc hpar).2
      omega
    rw [subtreeTotal_no_children own _ 0 k hnone, subtreeTotal_no_children own _ n2 k hnone]
  | succ n ih =>
    intro n2 k a hk h1 h2
    cases n2 with
    | zero =>
      have hnone : ∀ c ∈ m.map Prod.snd, c.Parent ≠ k := by
        intro c hc hpar
        have := (rollReady_child m h k a c hk hc hpar).2
        omega
      rw [subtreeTotal_no_children own _ _ k hnone, subtreeTotal_no_children own _ 0 k hnone]
    | succ n2 =>
      unfold subtreeTotal
      congr 1
      apply List.map_congr_left
      intro c hc
      rw [List.mem_filter] at hc
      have hpar : c.Parent = k := by simpa using hc.2
      obtain ⟨hcm, hlt⟩ := rollReady_child m h k a c hk hc.1 hpar
      rw [ih n2 c.Path c hcm (by omega) (by omega)]

theorem cumulativeOf_recursion (own : fsDirAggregate → Int)
    (m : List (String × fsDirAggregate)) (h : RollReady m) (k : String) (a : fsDirAggregate)
    (hk : (k, a) ∈ m) :
    cumulativeOf own m k = own a + childSum (cumulativeOf own m) (m.map Prod.snd) k := by
  have hget : mapGet m k = some a := lookup_of_mem_nodup m k a h.1 hk
  obtain ⟨n, hn⟩ : ∃ n, m.length = n + 1 := by
    have := List.length_pos_of_mem hk
    exact ⟨m.length - 1, by omega⟩
  have hle : ∀ d, deeperCount (m.map Prod.snd) d ≤ n + 1 := by
    intro d
    unfold deeperCount
    refine le_trans (List.countP_le_length _) ?_
    rw [List.length_map, hn]
  have hchild : ∀ c ∈ (m.map Prod.snd).filter (fun a => decide (a.Parent = k)),
      own c + subtreeTotal own (m.map Prod.snd) n c.Path = cumulativeOf own m c.Path := by
    intro c hc
    rw [List.mem_filter] at hc
    have hpar : c.Parent = k := by simpa using hc.2
    obtain ⟨hcm, hlt⟩ := rollReady_child m h k a c hk hc.1 hpar
    have hgetc : mapGet m c.Path = some c := lookup_of_mem_nodup m _ c h.1 hcm
    have := hle a.Depth
    unfold cumulativeOf
    rw [hgetc, hn]
    simp only
    rw [subtreeTotal_stable own m h n (n + 1) c.Path c hcm (by omega) (by omega)]
  have e : cumulativeOf own m k = own a + subtreeTotal own (m.map Prod.snd) (n + 1) k := by
    unfold cumulativeOf
    rw [hget, hn]
  rw [e, subtreeTotal]
  unfold childSum
  rw [List.map_congr_left hchild]

theorem mapGet_swapMap (m : List (String × fsDirAggregate)) (k : String) :
    mapGet (swapMap m) k = (mapGet m k).map swapTotals := by
  unfold mapGet swapMap
  induction m with
  | nil => rfl
  | cons e rest ih =>
    obtain ⟨ek, ev⟩ := e
    rw [List.map_cons, lookup_cons_eq, lookup_cons_eq]
    by_cases h : k = ek
    · rw [if_pos h, if_pos h]
      rfl
    · rw [if_neg h, if_neg h]
      exact ih

theorem mapSet_swapMap (m : List (String × fsDirAggregate)) (k : String)
    (v : fsDirAggregate) : mapSet (swapMap m) k (swapTotals v) = swapMap (mapSet m k v) := by
  have hget := mapGet_swapMap m k
  unfold mapGet at hget
  unfold mapSet
  rw [hget]
  cases m.lookup k with
  | none =>
    simp only [Option.map_none']
    unfold swapMap
    rw [List.map_append]
    rfl
  | some w =>
    simp only [Option.map_some']
    unfold swapMap
    rw [List.map_map, List.map_map]
    apply List.map_congr_left
    intro e _
    simp only [Function.comp]
    by_cases h : e.1 = k
    · rw [if_pos h, if_pos h]
    · rw [if_neg h, if_neg h]

theorem rollUpOne_swapMap (m : List (String × fsDirAggregate)) (path : String) :
    rollUpOne (swapMap m) path = swapMap (rollUpOne m path) := by
  unfold rollUpOne
  rw [mapGet_swapMap]
  cases mapGet m path with
  | none => rfl
  | some agg =>
    simp only [Option.map_some']
    have hp : (swapTotals agg).Parent = agg.Parent := rfl
    rw [hp]
    by_cases hroot : agg.Parent = ""
    · rw [if_pos hroot, if_pos hroot]
    · rw [if_neg hroot, if_neg hroot, mapGet_swapMap]
      cases mapGet m agg.Parent with
      | none => rfl
      | some parent =>
        simp only [Option.map_some']
        exact mapSet_swapMap m agg.Parent
          { parent with SizeBytes := parent.SizeBytes + agg.SizeBytes
                        FileCount := parent.FileCount + agg.FileCount }

theorem rollUpFold_swapMap (todo : List fsDirAggregate) (m : List (String × fsDirAggregate)) :
    (todo.map swapTotals).foldl (fun mc a => rollUpOne mc a.Path) (swapMap m) =
      swapMap (todo.foldl (fun mc a => rollUpOne mc a.Path) m) := by
  induction todo generalizing m with
  | nil => rfl
  | cons a rest ih =>
    rw [List.map_cons, List.foldl_cons, List.foldl_cons]
    have hp : (swapTotals a).Path = a.Path := rfl
    rw [hp, rollUpOne_swapMap, ih]

theorem mem_swapMap (m : List (String × fsDirAggregate)) (k : String) (b : fsDirAggregate) :
    (k, b) ∈ swapMap m ↔ ∃ a, (k, a) ∈ m ∧ b = swapTotals a := by
  unfold swapMap
  rw [List.mem_map]
  constructor
  · rintro ⟨e, he, h⟩
    obtain ⟨rfl, rfl⟩ := Prod.mk.inj h
    exact ⟨e.2, he, rfl⟩
  · rintro ⟨a, ha, rfl⟩
    exact ⟨(k, a), ha, rfl⟩

theorem swapMap_keys (m : List (String × fsDirAggregate)) :
    (swapMap m).map Prod.fst = m.map Prod.fst := by
  unfold swapMap
  rw [List.map_map]
  rfl

theorem swapMap_values (m : List (String × fsDirAggregate)) :
    (swapMap m).map Prod.snd = (m.map Prod.snd).map swapTotals := by
  unfold swapMap
  rw [List.map_map, List.map_map]
  rfl

theorem swapMap_ready (m : List (String × fsDirAggregate)) (h : RollReady m) :
    RollReady (swapMap m) := by
  obtain ⟨h1, h2, h3⟩ := h
  refine ⟨by rw [swapMap_keys]; exact h1, ?_, ?_⟩
  · intro k b hb
    obtain ⟨a, ha, rfl⟩ := (mem_swapMap m k b).1 hb
    exact h2 k a ha
  · intro k b hb hne
    obtain ⟨a, ha, rfl⟩ := (mem_swapMap m k b).1 hb
    obtain ⟨pa, hpa, hlt⟩ := h3 k a ha hne
    exact ⟨swapTotals pa, (mem_swapMap m _ _).2 ⟨pa, hpa, rfl⟩, hlt⟩

theorem childSum_swapTotals (total : String → Int) (l : List fsDirAggregate) (k : String) :
    childSum total (l.map swapTotals) k = childSum total l k := by
  induction l with
  | nil => rfl
  | cons a rest ih =>
    have e1 : childSum total (List.map swapTotals (a :: rest)) k =
        childSum total [swapTotals a] k + childSum total (rest.map swapTotals) k := by
      rw [List.map_cons, ← childSum_append]
      rfl
    have e2 : childSum total (a :: rest) k = childSum total [a] k + childSum total rest k := by
      rw [← childSum_append]
      rfl
    rw [e1, e2, ih, childSum_single, childSum_single]
    rfl

/-- The order in which the roll-up takes the aggregates: a rearrangement of the aggregates,
no aggregate before a deeper one. -/
theorem rollUp_order (env : ScanEnv) (hsort : SortSliceSpec env.sortSlice)
    (hrange : MapRangeSpec (env.mapRange 0)) (m : List (String × fsDirAggregate)) :
    ∃ order : List fsDirAggregate, order.Perm (m.map Prod.snd) ∧
      order.Pairwise (fun x y => y.Depth ≤ x.Depth) ∧
      rollUp env m = order.foldl (fun mc a => rollUpOne mc a.Path) m := by
  have hless : LessOK (fun a b : fsDirAggregate => decide (a.Depth > b.Depth)) :=
    sizeLess_ok fsDirAggregate.Depth
  obtain ⟨hp, hs⟩ := hsort (fun a b : fsDirAggregate => decide (a.Depth > b.Depth))
    ((env.mapRange 0 m).map Prod.snd)
  refine ⟨_, hp.trans ((hrange m).map Prod.snd), ?_, ?_⟩
  · refine (hs hless).imp ?_
    intro a b hab
    simp only [gt_iff_lt, decide_eq_false_iff_not, not_lt] at hab
    exact hab
  · unfold rollUp rollUpOrder
    rw [List.foldl_map]

/-- The roll-up pass gives every aggregate the totals `ts` (size) and `tc` (file count),
provided each of them is, for a directory, its own value plus the totals of the aggregates
that name it as their parent. -/
theorem rollUp_size_and_count (env : ScanEnv) (hsort : SortSliceSpec env.sortSlice)
    (hrange : MapRangeSpec (env.mapRange 0)) (m : List (String × fsDirAggregate))
    (hready : RollReady m) (ts tc : String → Int)
    (hTs : ∀ k a, (k, a) ∈ m → ts k = a.SizeBytes + childSum ts (m.map Prod.snd) k)
    (hTc : ∀ k a, (k, a) ∈ m → tc k = a.FileCount + childSum tc (m.map Prod.snd) k) :
    (rollUp env m).map Prod.fst = m.map Prod.fst ∧
    ∀ k a2, (k, a2) ∈ rollUp env m → ∃ a, (k, a) ∈ m ∧ a2.Depth = a.Depth ∧
      a2.Parent = a.Parent ∧ a2.Path = a.Path ∧ a2.SizeBytes = ts k ∧ a2.FileCount = tc k := by
  obtain ⟨order, hperm, hsorted, heq⟩ := rollUp_order env hsort hrange m
  have h1 := rollUp_fold m ts hready hTs order [] (by simpa using hperm) hsorted m
    ⟨rfl, fun k a hk => ⟨a, hk, rfl, rfl, rfl, by simp [childSum]⟩⟩
  rw [← heq, List.nil_append] at h1
  have hTc2 : ∀ k b, (k, b) ∈ swapMap m →
      tc k = b.SizeBytes + childSum tc ((swapMap m).map Prod.snd) k := by
    intro k b hb
    obtain ⟨a, ha, rfl⟩ := (mem_swapMap m k b).1 hb
    rw [swapMap_values, childSum_swapTotals]
    exact hTc k a ha
  have hperm2 : ([] ++ order.map swapTotals).Perm ((swapMap m).map Prod.snd) := by
    rw [List.nil_append, swapMap_values]
    exact hperm.map _
  have hsorted2 : (order.map swapTotals).Pairwise (fun x y => y.Depth ≤ x.Depth) := by
    rw [List.pairwise_map]
    exact hsorted
  have h2 := rollUp_fold (swapMap m) tc (swapMap_ready m hready) hTc2 (order.map swapTotals) []
    hperm2 hsorted2 (swapMap m)
    ⟨rfl, fun k a hk => ⟨a, hk, rfl, rfl, rfl, by simp [childSum]⟩⟩
  rw [rollUpFold_swapMap, ← heq, List.nil_append] at h2
  refine ⟨h1.1, ?_⟩
  intro k a2 hk
  obtain ⟨a, x1, x2, x3, x4, x5⟩ := h1.2 k a2 hk
  refine ⟨a, x1, x2, x3, x4, ?_, ?_⟩
  · rw [x5, hTs k a x1, childSum_perm ts _ _ k hperm]
  · obtain ⟨b, y1, _, _, _, y5⟩ := h2.2 k (swapTotals a2) ((mem_swapMap _ k _).2 ⟨a2, hk, rfl⟩)
    have hy : (swapTotals a2).SizeBytes = a2.FileCount := rfl
    rw [hy] at y5
    rw [y5, hTc2 k b y1, swapMap_values, childSum_perm tc _ _ k (hperm.map swapTotals)]

theorem contains_iff_mem (l : List String) (x : String) : l.contains x = true ↔ x ∈ l := by
  rw [List.contains_iff_exists_mem_beq]
  constructor
  · rintro ⟨y, hy, hxy⟩
    have : x = y := by simpa using hxy
    rw [this]
    exact hy
  · intro h
    exact ⟨x, h, by simp⟩

theorem registerDir_pushes (cfg : ScanConfig) (frame : scanDirFrame) (s : WalkState)
    (p : String) : PushedAtMost cfg frame s (registerDir cfg frame s p) := by
  refine ⟨registerDir_maxDepthReached cfg frame s p, ?_⟩
  unfold registerDir
  simp only
  by_cases hd : frame.depth + 1 ≤ cfg.maxDepth
  · rw [if_pos hd]
    cases hget : mapGet s.dirStats p with
    | some a =>
      simp only
      by_cases hc : s.visitedDirs.contains p = true
      · rw [if_pos hc]
        exact Or.inl ⟨rfl, rfl⟩
      · rw [if_neg hc]
        exact Or.inr ⟨p, rfl, rfl, hd, fun h => hc ((contains_iff_mem _ _).2 h)⟩
    | none =>
      simp only
      by_cases hc : s.visitedDirs.contains p = true
      · rw [if_pos hc]
        exact Or.inl ⟨rfl, rfl⟩
      · rw [if_neg hc]
        exact Or.inr ⟨p, rfl, rfl, hd, fun h => hc ((contains_iff_mem _ _).2 h)⟩
  · rw [if_neg hd]
    cases hget : mapGet s.dirStats p with
    | some a => exact Or.inl ⟨rfl, rfl⟩
    | none => exact Or.inl ⟨rfl, rfl⟩

theorem registerDir_registers (cfg : ScanConfig) (frame : scanDirFrame) (s : WalkState)
    (p : String) :
    ∃ a, mapGet (registerDir cfg frame s p).dirStats p = some a ∧
      (mapGet s.dirStats p = none → a = ⟨p, frame.path, frame.depth + 1, 0, 0⟩) := by
  have key : ∀ s1 : WalkState, (if frame.depth + 1 ≤ cfg.maxDepth then
      if s1.visitedDirs.contains p = true then s1
      else { s1 with visitedDirs := p :: s1.visitedDirs
                     dirStack := ⟨p, frame.depth + 1⟩ :: s1.dirStack }
      else s1).dirStats = s1.dirStats := by
    intro s1
    split
    · split <;> rfl
    · rfl
  unfold registerDir
  simp only
  rw [key]
  cases hget : mapGet s.dirStats p with
  | some a =>
    simp only
    exact ⟨a, hget, fun h => absurd h (by simp)⟩
  | none =>
    simp only
    refine ⟨_, ?_, fun _ => rfl⟩
    rw [mapGet_mapSet, if_pos rfl]

theorem processEntry_pushes (env : ScanEnv) (cfg : ScanConfig) (frame : scanDirFrame)
    (s : WalkState) (entry : DirEntry) :
    PushedAtMost cfg frame s (processEntry env cfg frame s entry).1 := by
  apply processEntry_cases (fun r => PushedAtMost cfg frame s r.1)
  · intro _
    exact ⟨rfl, Or.inl ⟨rfl, rfl⟩⟩
  · intro _ _
    exact ⟨rfl, Or.inl ⟨rfl, rfl⟩⟩
  · intro _ _ e _
    exact ⟨rfl, Or.inl ⟨rfl, rfl⟩⟩
  · intro _ _ info _ _ _
    exact ⟨rfl, Or.inl ⟨rfl, rfl⟩⟩
  · intro _ _ target _ _
    exact registerDir_pushes cfg frame (enterEntry s) _
  · intro _ _ target _ _
    refine ⟨?_, Or.inl ⟨?_, ?_⟩⟩
    · rw [visitFile_maxDepthReached]
      rfl
    · rw [visitFile_dirStack]
      rfl
    · rw [visitFile_visitedDirs]
      rfl

theorem pushedAtMost_inv (cfg : ScanConfig) (frame : scanDirFrame) (s0 t u : WalkState)
    (rest : List scanDirFrame) (hpush : PushedAtMost cfg frame t u)
    (h : PushInv cfg t ∧ (∀ v ∈ s0.visitedDirs, v ∈ t.visitedDirs) ∧
      ∀ p ∈ stackPaths t, p ∈ rest.map scanDirFrame.path ∨ p ∉ s0.visitedDirs) :
    PushInv cfg u ∧ (∀ v ∈ s0.visitedDirs, v ∈ u.visitedDirs) ∧
      ∀ p ∈ stackPaths u, p ∈ rest.map scanDirFrame.path ∨ p ∉ s0.visitedDirs := by
  obtain ⟨⟨i1, i2, i3, i4⟩, hsub, hstack⟩ := h
  obtain ⟨hmax, hcase⟩ := hpush
  rcases hcase with ⟨e1, e2⟩ | ⟨p, e1, e2, hd, hnew⟩
  · refine ⟨⟨?_, ?_, ?_, ?_⟩, ?_, ?_⟩
    · rw [e2]
      exact i1
    · rw [e1, e2]
      exact i2
    · unfold stackPaths at i3 ⊢
      rw [e1]
      exact i3
    · rw [hmax]
      exact i4
    · rw [e2]
      exact hsub
    · unfold stackPaths at hstack ⊢
      rw [e1]
      exact hstack
  · have hnotstack : p ∉ stackPaths t := by
      intro hp
      unfold stackPaths at hp
      obtain ⟨f, hf, rfl⟩ := List.mem_map.1 hp
      exact hnew (i2 f hf).2
    refine ⟨⟨?_, ?_, ?_, ?_⟩, ?_, ?_⟩
    · rw [e2]
      exact List.nodup_cons.2 ⟨hnew, i1⟩
    · rw [e1, e2]
      intro f hf
      rcases List.mem_cons.1 hf with rfl | hf
      · exact ⟨hd, List.mem_cons_self _ _⟩
      · exact ⟨(i2 f hf).1, List.mem_cons_of_mem _ (i2 f hf).2⟩
    · unfold stackPaths at i3 hnotstack ⊢
      rw [e1, List.map_cons]
      exact List.nodup_cons.2 ⟨hnotstack, i3⟩
    · rw [hmax]
      exact i4
    · rw [e2]
      exact fun v hv => List.mem_cons_of_mem _ (hsub v hv)
    · unfold stackPaths at hstack ⊢
      rw [e1, List.map_cons]
      intro q hq
      rcases List.mem_cons.1 hq with rfl | hq
      · exact Or.inr (fun hin => hnew (hsub _ hin))
      · exact hstack q hq

theorem walkStep_pushInv (env : ScanEnv) (cfg : ScanConfig) (frame : scanDirFrame)
    (rest : List scanDirFrame) (s : WalkState) (hs : s.dirStack = frame :: rest)
    (h : PushInv cfg s) :
    PushInv cfg (walkStep env cfg frame rest s).1 ∧
    (env.expired s.clock = false →
      (∀ v ∈ s.visitedDirs, v ∈ (walkStep env cfg frame rest s).1.visitedDirs) ∧
      ∀ p ∈ stackPaths (walkStep env cfg frame rest s).1,
        p ∈ rest.map scanDirFrame.path ∨ p ∉ s.visitedDirs) := by
  obtain ⟨i1, i2, i3, i4⟩ := h
  have hframe := i2 frame (by rw [hs]; exact List.mem_cons_self _ _)
  have hrest : ∀ f ∈ rest, f.depth ≤ cfg.maxDepth ∧ f.path ∈ s.visitedDirs :=
    fun f hf => i2 f (by rw [hs]; exact List.mem_cons_of_mem _ hf)
  have hrestnd : (rest.map scanDirFrame.path).Nodup := by
    unfold stackPaths at i3
    rw [hs, List.map_cons] at i3
    exact (List.nodup_cons.1 i3).2
  apply walkStep_cases (fun r => PushInv cfg r.1 ∧
    (env.expired s.clock = false →
      (∀ v ∈ s.visitedDirs, v ∈ r.1.visitedDirs) ∧
      ∀ p ∈ stackPaths r.1, p ∈ rest.map scanDirFrame.path ∨ p ∉ s.visitedDirs))
  · intro hex
    refine ⟨⟨i1, i2, i3, i4⟩, fun hno => ?_⟩
    rw [hex] at hno
    exact absurd hno (by simp)
  · intro _ e _
    refine ⟨⟨i1, hrest, hrestnd, i4⟩, fun _ => ⟨fun v hv => hv, fun p hp => Or.inl hp⟩⟩
  · intro _ entries _
    have hstart : PushInv cfg (openDir frame (popFrame s rest)) ∧
        (∀ v ∈ s.visitedDirs, v ∈ (openDir frame (popFrame s rest)).visitedDirs) ∧
        ∀ p ∈ stackPaths (openDir frame (popFrame s rest)),
          p ∈ rest.map scanDirFrame.path ∨ p ∉ s.visitedDirs := by
      refine ⟨⟨i1, hrest, hrestnd, ?_⟩, fun v hv => hv, fun p hp => Or.inl hp⟩
      simp only [openDir, popFrame]
      split
      · exact hframe.1
      · exact i4
    have hloop := processEntries_induct
      (fun _ t => PushInv cfg t ∧ (∀ v ∈ s.visitedDirs, v ∈ t.visitedDirs) ∧
        ∀ p ∈ stackPaths t, p ∈ rest.map scanDirFrame.path ∨ p ∉ s.visitedDirs)
      (fun t => PushInv cfg t ∧ (∀ v ∈ s.visitedDirs, v ∈ t.visitedDirs) ∧
        ∀ p ∈ stackPaths t, p ∈ rest.map scanDirFrame.path ∨ p ∉ s.visitedDirs)
      env cfg frame
      (fun entry _ t ht =>
        ⟨fun _ => pushedAtMost_inv cfg frame s t _ rest (processEntry_pushes env cfg frame t entry) ht,
         fun _ => pushedAtMost_inv cfg frame s t _ rest (processEntry_pushes env cfg frame t entry) ht⟩)
      entries _ hstart
    cases hflag : (processEntries env cfg frame entries (openDir frame (popFrame s rest))).2 with
    | false => exact ⟨(hloop.1 hflag).1, fun _ => (hloop.1 hflag).2⟩
    | true => exact ⟨(hloop.2 hflag).1, fun _ => (hloop.2 hflag).2⟩

theorem expandedFrames_spec (env : ScanEnv) (cfg : ScanConfig) (fuel : Nat) (s : WalkState)
    (h : PushInv cfg s) :
    ((expandedFrames env cfg fuel s).map scanDirFrame.path).Nodup ∧
    ∀ f ∈ expandedFrames env cfg fuel s, f.depth ≤ cfg.maxDepth ∧
      (f.path ∈ stackPaths s ∨ f.path ∉ s.visitedDirs) := by
  induction fuel generalizing s with
  | zero =>
    unfold expandedFrames
    exact ⟨List.nodup_nil, fun f hf => absurd hf (List.not_mem_nil _)⟩
  | succ fuel ih =>
    unfold expandedFrames
    cases hs : s.dirStack with
    | nil => exact ⟨List.nodup_nil, fun f hf => absurd hf (List.not_mem_nil _)⟩
    | cons frame rest =>
      simp only
      by_cases hex : env.expired s.clock = true
      · rw [if_pos hex]
        exact ⟨List.nodup_nil, fun f hf => absurd hf (List.not_mem_nil _)⟩
      · rw [if_neg hex]
        have hex2 : env.expired s.clock = false := by simpa using hex
        obtain ⟨i1, i2, i3, i4⟩ := h
        have hframe := i2 frame (by rw [hs]; exact List.mem_cons_self _ _)
        have hfs : frame.path ∈ stackPaths s := by
          unfold stackPaths
          rw [hs]
          exact List.mem_cons_self _ _
        have hnotrest : frame.path ∉ rest.map scanDirFrame.path := by
          unfold stackPaths at i3
          rw [hs, List.map_cons] at i3
          exact (List.nodup_cons.1 i3).1
        obtain ⟨hinv, hrel⟩ := walkStep_pushInv env cfg frame rest s hs ⟨i1, i2, i3, i4⟩
        obtain ⟨hsub, hstack⟩ := hrel hex2
        by_cases hstop : (walkStep env cfg frame rest s).2 = true
        · rw [if_pos hstop]
          refine ⟨List.nodup_singleton _, ?_⟩
          intro f hf
          rw [List.mem_singleton] at hf
          subst hf
          exact ⟨hframe.1, Or.inl hfs⟩
        · rw [if_neg hstop]
          obtain ⟨hnd, hall⟩ := ih _ hinv
          have hlater : ∀ f ∈ expandedFrames env cfg fuel (walkStep env cfg frame rest s).1,
              f.path ∈ rest.map scanDirFrame.path ∨ f.path ∉ s.visitedDirs := by
            intro f hf
            rcases (hall f hf).2 with h1 | h1
            · exact hstack _ h1
            · exact Or.inr (fun hin => h1 (hsub _ hin))
          constructor
          · rw [List.map_cons]
            refine List.nodup_cons.2 ⟨?_, hnd⟩
            intro hin
            obtain ⟨f, hf, hfp⟩ := List.mem_map.1 hin
            rcases hlater f hf with h1 | h1
            · rw [hfp] at h1
              exact hnotrest h1
            · rw [hfp] at h1
              exact h1 hframe.2
          · intro f hf
            rcases List.mem_cons.1 hf with rfl | hf
            · exact ⟨hframe.1, Or.inl hfs⟩
            · refine ⟨(hall f hf).1, ?_⟩
              rcases hlater f hf with h1 | h1
              · left
                unfold stackPaths
                rw [hs, List.map_cons]
                exact List.mem_cons_of_mem _ h1
              · exact Or.inr h1

theorem mainWalk_pushInv (env : ScanEnv) (cfg : ScanConfig) (cleanRoot : String)
    (hdepth : 0 ≤ cfg.maxDepth) :
    PushInv cfg (initialState cleanRoot) ∧
    ∀ w, mainWalk env cfg cleanRoot = some w → PushInv cfg w := by
  have hinit : PushInv cfg (initialState cleanRoot) := by
    refine ⟨List.nodup_singleton _, ?_, List.nodup_singleton _, hdepth⟩
    intro f hf
    simp only [initialState, List.mem_singleton] at hf
    subst hf
    exact ⟨hdepth, List.mem_singleton.2 rfl⟩
  refine ⟨hinit, ?_⟩
  intro w hw
  unfold mainWalk at hw
  exact walkLoop_induct (PushInv cfg) (PushInv cfg) env cfg
    (fun frame rest s hi hs =>
      ⟨fun _ => (walkStep_pushInv env cfg frame rest s hs hi).1,
       fun _ => (walkStep_pushInv env cfg frame rest s hs hi).1⟩)
    (fun s hi _ => hi) _ _ w hinit hw

/-- C19, as amended: an iteration of the inner loop pushes at most one frame, one level below
the frame being listed, and only if that depth is within maxDepth and the path was not
visited before, recording the path as visited in the same step; a directory beyond the depth
bound is registered as an aggregate and not pushed.  Hence in the whole traversal no path is recorded
(pushed) twice, no path is expanded twice, every expanded frame has depth at most maxDepth,
and the reported maxDepthReached is at most maxDepth.  A directory is told from another by
its path alone: one that followed links make reachable under several paths is expanded once
under each of them. -/
theorem walk_depth_and_visited (env : ScanEnv) (cfg : ScanConfig) (cleanRoot : String)
    (hdepth : 0 ≤ cfg.maxDepth) :
    (∀ (frame : scanDirFrame) (s : WalkState) (entry : DirEntry),
      PushedAtMost cfg frame s (processEntry env cfg frame s entry).1) ∧
    (∀ (frame : scanDirFrame) (s : WalkState) (p : String),
      cfg.maxDepth < frame.depth + 1 →
      (registerDir cfg frame s p).dirStack = s.dirStack ∧
      ∃ a, mapGet (registerDir cfg frame s p).dirStats p = some a ∧
        (mapGet s.dirStats p = none → a = ⟨p, frame.path, frame.depth + 1, 0, 0⟩)) ∧
    ∃ w resp, mainWalk env cfg cleanRoot = some w ∧
      analyzeFrom env cfg cleanRoot = some resp ∧
      w.visitedDirs.Nodup ∧
      ((expandedFrames env cfg (cfg.maxEntries.toNat + 3) (initialState cleanRoot)).map
        scanDirFrame.path).Nodup ∧
      (∀ f ∈ expandedFrames env cfg (cfg.maxEntries.toNat + 3) (initialState cleanRoot),
        f.depth ≤ cfg.maxDepth) ∧
      w.maxDepthReached ≤ cfg.maxDepth ∧ resp.Summary.MaxDepthReached ≤ cfg.maxDepth := by
  refine ⟨processEntry_pushes env cfg, ?_, ?_⟩
  · intro frame s p hdeep
    refine ⟨?_, registerDir_registers cfg frame s p⟩
    rcases (registerDir_pushes cfg frame s p).2 with h | ⟨q, _, _, hd, _⟩
    · exact h.1
    · omega
  · obtain ⟨w, t, resp, hw, hk, hresp, _, _, hsum, _⟩ := analyzeFrom_returns env cfg cleanRoot
    obtain ⟨hinit, hall⟩ := mainWalk_pushInv env cfg cleanRoot hdepth
    obtain ⟨i1, _, _, i4⟩ := hall w hw
    obtain ⟨e1, e2⟩ := expandedFrames_spec env cfg (cfg.maxEntries.toNat + 3) _ hinit
    refine ⟨w, resp, hw, hresp, i1, e1, fun f hf => (e2 f hf).1, i4, ?_⟩
    rw [hsum]
    simp only
    rw [hk.2.2.2.1]
    exact i4

/-- Witness for C19: the sample tree scanned one level deep.  The directories `/data` and
`/data/a` are expanded; `/data/a/b`, at depth 2, is registered and not expanded. -/
theorem walk_depth_and_visited_witness :
    (expandedFrames sampleEnv (sampleConfig 1 1000) 1003 (initialState "/data")) =
      [⟨"/data", 0⟩, ⟨"/data/a", 1⟩] ∧
    (mainWalk sampleEnv (sampleConfig 1 1000) "/data").map
      (fun w => (w.visitedDirs, w.maxDepthReached,
        w.dirStats.map (fun e => (e.1, e.2.Depth)))) =
      some (["/data/a", "/data"], 1, [("/data", 0), ("/data/a", 1), ("/data/a/b", 2)]) ∧
    ∃ w resp, mainWalk sampleEnv (sampleConfig 1 1000) "/data" = some w ∧
      analyzeFrom sampleEnv (sampleConfig 1 1000) "/data" = some resp ∧
      w.visitedDirs.Nodup ∧ resp.Summary.MaxDepthReached ≤ 1 := by
  refine ⟨by decide, by decide, ?_⟩
  obtain ⟨w, resp, h1, h2, h3, _, _, _, h7⟩ :=
    (walk_depth_and_visited sampleEnv (sampleConfig 1 1000) "/data" (by decide)).2.2
  exact ⟨w, resp, h1, h2, h3, h7⟩

/-- C19, the claim as stated fails: the directory `/s` holds a link to itself and links are
followed.  The traversal never pushes a path twice, but the four paths it expands all name
the directory `/s`: it is listed four times, its one file of 6 bytes is counted four times
(4 directories, 4 files and 24 bytes in the summary of a scan that is not partial) and
reported as a group of four duplicates. -/
theorem symlink_loop_expands_directory_again :
    (expandedFrames loopEnv loopConfig 1003 (initialState "/s")).map scanDirFrame.path =
      ["/s", "/s/loop", "/s/loop/loop", "/s/loop/loop/loop"] ∧
    (analyzeFrom loopEnv loopConfig "/s").map (fun r => (r.Partial, r.Summary)) =
      some (false, ⟨4, 4, 24, 3, 0⟩) ∧
    (analyzeFrom loopEnv loopConfig "/s").map
        (fun r => r.DuplicateCandidates.map (fun c => c.Paths)) =
      some [["/s/f", "/s/loop/f", "/s/loop/loop/f", "/s/loop/loop/loop/f"]] := by
  refine ⟨?_, ?_, ?_⟩
  · decide
  · decide
  · decide

/-! ## The duplicate key is injective -/

/-- C23: the key built by `addDuplicateCandidate` (decimal size, "|", normalized base name) is
injective on positive sizes: equal keys come from equal sizes and equal names, whatever the
names hold. -/
theorem duplicate_key_injective (s1 s2 : Int) (b1 b2 : String) (h1 : 0 < s1) (h2 : 0 < s2)
    (h : duplicateKey s1 b1 = duplicateKey s2 b2) : s1 = s2 ∧ b1 = b2 :=
  duplicateKey_inj s1 s2 b1 b2 h1 h2 h

/-- Witness for C23: a name that holds a bar and digits; and the keys of size 1 with name
`2|x` and of size 12 with name `x` differ. -/
theorem duplicate_key_injective_witness :
    ((12 : Int) = 12 ∧ "3|4.txt" = "3|4.txt") ∧
    duplicateKey 1 "2|x" = "1|2|x" ∧ duplicateKey 12 "x" = "12|x" :=
  ⟨duplicate_key_injective 12 12 "3|4.txt" "3|4.txt" (by decide) (by decide) rfl,
   by decide, by decide⟩

/-! ## The Homebrew cache fragment -/

theorem infix_of_contains (n frag : String) (h : stringsContains n frag = true) :
    frag.data <:+: n.data := (containsChars_iff _ _).1 h

/-- C24, as the code behaves: the fragment "/library/caches/homebrew/" of the package-cache
case is never reached.  A path whose normalized form contains it also contains
"/library/caches/", which the browser-cache case tests before, so the result is "temp_files"
or "browser_cache" and never "package_cache". -/
theorem homebrew_fragment_shadowed (path : String)
    (h : stringsContains (normalizePathForChecks path) "/library/caches/homebrew/" = true) :
    classifyCleanupCategory path = "temp_files" ∨
    classifyCleanupCategory path = "browser_cache" := by
  have h1 : "/library/caches/".data <:+: (normalizePathForChecks path).data := by
    refine List.IsInfix.trans ?_ (infix_of_contains _ _ h)
    exact ⟨[], "homebrew/".data, by decide⟩
  have h2 : stringsContains (normalizePathForChecks path) "/library/caches/" = true :=
    (containsChars_iff _ _).2 h1
  unfold classifyCleanupCategory
  simp only
  split
  · exact Or.inl rfl
  · rw [if_pos (by simp [h2])]
    exact Or.inr rfl

/-- The failing input of C24: a file in the Homebrew download cache of a user has no
temp-files fragment in its path and is classified "browser_cache". -/
theorem homebrew_fragment_shadowed_witness :
    stringsContains (normalizePathForChecks
      "/Users/bob/Library/Caches/Homebrew/downloads/wget-1.21.tar.gz")
      "/library/caches/homebrew/" = true ∧
    classifyCleanupCategory "/Users/bob/Library/Caches/Homebrew/downloads/wget-1.21.tar.gz" =
      "browser_cache" := by
  have h := homebrew_fragment_shadowed
    "/Users/bob/Library/Caches/Homebrew/downloads/wget-1.21.tar.gz" (by decide)
  rcases h with h | h
  · exact absurd h (by decide)
  · exact ⟨by decide, h⟩

/-! ## Homebrew patch identifiers -/

theorem caskPatchID_data (name : String) :
    (caskPatchID name).data = brewCaskPrefix.data ++ name.data := by
  unfold caskPatchID
  exact String.data_append _ _

theorem parseBrewID_cask (name : String) : parseBrewID (caskPatchID name) = (name, true) := by
  have hp : stringsHasPrefix (caskPatchID name) brewCaskPrefix = true := by
    unfold stringsHasPrefix
    rw [caskPatchID_data, List.isPrefixOf_iff_prefix]
    exact List.prefix_append _ _
  unfold parseBrewID stringsTrimPrefix
  rw [if_pos hp, if_pos hp]
  rfl

theorem parseBrewID_plain (patchID : String)
    (h : stringsHasPrefix patchID brewCaskPrefix = false) :
    parseBrewID patchID = (patchID, false) := by
  unfold parseBrewID
  rw [if_neg (by rw [h]; simp)]

/-- C25: `parseBrewID` gives (name, true) for the ID `Scan` builds for a cask, "cask:"
followed by the name, and (ID, false) for every ID that does not start with "cask:"; so
`Install` and `Uninstall` call brew with the name `Scan` reported, with `--cask` for the ID
of a cask and without it for an ID that does not start with "cask:". -/
theorem parseBrewID_spec :
    (∀ name : String, parseBrewID (caskPatchID name) = (name, true)) ∧
    (∀ patchID : String, stringsHasPrefix patchID brewCaskPrefix = false →
      parseBrewID patchID = (patchID, false)) ∧
    (∀ name : String, installArgs (caskPatchID name) = ["upgrade", "--cask", name] ∧
      uninstallArgs (caskPatchID name) = ["uninstall", "--cask", name]) ∧
    (∀ name : String, stringsHasPrefix name brewCaskPrefix = false →
      installArgs name = ["upgrade", name] ∧ uninstallArgs name = ["uninstall", name]) := by
  refine ⟨parseBrewID_cask, parseBrewID_plain, ?_, ?_⟩
  · intro name
    unfold installArgs uninstallArgs
    rw [parseBrewID_cask]
    exact ⟨rfl, rfl⟩
  · intro name h
    unfold installArgs uninstallArgs
    rw [parseBrewID_plain name h]
    exact ⟨rfl, rfl⟩

/-- Witness for C25: the cask `firefox` and the formula `wget`. -/
theorem parseBrewID_spec_witness :
    caskPatchID "firefox" = "cask:firefox" ∧
    installArgs "cask:firefox" = ["upgrade", "--cask", "firefox"] ∧
    installArgs "wget" = ["upgrade", "wget"] :=
  ⟨by decide, (parseBrewID_spec.2.2.1 "firefox").1, (parseBrewID_spec.2.2.2 "wget" (by decide)).1⟩

/-! ## Normalized names of copies -/

theorem replaceAllChars_skip_all (old new : List Char) (l : List Char) (skip : Nat)
    (h : l.length ≤ skip) : replaceAllChars old new skip l = [] := by
  induction l generalizing skip with
  | nil => cases skip <;> rfl
  | cons c cs ih =>
    cases skip with
    | zero => simp at h
    | succ k =>
      rw [replaceAllChars]
      exact ih k (by simpa using h)

theorem replaceAllChars_zero_cons (old new : List Char) (c : Char) (cs : List Char) :
    replaceAllChars old new 0 (c :: cs) =
      if old.isPrefixOf (c :: cs) then new ++ replaceAllChars old new (old.length - 1) cs
      else c :: replaceAllChars old new 0 cs := by
  rw [replaceAllChars]

theorem replaceAllChars_succ_cons (old new : List Char) (k : Nat) (c : Char)
    (cs : List Char) :
    replaceAllChars old new (k + 1) (c :: cs) = replaceAllChars old new k cs := by
  rw [replaceAllChars]

/-- An occurrence of `p` that starts in `l` and is not inside `l` ends in what follows. -/
theorem prefix_straddle (p q l : List Char) (h : p <+: l ++ q) (hn : ¬ p <+: l) :
    l.length < p.length ∧ p.drop l.length = q.take (p.length - l.length) := by
  have hlt : l.length < p.length := by
    by_contra hge
    apply hn
    rw [List.prefix_iff_eq_take] at h ⊢
    rw [List.take_append_of_le_length (by omega)] at h
    exact h
  refine ⟨hlt, ?_⟩
  rw [List.prefix_iff_eq_take, List.take_append_eq_append_take,
    List.take_of_length_le (le_of_lt hlt)] at h
  conv_lhs => rw [h]
  rw [List.drop_left]

theorem replaceAllChars_append_self (p : List Char) (hp : p ≠ [])
    (hb : ∀ k, k < p.length → 0 < k → p.drop k ≠ p.take (p.length - k))
    (l : List Char) (skip : Nat) (hs : skip ≤ l.length) :
    replaceAllChars p [] skip (l ++ p) = replaceAllChars p [] skip l := by
  induction l generalizing skip with
  | nil =>
    have h0 : skip = 0 := by simpa using hs
    subst h0
    cases p with
    | nil => exact absurd rfl hp
    | cons c cs =>
      rw [List.nil_append, replaceAllChars_zero_cons, if_pos (by simp), List.nil_append]
      exact replaceAllChars_skip_all _ _ _ _ (by simp)
  | cons c cs ih =>
    cases skip with
    | succ k =>
      rw [List.cons_append, replaceAllChars_succ_cons, replaceAllChars_succ_cons]
      exact ih k (by simpa using hs)
    | zero =>
      rw [List.cons_append, replaceAllChars_zero_cons, replaceAllChars_zero_cons]
      by_cases hin : p.isPrefixOf (c :: cs) = true
      · have hin2 : p.isPrefixOf (c :: (cs ++ p)) = true := by
          rw [List.isPrefixOf_iff_prefix] at hin ⊢
          exact hin.trans (List.prefix_append (c :: cs) p)
        rw [if_pos hin, if_pos hin2]
        congr 1
        apply ih
        rw [List.isPrefixOf_iff_prefix] at hin
        have := hin.length_le
        have hpos : 0 < p.length := List.length_pos.2 hp
        simp only [List.length_cons] at this
        omega
      · have hin2 : ¬ p.isPrefixOf (c :: (cs ++ p)) = true := by
          intro h2
          rw [List.isPrefixOf_iff_prefix] at h2 hin
          obtain ⟨h3, h4⟩ := prefix_straddle p p (c :: cs) h2 hin
          exact hb _ h3 (by simp) h4
        rw [if_neg hin, if_neg hin2]
        congr 1
        exact ih 0 (Nat.zero_le _)

theorem replaceAllChars_append_other (p q : List Char) (hp : p ≠ [])
    (hq : replaceAllChars p [] 0 q = q)
    (hsep : ∀ k, k < p.length → p.drop k ≠ q.take (p.length - k))
    (l : List Char) (skip : Nat) (hs : skip ≤ l.length) :
    replaceAllChars p [] skip (l ++ q) = replaceAllChars p [] skip l ++ q := by
  induction l generalizing skip with
  | nil =>
    have h0 : skip = 0 := by simpa using hs
    subst h0
    rw [List.nil_append, hq]
    rfl
  | cons c cs ih =>
    cases skip with
    | succ k =>
      rw [List.cons_append, replaceAllChars_succ_cons, replaceAllChars_succ_cons]
      exact ih k (by simpa using hs)
    | zero =>
      rw [List.cons_append, replaceAllChars_zero_cons, replaceAllChars_zero_cons]
      by_cases hin : p.isPrefixOf (c :: cs) = true
      · have hin2 : p.isPrefixOf (c :: (cs ++ q)) = true := by
          rw [List.isPrefixOf_iff_prefix] at hin ⊢
          exact hin.trans (List.prefix_append (c :: cs) q)
        rw [if_pos hin, if_pos hin2, List.nil_append, List.nil_append]
        apply ih
        rw [List.isPrefixOf_iff_prefix] at hin
        have := hin.length_le
        have hpos : 0 < p.length := List.length_pos.2 hp
        simp only [List.length_cons] at this
        omega
      · have hin2 : ¬ p.isPrefixOf (c :: (cs ++ q)) = true := by
          intro h2
          rw [List.isPrefixOf_iff_prefix] at h2 hin
          obtain ⟨h3, h4⟩ := prefix_straddle p q (c :: cs) h2 hin
          exact hsep _ h3 h4
        rw [if_neg hin, if_neg hin2, List.cons_append]
        congr 1
        exact ih 0 (Nat.zero_le _)

theorem dropWhile_head (f : Char → Bool) (c : Char) (cs : List Char)
    (h : (c :: cs).dropWhile f = c :: cs) : f c = false := by
  cases hf : f c with
  | false => rfl
  | true =>
    rw [List.dropWhile_cons_of_pos hf] at h
    have := (List.dropWhile_suffix f (l := cs)).length_le
    rw [h] at this
    simp at this

theorem dropWhile_of_length (f : Char → Bool) (l : List Char)
    (h : l.length ≤ (l.dropWhile f).length) : l.dropWhile f = l :=
  (List.dropWhile_suffix f).eq_of_length (le_antisymm (List.dropWhile_suffix f).length_le h)

/-- A string that `strings.TrimSpace` leaves as it is has no white space at either end. -/
theorem trim_fixed (x : List Char)
    (h : ((x.dropWhile unicodeIsSpace).reverse.dropWhile unicodeIsSpace).reverse = x) :
    x.dropWhile unicodeIsSpace = x ∧ x.reverse.dropWhile unicodeIsSpace = x.reverse := by
  have hlen := congrArg List.length h
  rw [List.length_reverse] at hlen
  have h1 := (List.dropWhile_suffix unicodeIsSpace
    (l := (x.dropWhile unicodeIsSpace).reverse)).length_le
  rw [List.length_reverse] at h1
  have h2 := (List.dropWhile_suffix unicodeIsSpace (l := x)).length_le
  have e1 : x.dropWhile unicodeIsSpace = x := dropWhile_of_length _ _ (by omega)
  refine ⟨e1, ?_⟩
  rw [e1] at hlen
  exact dropWhile_of_length _ _ (by rw [hlen, List.length_reverse])

theorem dropWhile_map_toLower (x : List Char) :
    (x.map unicodeToLower).dropWhile unicodeIsSpace =
      (x.dropWhile unicodeIsSpace).map unicodeToLower := by
  induction x with
  | nil => rfl
  | cons c cs ih =>
    rw [List.map_cons]
    by_cases hc : unicodeIsSpace c = true
    · rw [List.dropWhile_cons_of_pos (by rw [isSpace_unicodeToLower]; exact hc),
        List.dropWhile_cons_of_pos hc, ih]
    · rw [List.dropWhile_cons_of_neg (by rw [isSpace_unicodeToLower]; exact hc),
        List.dropWhile_cons_of_neg hc, List.map_cons]

/-- Trimming leaves `x ++ s` as it is when `x` is not empty and has no white space in front
and `s` is not empty and has none at its end. -/
theorem trim_append (x s : List Char) (hx : x ≠ [])
    (h1 : x.dropWhile unicodeIsSpace = x) (hs : s ≠ [])
    (h2 : s.reverse.dropWhile unicodeIsSpace = s.reverse) :
    (((x ++ s).dropWhile unicodeIsSpace).reverse.dropWhile unicodeIsSpace).reverse = x ++ s := by
  have e1 : (x ++ s).dropWhile unicodeIsSpace = x ++ s := by
    cases x with
    | nil => exact absurd rfl hx
    | cons c cs =>
      rw [List.cons_append, List.dropWhile_cons_of_neg (by
        rw [dropWhile_head _ c cs h1]
        simp)]
  rw [e1, List.reverse_append]
  have hsr : s.reverse ≠ [] := by simpa using hs
  cases hrev : s.reverse with
  | nil => exact absurd hrev hsr
  | cons c cs =>
    rw [hrev] at h2
    rw [List.cons_append, List.dropWhile_cons_of_neg (by
      rw [dropWhile_head _ c cs h2]
      simp), ← List.cons_append, ← hrev, ← List.reverse_append, List.reverse_reverse]

theorem normalizeDuplicateName_data (name : String) :
    (normalizeDuplicateName name).data =
      replaceAllChars " - copy".data [] 0 (replaceAllChars " (copy)".data [] 0
        ((((name.data.map unicodeToLower).dropWhile unicodeIsSpace).reverse.dropWhile
          unicodeIsSpace).reverse)) := rfl

/-- The normalized name of lower-case characters `x` without outer white space, followed by
nothing or by one of the two copy suffixes. -/
theorem normalize_chars (x s : List Char) (hx : x ≠ [])
    (h1 : x.dropWhile unicodeIsSpace = x)
    (h2 : x.reverse.dropWhile unicodeIsSpace = x.reverse)
    (hs : s = [] ∨ s = " (copy)".data ∨ s = " - copy".data) :
    replaceAllChars " - copy".data [] 0 (replaceAllChars " (copy)".data [] 0
      ((((x ++ s).dropWhile unicodeIsSpace).reverse.dropWhile unicodeIsSpace).reverse)) =
    replaceAllChars " - copy".data [] 0 (replaceAllChars " (copy)".data [] 0 x) := by
  rcases hs with rfl | rfl | rfl
  · rw [List.append_nil, h1, h2, List.reverse_reverse]
  · rw [trim_append x _ hx h1 (by decide) (by decide)]
    rw [replaceAllChars_append_self _ (by decide) (by decide) x 0 (Nat.zero_le _)]
  · rw [trim_append x _ hx h1 (by decide) (by decide)]
    rw [replaceAllChars_append_other _ _ (by decide) (by decide) (by decide) x 0 (Nat.zero_le _)]
    rw [replaceAllChars_append_self _ (by decide) (by decide) _ 0 (Nat.zero_le _)]

theorem stringsToLower_idem (s : String) :
    stringsToLower (stringsToLower s) = stringsToLower s := by
  apply (string_eq_iff_data _ _).2
  show (s.data.map unicodeToLower).map unicodeToLower = s.data.map unicodeToLower
  rw [List.map_map]
  apply List.map_congr_left
  intro c _
  exact unicodeToLower_idem c

/-- C21, as amended: for a non-empty name `n` without leading or trailing white space
(`strings.TrimSpace` leaves it as it is), `normalizeDuplicateName` gives the same result for
`n`, for `n` followed by " (copy)", for `n` followed by " - copy", for the lower-case form of
`n` and for every name with the same lower-case form (`strings.ToLower`) as `n`; and so for
every such name followed by nothing or by a re-casing of one of the two suffixes. -/
theorem normalizeDuplicateName_variants (n : String) (hne : n ≠ "")
    (htrim : stringsTrimSpace n = n) :
    normalizeDuplicateName (n ++ " (copy)") = normalizeDuplicateName n ∧
    normalizeDuplicateName (n ++ " - copy") = normalizeDuplicateName n ∧
    normalizeDuplicateName (stringsToLower n) = normalizeDuplicateName n ∧
    (∀ m : String, stringsToLower m = stringsToLower n →
      normalizeDuplicateName m = normalizeDuplicateName n) ∧
    (∀ m s : String, stringsToLower m = stringsToLower n →
      stringsToLower s = "" ∨ stringsToLower s = " (copy)" ∨ stringsToLower s = " - copy" →
      normalizeDuplicateName (m ++ s) = normalizeDuplicateName n) := by
  have hx : n.data.map unicodeToLower ≠ [] := by
    intro h
    apply hne
    apply (string_eq_iff_data _ _).2
    exact List.map_eq_nil_iff.1 h
  obtain ⟨t1, t2⟩ := trim_fixed n.data (congrArg String.data htrim)
  have h1 : (n.data.map unicodeToLower).dropWhile unicodeIsSpace = n.data.map unicodeToLower := by
    rw [dropWhile_map_toLower, t1]
  have h2 : (n.data.map unicodeToLower).reverse.dropWhile unicodeIsSpace =
      (n.data.map unicodeToLower).reverse := by
    rw [← List.map_reverse, dropWhile_map_toLower, t2]
  have hn : (normalizeDuplicateName n).data =
      replaceAllChars " - copy".data [] 0 (replaceAllChars " (copy)".data [] 0
        (n.data.map unicodeToLower)) := by
    rw [normalizeDuplicateName_data, h1, h2, List.reverse_reverse]
  have key : ∀ m s : String, stringsToLower m = stringsToLower n →
      stringsToLower s = "" ∨ stringsToLower s = " (copy)" ∨ stringsToLower s = " - copy" →
      normalizeDuplicateName (m ++ s) = normalizeDuplicateName n := by
    intro m s hm hs
    apply (string_eq_iff_data _ _).2
    have em : m.data.map unicodeToLower = n.data.map unicodeToLower := congrArg String.data hm
    rw [hn, normalizeDuplicateName_data, String.data_append, List.map_append, em]
    apply normalize_chars _ _ hx h1 h2
    rcases hs with hs | hs | hs
    · exact Or.inl (congrArg String.data hs)
    · exact Or.inr (Or.inl (congrArg String.data hs))
    · exact Or.inr (Or.inr (congrArg String.data hs))
  have one : ∀ m : String, stringsToLower m = stringsToLower n →
      normalizeDuplicateName m = normalizeDuplicateName n := by
    intro m hm
    have := key m "" hm (Or.inl (by decide))
    rw [String.append_empty] at this
    exact this
  exact ⟨key n " (copy)" rfl (Or.inr (Or.inl (by decide))),
    key n " - copy" rfl (Or.inr (Or.inr (by decide))),
    one (stringsToLower n) (stringsToLower_idem n), one, key⟩

/-- Witness for C21: `Report.PDF` and an upper-case copy of it; `ÉCOLE.txt` and `école.txt`. -/
theorem normalizeDuplicateName_variants_witness :
    normalizeDuplicateName ("REPORT.pdf" ++ " - Copy") = normalizeDuplicateName "Report.PDF" ∧
    normalizeDuplicateName "Report.PDF" = "report.pdf" ∧
    normalizeDuplicateName "ÉCOLE.txt" = normalizeDuplicateName "école.txt" ∧
    normalizeDuplicateName "ÉCOLE.txt" = "école.txt" :=
  ⟨(normalizeDuplicateName_variants "Report.PDF" (by decide) (by decide)).2.2.2.2
    "REPORT.pdf" " - Copy" (by decide) (Or.inr (Or.inr (by decide))), by decide,
   (normalizeDuplicateName_variants "école.txt" (by decide) (by decide)).2.2.2.1
    "ÉCOLE.txt" (by decide), by decide⟩

/-- C21, the claim as stated fails: two names and their upper-case spellings
(`strings.ToUpper` gives `ΟΔΟΣ.TXT` for `οδος.txt` and `IŞIK.TXT` for `ışık.txt`).  The
capital sigma has the lower-case form `σ`, not the final sigma `ς`, and the capital `I` has
the lower-case form `i`, not the dotless `ı`; so the two spellings of each name, which
differ only by letter case, are normalized to different strings. -/
theorem upper_case_spelling_normalized_apart :
    "οδος.txt" ≠ "" ∧ stringsTrimSpace "οδος.txt" = "οδος.txt" ∧
    normalizeDuplicateName "οδος.txt" = "οδος.txt" ∧
    normalizeDuplicateName "ΟΔΟΣ.TXT" = "οδοσ.txt" ∧
    normalizeDuplicateName "ΟΔΟΣ.TXT" ≠ normalizeDuplicateName "οδος.txt" ∧
    normalizeDuplicateName "ışık.txt" = "ışık.txt" ∧
    normalizeDuplicateName "IŞIK.TXT" = "işik.txt" := by
  decide

/-! ## The registered directories form a tree: proofs -/

theorem dirTree_sameShape (root : String) (m m2 : List (String × fsDirAggregate))
    (stack : List scanDirFrame) (h : DirTree root m stack) (hs : SameShape m m2) :
    DirTree root m2 stack := by
  obtain ⟨hkeys, hback, hfwd⟩ := hs
  refine ⟨?_, ?_, ?_, ?_, ?_⟩
  · rw [hkeys]
    exact h.keysNodup
  · obtain ⟨a, ha, hp⟩ := h.rootIn
    obtain ⟨a2, ha2, _, e2, _⟩ := hfwd root a ha
    exact ⟨a2, ha2, e2.trans hp⟩
  · intro k a2 hk
    obtain ⟨a, ha, e1, _, _⟩ := hback k a2 hk
    obtain ⟨w1, w2, w3⟩ := h.wf k a ha
    exact ⟨e1.trans w1, w2, w3⟩
  · intro k a2 hk hne
    obtain ⟨a, ha, _, e2, e3⟩ := hback k a2 hk
    obtain ⟨pa, name, p1, p2, p3, p4⟩ := h.parent k a ha hne
    obtain ⟨pa2, q1, _, _, q4⟩ := hfwd _ pa p1
    refine ⟨pa2, name, ?_, ?_, p3, ?_⟩
    · rw [e2]
      exact q1
    · rw [e3, q4]
      exact p2
    · rw [e2]
      exact p4
  · intro f hf
    obtain ⟨a, ha, hd⟩ := h.frames f hf
    obtain ⟨a2, q1, _, _, q4⟩ := hfwd _ a ha
    exact ⟨a2, q1, q4.trans hd⟩

theorem sameShape_mapSet (m : List (String × fsDirAggregate)) (k : String)
    (a v : fsDirAggregate) (hnd : (m.map Prod.fst).Nodup) (hk : (k, a) ∈ m)
    (h1 : v.Path = a.Path) (h2 : v.Parent = a.Parent) (h3 : v.Depth = a.Depth) :
    SameShape m (mapSet m k v) := by
  refine ⟨mapSet_present_keys m k v a hk, ?_, ?_⟩
  · intro k2 a2 hmem
    rcases (mem_mapSet_present m k v a hk k2 a2).1 hmem with ⟨rfl, rfl⟩ | ⟨_, hold⟩
    · exact ⟨a, hk, h1, h2, h3⟩
    · exact ⟨a2, hold, rfl, rfl, rfl⟩
  · intro k2 a2 hmem
    by_cases hkk : k2 = k
    · subst hkk
      have : a2 = a := mem_nodup_keys_unique m k2 a2 a hnd hmem hk
      subst this
      exact ⟨v, (mem_mapSet_present m k2 v a2 hk k2 v).2 (Or.inl ⟨rfl, rfl⟩), h1, h2, h3⟩
    · exact ⟨a2, (mem_mapSet_present m k v a hk k2 a2).2 (Or.inr ⟨hkk, hmem⟩), rfl, rfl, rfl⟩

theorem sum_mapSet_present (f : fsDirAggregate → Int) (m : List (String × fsDirAggregate))
    (k : String) (a v : fsDirAggregate) (hnd : (m.map Prod.fst).Nodup) (hk : (k, a) ∈ m) :
    ((mapSet m k v).map (fun e => f e.2)).sum = (m.map (fun e => f e.2)).sum - f a + f v := by
  rw [mapSet_present m k v a hk]
  induction m with
  | nil => exact absurd hk (List.not_mem_nil _)
  | cons e rest ih =>
    rw [List.map_cons, List.nodup_cons] at hnd
    obtain ⟨hnot, hrest⟩ := hnd
    rcases List.mem_cons.1 hk with rfl | hk2
    · have hid : rest.map (fun e => if e.1 = k then (k, v) else e) = rest := by
        conv_rhs => rw [← List.map_id rest]
        apply List.map_congr_left
        intro e he
        rw [if_neg]
        · rfl
        · intro hek
          exact hnot (List.mem_map.2 ⟨e, he, hek⟩)
      simp only [List.map_cons, if_true, List.sum_cons, hid]
      ring
    · have hne : ¬ e.1 = k := by
        intro hek
        exact hnot (List.mem_map.2 ⟨(k, a), hk2, hek.symm⟩)
      simp only [List.map_cons, if_neg hne, List.sum_cons]
      rw [ih hrest hk2]
      ring

theorem registerDir_dirStats (cfg : ScanConfig) (frame : scanDirFrame) (s : WalkState)
    (x : String) :
    (registerDir cfg frame s x).dirStats =
      match mapGet s.dirStats x with
      | some _ => s.dirStats
      | none => mapSet s.dirStats x ⟨x, frame.path, frame.depth + 1, 0, 0⟩ := by
  have key : ∀ s1 : WalkState, (if frame.depth + 1 ≤ cfg.maxDepth then
      if s1.visitedDirs.contains x = true then s1
      else { s1 with visitedDirs := x :: s1.visitedDirs
                     dirStack := ⟨x, frame.depth + 1⟩ :: s1.dirStack }
      else s1).dirStats = s1.dirStats := by
    intro s1
    split
    · split <;> rfl
    · rfl
  unfold registerDir
  simp only
  rw [key]
  cases mapGet s.dirStats x <;> rfl

theorem registerDir_dirStack_cases (cfg : ScanConfig) (frame : scanDirFrame) (s : WalkState)
    (x : String) :
    (registerDir cfg frame s x).dirStack = s.dirStack ∨
    (registerDir cfg frame s x).dirStack = ⟨x, frame.depth + 1⟩ :: s.dirStack := by
  unfold registerDir
  simp only
  cases mapGet s.dirStats x with
  | some a =>
    simp only
    split
    · split
      · exact Or.inl rfl
      · exact Or.inr rfl
    · exact Or.inl rfl
  | none =>
    simp only
    split
    · split
      · exact Or.inl rfl
      · exact Or.inr rfl
    · exact Or.inl rfl

/-- Registering a directory entry of the frame being listed keeps the tree. -/
theorem dirTree_registerDir (cfg : ScanConfig) (root : String) (frame : scanDirFrame)
    (s : WalkState) (name : String) (hname : ValidName name)
    (h : DirTree root s.dirStats s.dirStack) (hsum : SumsMatch s)
    (hfa : ∃ fa, (frame.path, fa) ∈ s.dirStats ∧ fa.Depth = frame.depth) :
    DirTree root (registerDir cfg frame s (filepathJoin frame.path name)).dirStats
      (registerDir cfg frame s (filepathJoin frame.path name)).dirStack ∧
    SumsMatch (registerDir cfg frame s (filepathJoin frame.path name)) ∧
    ∃ fa, (frame.path, fa) ∈ (registerDir cfg frame s (filepathJoin frame.path name)).dirStats ∧
      fa.Depth = frame.depth := by
  obtain ⟨fa, hfam, hfd⟩ := hfa
  obtain ⟨w1, w2, w3⟩ := h.wf _ _ hfam
  have hrank := filepathJoin_rank frame.path name w2 hname
  generalize hx : filepathJoin frame.path name = x at hrank ⊢
  have hxroot : x ≠ root := by
    intro e
    rw [e] at hrank
    omega
  have hstack := registerDir_dirStack_cases cfg frame s x
  have hstats := registerDir_dirStats cfg frame s x
  unfold SumsMatch
  rw [registerDir_bytesScanned, registerDir_filesScanned]
  cases hget : mapGet s.dirStats x with
  | some a2 =>
    rw [hget] at hstats
    simp only at hstats
    rw [hstats]
    refine ⟨?_, hsum, fa, hfam, hfd⟩
    have hxm : (x, a2) ∈ s.dirStats := lookup_some_mem _ _ _ hget
    obtain ⟨pa, name2, p1, p2, p3, p4⟩ := h.parent x a2 hxm hxroot
    have hpne := (h.wf _ _ p1).2.1
    rw [← hx] at p4
    obtain ⟨e1, _⟩ := filepathJoin_inj frame.path a2.Parent name name2 w2 hpne hname p3 p4
    rw [← e1] at p1
    have := mem_nodup_keys_unique _ _ _ _ h.keysNodup p1 hfam
    subst this
    refine ⟨h.keysNodup, h.rootIn, h.wf, h.parent, ?_⟩
    intro f hf
    rcases hstack with e2 | e2
    · rw [e2] at hf
      exact h.frames f hf
    · rw [e2] at hf
      rcases List.mem_cons.1 hf with rfl | hf
      · exact ⟨a2, hxm, by simp only; omega⟩
      · exact h.frames f hf
  | none =>
    rw [hget] at hstats
    simp only at hstats
    have hfresh : ∀ e ∈ s.dirStats, e.1 ≠ x := lookup_none_not_mem _ _ hget
    rw [mapSet_fresh _ _ _ hfresh] at hstats
    rw [hstats]
    refine ⟨?_, ?_, fa, List.mem_append_left _ hfam, hfd⟩
    · refine ⟨?_, ?_, ?_, ?_, ?_⟩
      · rw [List.map_append, List.nodup_append]
        refine ⟨h.keysNodup, by simp, ?_⟩
        intro a ha hb
        simp only [List.map_cons, List.map_nil, List.mem_singleton] at hb
        obtain ⟨y, hy, rfl⟩ := List.mem_map.1 ha
        exact hfresh y hy hb
      · obtain ⟨a, ha, hp⟩ := h.rootIn
        exact ⟨a, List.mem_append_left _ ha, hp⟩
      · intro k a hk
        rcases List.mem_append.1 hk with hk | hk
        · exact h.wf k a hk
        · rw [List.mem_singleton] at hk
          obtain ⟨rfl, rfl⟩ := Prod.mk.inj hk
          refine ⟨rfl, ?_, by omega⟩
          rw [← hx]
          exact filepathJoin_ne_empty _ _ hname
      · intro k a hk hne
        rcases List.mem_append.1 hk with hk | hk
        · obtain ⟨pa, name2, p1, p2, p3, p4⟩ := h.parent k a hk hne
          exact ⟨pa, name2, List.mem_append_left _ p1, p2, p3, p4⟩
        · rw [List.mem_singleton] at hk
          obtain ⟨rfl, rfl⟩ := Prod.mk.inj hk
          exact ⟨fa, name, List.mem_append_left _ hfam, by simp only; omega, hname, hx.symm⟩
      · intro f hf
        rcases hstack with e2 | e2
        · rw [e2] at hf
          obtain ⟨a, ha, hd⟩ := h.frames f hf
          exact ⟨a, List.mem_append_left _ ha, hd⟩
        · rw [e2] at hf
          rcases List.mem_cons.1 hf with rfl | hf
          · exact ⟨_, List.mem_append_right _ (List.mem_singleton.2 rfl), rfl⟩
          · obtain ⟨a, ha, hd⟩ := h.frames f hf
            exact ⟨a, List.mem_append_left _ ha, hd⟩
    · obtain ⟨s1, s2⟩ := hsum
      unfold SumsMatch at *
      constructor
      · rw [List.map_append, List.sum_append, s1]
        simp
      · rw [List.map_append, List.sum_append, s2]
        simp

/-- Counting a file of the frame being listed keeps the tree and the sums. -/
theorem dirTree_visitFile (env : ScanEnv) (cfg : ScanConfig) (root : String)
    (frame : scanDirFrame) (s : WalkState) (x : String) (info : FileInfo)
    (h : DirTree root s.dirStats s.dirStack) (hsum : SumsMatch s)
    (hfa : ∃ fa, (frame.path, fa) ∈ s.dirStats ∧ fa.Depth = frame.depth) :
    DirTree root (visitFile env cfg frame s x info).dirStats
      (visitFile env cfg frame s x info).dirStack ∧
    SumsMatch (visitFile env cfg frame s x info) ∧
    ∃ fa, (frame.path, fa) ∈ (visitFile env cfg frame s x info).dirStats ∧
      fa.Depth = frame.depth := by
  obtain ⟨fa, hfam, hfd⟩ := hfa
  have hget : mapGet s.dirStats frame.path = some fa :=
    lookup_of_mem_nodup _ _ _ h.keysNodup hfam
  have hstats := visitFile_dirStats env cfg frame s x info
  rw [hget] at hstats
  simp only at hstats
  unfold SumsMatch
  rw [visitFile_dirStack, visitFile_bytesScanned, visitFile_filesScanned, hstats]
  refine ⟨?_, ⟨?_, ?_⟩, ?_⟩
  · exact dirTree_sameShape root _ _ _ h
      (sameShape_mapSet _ _ fa _ h.keysNodup hfam rfl rfl rfl)
  · rw [sum_mapSet_present fsDirAggregate.SizeBytes _ _ fa _ h.keysNodup hfam, hsum.1]
    simp only
    ring
  · rw [sum_mapSet_present fsDirAggregate.FileCount _ _ fa _ h.keysNodup hfam, hsum.2]
    simp only
    ring
  · exact ⟨_, (mem_mapSet_present _ _ _ fa hfam _ _).2 (Or.inl ⟨rfl, rfl⟩), hfd⟩

theorem dirTree_processEntry (env : ScanEnv) (cfg : ScanConfig) (root : String)
    (frame : scanDirFrame) (s : WalkState) (entry : DirEntry) (hname : ValidName entry.name)
    (h : DirTree root s.dirStats s.dirStack ∧ SumsMatch s ∧
      ∃ fa, (frame.path, fa) ∈ s.dirStats ∧ fa.Depth = frame.depth) :
    DirTree root (processEntry env cfg frame s entry).1.dirStats
      (processEntry env cfg frame s entry).1.dirStack ∧
    SumsMatch (processEntry env cfg frame s entry).1 ∧
    ∃ fa, (frame.path, fa) ∈ (processEntry env cfg frame s entry).1.dirStats ∧
      fa.Depth = frame.depth := by
  apply processEntry_cases (fun r => DirTree root r.1.dirStats r.1.dirStack ∧ SumsMatch r.1 ∧
    ∃ fa, (frame.path, fa) ∈ r.1.dirStats ∧ fa.Depth = frame.depth)
  · intro _
    exact h
  · intro _ _
    exact h
  · intro _ _ e _
    exact h
  · intro _ _ info _ _ _
    exact h
  · intro _ _ target _ _
    exact dirTree_registerDir cfg root frame (enterEntry s) entry.name hname h.1 h.2.1 h.2.2
  · intro _ _ target _ _
    exact dirTree_visitFile env cfg root frame (enterEntry s) _ target h.1 h.2.1 h.2.2

theorem dirTree_walkStep (env : ScanEnv) (cfg : ScanConfig) (root : String)
    (hnames : ValidNames env) (frame : scanDirFrame) (rest : List scanDirFrame)
    (s : WalkState) (hs : s.dirStack = frame :: rest)
    (h : DirTree root s.dirStats s.dirStack ∧ SumsMatch s) :
    DirTree root (walkStep env cfg frame rest s).1.dirStats
      (walkStep env cfg frame rest s).1.dirStack ∧
    SumsMatch (walkStep env cfg frame rest s).1 := by
  obtain ⟨ht, hsum⟩ := h
  have hpop : DirTree root s.dirStats rest :=
    ⟨ht.keysNodup, ht.rootIn, ht.wf, ht.parent,
      fun f hf => ht.frames f (by rw [hs]; exact List.mem_cons_of_mem _ hf)⟩
  have hframe := ht.frames frame (by rw [hs]; exact List.mem_cons_self _ _)
  apply walkStep_cases (fun r => DirTree root r.1.dirStats r.1.dirStack ∧ SumsMatch r.1)
  · intro _
    exact ⟨ht, hsum⟩
  · intro _ e _
    exact ⟨hpop, hsum⟩
  · intro _ entries hread
    have hloop := processEntries_induct
      (fun es t => (∀ e ∈ es, ValidName e.name) ∧
        DirTree root t.dirStats t.dirStack ∧ SumsMatch t ∧
        ∃ fa, (frame.path, fa) ∈ t.dirStats ∧ fa.Depth = frame.depth)
      (fun t => DirTree root t.dirStats t.dirStack ∧ SumsMatch t)
      env cfg frame
      (fun entry es t hi =>
        ⟨fun _ => ⟨fun e he => hi.1 e (List.mem_cons_of_mem _ he),
            dirTree_processEntry env cfg root frame t entry
              (hi.1 entry (List.mem_cons_self _ _)) hi.2⟩,
         fun _ =>
          ⟨(dirTree_processEntry env cfg root frame t entry
              (hi.1 entry (List.mem_cons_self _ _)) hi.2).1,
           (dirTree_processEntry env cfg root frame t entry
              (hi.1 entry (List.mem_cons_self _ _)) hi.2).2.1⟩⟩)
      entries (openDir frame (popFrame s rest))
      ⟨hnames frame.path entries hread, hpop, hsum, hframe⟩
    cases hflag : (processEntries env cfg frame entries (openDir frame (popFrame s rest))).2 with
    | false => exact ⟨(hloop.1 hflag).2.1, (hloop.1 hflag).2.2.1⟩
    | true => exact hloop.2 hflag

/-- At the end of the traversal, however it ends, the registered directories form a tree and
hold every byte and file counted. -/
theorem dirTree_mainWalk (env : ScanEnv) (cfg : ScanConfig) (root : String)
    (hroot : root ≠ "") (hnames : ValidNames env) (w : WalkState)
    (hw : mainWalk env cfg root = some w) :
    DirTree root w.dirStats w.dirStack ∧ SumsMatch w := by
  have hinit : DirTree root (initialState root).dirStats (initialState root).dirStack ∧
      SumsMatch (initialState root) := by
    refine ⟨⟨List.nodup_singleton _, ⟨_, List.mem_singleton.2 rfl, rfl⟩, ?_, ?_, ?_⟩,
      rfl, rfl⟩
    · intro k a hk
      simp only [initialState, List.mem_singleton, Prod.mk.injEq] at hk
      obtain ⟨rfl, rfl⟩ := hk
      exact ⟨rfl, hroot, le_refl _⟩
    · intro k a hk hne
      simp only [initialState, List.mem_singleton, Prod.mk.injEq] at hk
      exact absurd hk.1 hne
    · intro f hf
      simp only [initialState, List.mem_singleton] at hf
      subst hf
      exact ⟨_, List.mem_singleton.2 rfl, rfl⟩
  unfold mainWalk at hw
  exact walkLoop_induct (fun t => DirTree root t.dirStats t.dirStack ∧ SumsMatch t)
    (fun t => DirTree root t.dirStats t.dirStack ∧ SumsMatch t) env cfg
    (fun frame rest s hi hs =>
      ⟨fun _ => dirTree_walkStep env cfg root hnames frame rest s hs hi,
       fun _ => dirTree_walkStep env cfg root hnames frame rest s hs hi⟩)
    (fun s hi _ => hi) _ _ w hinit hw

/-! ## The root holds everything -/

theorem sum_ite_key (K : List String) (hnd : K.Nodup) (p : String) (x : Int) :
    (K.map (fun k => if p = k then x else 0)).sum = if p ∈ K then x else 0 := by
  induction K with
  | nil => rfl
  | cons k rest ih =>
    rw [List.nodup_cons] at hnd
    rw [List.map_cons, List.sum_cons, ih hnd.2]
    by_cases h : p = k
    · subst h
      rw [if_pos rfl, if_neg hnd.1, if_pos (List.mem_cons_self _ _)]
      ring
    · rw [if_neg h]
      by_cases h2 : p ∈ rest
      · rw [if_pos h2, if_pos (List.mem_cons_of_mem _ h2)]
        ring
      · rw [if_neg h2, if_neg (by
          intro h3
          rcases List.mem_cons.1 h3 with h3 | h3
          · exact h h3
          · exact h2 h3)]
        ring

theorem childSum_cons (total : String → Int) (c : fsDirAggregate) (l : List fsDirAggregate)
    (k : String) :
    childSum total (c :: l) k = (if c.Parent = k then total c.Path else 0) + childSum total l k := by
  have e : c :: l = [c] ++ l := rfl
  rw [e, childSum_append, childSum_single]

/-- Summed over all keys, the children's totals are the totals of the aggregates that have a
parent among the keys. -/
theorem sum_childSum (total : String → Int) (K : List String) (hnd : K.Nodup)
    (l : List fsDirAggregate) :
    (K.map (fun k => childSum total l k)).sum =
      (l.map (fun c => if c.Parent ∈ K then total c.Path else 0)).sum := by
  induction l with
  | nil =>
    simp only [childSum, List.filter_nil, List.map_nil, List.sum_nil]
    induction K with
    | nil => rfl
    | cons k rest ih =>
      rw [List.map_cons, List.sum_cons, ih (List.nodup_cons.1 hnd).2]
      rfl
  | cons c rest ih =>
    have e : (K.map (fun k => childSum total (c :: rest) k)) =
        K.map (fun k => (if c.Parent = k then total c.Path else 0) + childSum total rest k) := by
      apply List.map_congr_left
      intro k _
      exact childSum_cons total c rest k
    rw [e, List.sum_map_add, ih, sum_ite_key K hnd c.Parent (total c.Path), List.map_cons,
      List.sum_cons]

theorem sum_single_key (f : String × fsDirAggregate → Int)
    (m : List (String × fsDirAggregate)) (hnd : (m.map Prod.fst).Nodup) (k : String)
    (a : fsDirAggregate) (hk : (k, a) ∈ m) (hzero : ∀ e ∈ m, e.1 ≠ k → f e = 0) :
    (m.map f).sum = f (k, a) := by
  induction m with
  | nil => exact absurd hk (List.not_mem_nil _)
  | cons e rest ih =>
    rw [List.map_cons, List.nodup_cons] at hnd
    obtain ⟨hnot, hrest⟩ := hnd
    rw [List.map_cons, List.sum_cons]
    rcases List.mem_cons.1 hk with rfl | hk2
    · have hz : (rest.map f).sum = 0 := by
        apply List.sum_eq_zero
        intro y hy
        obtain ⟨e, he, rfl⟩ := List.mem_map.1 hy
        apply hzero e (List.mem_cons_of_mem _ he)
        intro hek
        exact hnot (List.mem_map.2 ⟨e, he, hek⟩)
      rw [hz]
      ring
    · have hne : e.1 ≠ k := by
        intro hek
        exact hnot (List.mem_map.2 ⟨(k, a), hk2, hek.symm⟩)
      rw [hzero e (List.mem_cons_self _ _) hne,
        ih hrest hk2 (fun y hy => hzero y (List.mem_cons_of_mem _ hy))]
      ring

/-- In a map ready for the roll-up whose only aggregate without parent is stored under
`root`, a total that obeys the recursion of the roll-up gives the root the sum of the own
values of all aggregates. -/
theorem root_total_is_sum (own : fsDirAggregate → Int) (m : List (String × fsDirAggregate))
    (hready : RollReady m) (total : String → Int)
    (hT : ∀ k a, (k, a) ∈ m → total k = own a + childSum total (m.map Prod.snd) k)
    (root : String) (ra : fsDirAggregate) (hroot : (root, ra) ∈ m)
    (honly : ∀ k a, (k, a) ∈ m → (a.Parent = "" ↔ k = root)) :
    total root = (m.map (fun e => own e.2)).sum := by
  obtain ⟨hnd, hpath, hpar⟩ := hready
  have hkeymem : ∀ k a, (k, a) ∈ m → (a.Parent ∈ m.map Prod.fst ↔ k ≠ root) := by
    intro k a hk
    constructor
    · intro hin hkr
      obtain ⟨pa, hpa⟩ := mem_keys_exists m _ hin
      have := (honly k a hk).2 hkr
      rw [this] at hpa
      exact (hpath _ _ hpa).2 rfl
    · intro hne
      have hpne : a.Parent ≠ "" := fun e => hne ((honly k a hk).1 e)
      obtain ⟨pa, hpa, _⟩ := hpar k a hk hpne
      exact List.mem_map.2 ⟨_, hpa, rfl⟩
  have e1 : (m.map (fun e => total e.1)).sum =
      (m.map (fun e => own e.2)).sum +
        (m.map (fun e => if e.1 ≠ root then total e.1 else 0)).sum := by
    have c1 : m.map (fun e => total e.1) =
        m.map (fun e => own e.2 + childSum total (m.map Prod.snd) e.1) := by
      apply List.map_congr_left
      intro e he
      exact hT e.1 e.2 he
    rw [c1, List.sum_map_add]
    congr 1
    have c2 : (m.map (fun e => childSum total (m.map Prod.snd) e.1)).sum =
        ((m.map Prod.fst).map (fun k => childSum total (m.map Prod.snd) k)).sum := by
      rw [List.map_map]
      rfl
    rw [c2, sum_childSum total _ hnd, List.map_map]
    congr 1
    apply List.map_congr_left
    intro e he
    simp only [Function.comp]
    rw [(hpath e.1 e.2 he).1]
    by_cases hr : e.1 = root
    · rw [if_neg (fun hin => ((hkeymem e.1 e.2 he).1 hin) hr), if_neg (by simpa using hr)]
    · rw [if_pos ((hkeymem e.1 e.2 he).2 hr), if_pos hr]
  have e2 : (m.map (fun e => total e.1)).sum =
      (m.map (fun e => if e.1 = root then total e.1 else 0)).sum +
        (m.map (fun e => if e.1 ≠ root then total e.1 else 0)).sum := by
    rw [← List.sum_map_add]
    congr 1
    apply List.map_congr_left
    intro e _
    by_cases hr : e.1 = root
    · rw [if_pos hr, if_neg (by simpa using hr)]
      ring
    · rw [if_neg hr, if_pos hr]
      ring
  have e3 : (m.map (fun e => if e.1 = root then total e.1 else 0)).sum = total root := by
    rw [sum_single_key _ m hnd root ra hroot (fun e _ hne => if_neg hne)]
    simp
  rw [← e3]
  omega

theorem dirTree_rollReady (root : String) (m : List (String × fsDirAggregate))
    (stack : List scanDirFrame) (h : DirTree root m stack) : RollReady m := by
  refine ⟨h.keysNodup, fun k a hk => ⟨(h.wf k a hk).1, (h.wf k a hk).2.1⟩, ?_⟩
  intro k a hk hne
  by_cases hr : k = root
  · obtain ⟨ra, hra, hpar⟩ := h.rootIn
    rw [hr] at hk
    have := mem_nodup_keys_unique m root a ra h.keysNodup hk hra
    rw [this] at hne
    exact absurd hpar hne
  · obtain ⟨pa, _, hpa, hd, _, _⟩ := h.parent k a hk hr
    exact ⟨pa, hpa, by omega⟩

theorem dirTree_only_root (root : String) (m : List (String × fsDirAggregate))
    (stack : List scanDirFrame) (h : DirTree root m stack) (k : String) (a : fsDirAggregate)
    (hk : (k, a) ∈ m) : a.Parent = "" ↔ k = root := by
  constructor
  · intro hp
    by_contra hr
    obtain ⟨pa, _, hpa, _, _, _⟩ := h.parent k a hk hr
    rw [hp] at hpa
    exact (h.wf _ _ hpa).2.1 rfl
  · intro hr
    obtain ⟨ra, hra, hpar⟩ := h.rootIn
    rw [hr] at hk
    rw [mem_nodup_keys_unique m root a ra h.keysNodup hk hra]
    exact hpar

theorem treeLike_validNames (env : ScanEnv) (h : TreeLike env) : ValidNames env := by
  intro path entries hread e he
  obtain ⟨entries2, h2, _, hall⟩ := h path
  rw [hread] at h2
  cases h2
  exact (hall e he).1

/-- C22: for every root path that is not empty, every configuration and every file system
whose listings return single path components as names, the traversal ends in a state `w` and
the scan returns a response, and after the roll-up pass the aggregate of the root holds as
size the counter `bytesScanned` and as file count the counter `filesScanned` of the
traversal, which are the totals of the summary of the response; whether the traversal ended
with an empty stack or was cut short by a bound plays no part.  Every other registered
directory has its parent registered one level up, so its values reach the root. -/
theorem root_totals_match_counters (env : ScanEnv) (hsort : SortSliceSpec env.sortSlice)
    (hrange : MapRangeSpec (env.mapRange 0)) (cfg : ScanConfig) (root : String)
    (hroot : root ≠ "") (hnames : ValidNames env) :
    ∃ w resp ra, mainWalk env cfg root = some w ∧ analyzeFrom env cfg root = some resp ∧
      mapGet (rollUp env w.dirStats) root = some ra ∧
      ra.SizeBytes = w.bytesScanned ∧ ra.FileCount = w.filesScanned ∧
      resp.Summary.BytesScanned = w.bytesScanned ∧
      resp.Summary.FilesScanned = w.filesScanned ∧
      ∀ k a, mapGet w.dirStats k = some a → k ≠ root →
        ∃ pa, mapGet w.dirStats a.Parent = some pa ∧ a.Depth = pa.Depth + 1 := by
  obtain ⟨w, t, resp, hw, hkeep, hresp, _, _, hsum, _⟩ := analyzeFrom_returns env cfg root
  obtain ⟨htree, hs1, hs2⟩ := dirTree_mainWalk env cfg root hroot hnames w hw
  have hready := dirTree_rollReady root _ _ htree
  obtain ⟨r0, hr0, _⟩ := htree.rootIn
  obtain ⟨hkeys, hall⟩ := rollUp_size_and_count env hsort hrange w.dirStats hready
    (cumulativeOf fsDirAggregate.SizeBytes w.dirStats)
    (cumulativeOf fsDirAggregate.FileCount w.dirStats)
    (cumulativeOf_recursion fsDirAggregate.SizeBytes w.dirStats hready)
    (cumulativeOf_recursion fsDirAggregate.FileCount w.dirStats hready)
  obtain ⟨ra, hra⟩ := mem_keys_exists (rollUp env w.dirStats) root (by
    rw [hkeys]
    exact List.mem_map.2 ⟨_, hr0, rfl⟩)
  obtain ⟨a0, _, _, _, _, x5, x6⟩ := hall root ra hra
  refine ⟨w, resp, ra, hw, hresp,
    lookup_of_mem_nodup _ root ra (by rw [hkeys]; exact hready.1) hra, ?_, ?_, ?_, ?_, ?_⟩
  · rw [x5, ← hs1]
    exact root_total_is_sum fsDirAggregate.SizeBytes w.dirStats hready _
      (cumulativeOf_recursion fsDirAggregate.SizeBytes w.dirStats hready) root r0 hr0
      (dirTree_only_root root _ _ htree)
  · rw [x6, ← hs2]
    exact root_total_is_sum fsDirAggregate.FileCount w.dirStats hready _
      (cumulativeOf_recursion fsDirAggregate.FileCount w.dirStats hready) root r0 hr0
      (dirTree_only_root root _ _ htree)
  · rw [hsum]
    exact hkeep.2.2.1
  · rw [hsum]
    exact hkeep.1
  · intro k a hget hne
    obtain ⟨pa, _, hpa, hd, _, _⟩ := htree.parent k a (lookup_some_mem _ k a hget) hne
    exact ⟨pa, lookup_of_mem_nodup _ _ pa htree.keysNodup hpa, hd⟩

/-- Witness for C22: the sample tree scanned with at most four entries.  The traversal is
cut short inside `/data/a/b`, after `r.txt` (1 byte, in the root) and `g.txt` (2 bytes, in
`/data/a`); the response is partial, and after the roll-up the root holds the three bytes and
the two files counted. -/
theorem root_totals_match_counters_witness :
    "/data" ≠ "" ∧ ValidNames sampleEnv ∧
    ∃ w resp ra, mainWalk sampleEnv (sampleConfig 5 4) "/data" = some w ∧
      analyzeFrom sampleEnv (sampleConfig 5 4) "/data" = some resp ∧
      resp.Partial = true ∧ resp.Reason = "max entries reached" ∧
      mapGet (rollUp sampleEnv w.dirStats) "/data" = some ra ∧
      ra.SizeBytes = 3 ∧ ra.FileCount = 2 ∧
      resp.Summary.BytesScanned = 3 ∧ resp.Summary.FilesScanned = 2 := by
  refine ⟨by decide, treeLike_validNames _ sampleEnv_treeLike, ?_⟩
  obtain ⟨w, resp, ra, hw, hresp, hra, h1, h2, h3, h4, _⟩ :=
    root_totals_match_counters sampleEnv insertionSortFunc_spec
      (fun {V : Type} m => List.Perm.refl m) (sampleConfig 5 4) "/data" (by decide)
      (treeLike_validNames _ sampleEnv_treeLike)
  have e1 : (mainWalk sampleEnv (sampleConfig 5 4) "/data").map
      (fun w => (w.bytesScanned, w.filesScanned)) = some (3, 2) := by decide
  have e2 : (analyzeFrom sampleEnv (sampleConfig 5 4) "/data").map
      (fun r => (r.Partial, r.Reason)) = some (true, "max entries reached") := by decide
  rw [hw] at e1
  rw [hresp] at e2
  simp only [Option.map_some', Option.some.injEq, Prod.mk.injEq] at e1 e2
  obtain ⟨b1, b2⟩ := e1
  refine ⟨w, resp, ra, hw, hresp, e2.1, e2.2, hra, ?_, ?_, ?_, ?_⟩
  · rw [h1, b1]
  · rw [h2, b2]
  · rw [h3, b1]
  · rw [h4, b2]

end FsAnalysis
